import Mathlib

/-!
# Voronoi renderer (`main.go`): shallow embedding and verified properties

The embedding follows `main.go` function by function.

* Go `int` is the 64-bit two's-complement integer: every `+`, `-` and `++` of the
  source is followed by `wrapInt`.
* Go `float64` is IEEE-754 binary64 with round-to-nearest-even.  A finite value is
  stored exactly, as the integer number of quanta `2^-1074` (the smallest positive
  subnormal) it consists of; the two zeros are identified, which is sound here
  because the program only compares floats.  Every operation of `dx*dx + dy*dy` is
  rounded on its own (no fused multiply-add); the concrete inputs evaluated below
  give the same values with a fused sum, since their products are exact.
* `image.RGBA` is a width, a height and the row-major list of its pixels
  (`Rect.Min = (0, 0)`, as in `main`).
* The two `for ... <= ...` loops of `Circle.Draw` can run forever when the upper
  bound is the largest `int`, so they are run with fuel.  The loops
  `for x := 0; x < imageWidth; x++` of `fillImage` and `main` cannot overflow and
  are folds over `List.range`; the constants `imageWidth` and `imageHeight` are the
  parameters `W` and `H` of the embedding.
-/

set_option exponentiation.threshold 5000

namespace Voronoi

/-! ## Go `int` -/

/-- Two's-complement wrap-around of a 64-bit Go `int`. -/
def wrapInt (z : Int) : Int := (z + 2 ^ 63) % 2 ^ 64 - 2 ^ 63

/-- Largest Go `int`, `math.MaxInt64`. -/
def maxInt : Int := 2 ^ 63 - 1

/-- Smallest Go `int`, `math.MinInt64`. -/
def minInt : Int := -2 ^ 63

/-! ## IEEE-754 binary64 -/

/-- Bit length of `n` computed with fuel (64 bits at a time while possible). -/
def bitsAux : Nat → Nat → Nat
  | 0, _ => 0
  | f + 1, n =>
    if n = 0 then 0
    else if 2 ^ 64 ≤ n then bitsAux f (n / 2 ^ 64) + 64
    else bitsAux f (n / 2) + 1

/-- Bit length: the least `b` with `n < 2 ^ b`. -/
def bits (n : Nat) : Nat := bitsAux n n

/-- Newton iteration for the integer square root, started above the root. -/
def newton : Nat → Nat → Nat → Nat
  | 0, _, x => x
  | f + 1, n, x =>
    let y := (x + n / x) / 2
    if y < x then newton f n y else x

/-- Integer square root: the largest `r` with `r * r ≤ n`. -/
def isqrt (n : Nat) : Nat :=
  if n = 0 then 0 else newton n n (2 ^ ((bits n + 1) / 2))

/-- Round-to-nearest-even, exponent range unbounded above: the non-negative real
`n * 2^-k` quanta is rounded to a whole number of quanta with at most 53
significant bits. -/
def roundNat (n k : Nat) : Nat :=
  let s := max (bits n - 53) k
  let q := n / 2 ^ s
  let r := n % 2 ^ s
  (if 2 ^ s < 2 * r ∨ (2 * r = 2 ^ s ∧ q % 2 = 1) then q + 1 else q) * 2 ^ (s - k)

/-- Nearest-even rounding of `n` to a multiple of `2 ^ s`, divided by `2 ^ s`. -/
def rne (n s : Nat) : Nat :=
  if 2 ^ s < 2 * (n % 2 ^ s) ∨ (2 * (n % 2 ^ s) = 2 ^ s ∧ n / 2 ^ s % 2 = 1)
  then n / 2 ^ s + 1 else n / 2 ^ s

/-- Position of the last bit `roundNat n k` keeps. -/
def shift (n k : Nat) : Nat := max (bits n - 53) k

/-- A `float64` value: `fin q` is the finite value `q * 2^-1074`. -/
inductive F64 where
  | fin (q : Int)
  | pinf
  | ninf
  | nan
  deriving DecidableEq, Repr

namespace F64

/-- Number of quanta of `2^1024`, the first magnitude that overflows. -/
def overflow : Nat := 2 ^ 2098

/-- Rounding of the real `± n * 2^-k` quanta to a `float64`. -/
def round (neg : Bool) (n k : Nat) : F64 :=
  let m := roundNat n k
  if overflow ≤ m then (if neg then ninf else pinf)
  else fin (if neg then -(m : Int) else (m : Int))

/-- Conversion `float64(z)` of a Go `int`. -/
def ofInt (z : Int) : F64 := round (decide (z < 0)) (z.natAbs * 2 ^ 1074) 0

/-- Negation. -/
def neg : F64 → F64
  | fin q => fin (-q)
  | pinf => ninf
  | ninf => pinf
  | nan => nan

/-- Product `a * b`. -/
def mul : F64 → F64 → F64
  | fin a, fin b => round (decide (a * b < 0)) (a * b).natAbs 1074
  | fin a, pinf => if a = 0 then nan else if a < 0 then ninf else pinf
  | fin a, ninf => if a = 0 then nan else if a < 0 then pinf else ninf
  | pinf, fin b => if b = 0 then nan else if b < 0 then ninf else pinf
  | ninf, fin b => if b = 0 then nan else if b < 0 then pinf else ninf
  | pinf, pinf => pinf
  | pinf, ninf => ninf
  | ninf, pinf => ninf
  | ninf, ninf => pinf
  | nan, _ => nan
  | _, nan => nan

/-- Sum `a + b`. -/
def add : F64 → F64 → F64
  | fin a, fin b => round (decide (a + b < 0)) (a + b).natAbs 0
  | fin _, pinf => pinf
  | fin _, ninf => ninf
  | pinf, fin _ => pinf
  | ninf, fin _ => ninf
  | pinf, pinf => pinf
  | ninf, ninf => ninf
  | pinf, ninf => nan
  | ninf, pinf => nan
  | nan, _ => nan
  | _, nan => nan

/-- Difference `a - b`. -/
def sub (a b : F64) : F64 := add a (neg b)

/-- Correctly rounded `math.Sqrt`. -/
def sqrt : F64 → F64
  | fin q =>
    if q < 0 then nan
    else if q = 0 then fin 0
    else
      let n := q.toNat * 2 ^ 1074
      let r := isqrt n
      round false (2 * r + (if r * r = n then 0 else 1)) 1
  | pinf => pinf
  | ninf => nan
  | nan => nan

/-- The integer whose rounding is the square root of `q` quanta: twice the integer
square root of `q * 2^1074`, plus a sticky bit. -/
def sqrtArg (q : Nat) : Nat :=
  2 * Nat.sqrt (q * 2 ^ 1074) +
    (if Nat.sqrt (q * 2 ^ 1074) * Nat.sqrt (q * 2 ^ 1074) = q * 2 ^ 1074 then 0 else 1)

/-- Comparison `a < b`. -/
def lt : F64 → F64 → Bool
  | fin a, fin b => decide (a < b)
  | fin _, pinf => true
  | ninf, fin _ => true
  | ninf, pinf => true
  | _, _ => false

/-- Comparison `a <= b`. -/
def le : F64 → F64 → Bool
  | fin a, fin b => decide (a ≤ b)
  | fin _, pinf => true
  | ninf, fin _ => true
  | ninf, pinf => true
  | pinf, pinf => true
  | ninf, ninf => true
  | _, _ => false

instance : Mul F64 := ⟨mul⟩
instance : Add F64 := ⟨add⟩
instance : Sub F64 := ⟨sub⟩

end F64

/-- The constant `math.MaxFloat64`, `(2^53 - 1) * 2^971`. -/
def MaxFloat64 : F64 := F64.fin ((2 ^ 53 - 1) * 2 ^ 2045)

/-! ## Data model -/

/-- The constant `imageWidth`. -/
def imageWidth : Nat := 800

/-- The constant `imageHeight`. -/
def imageHeight : Nat := 600

/-- The constant `seedCount`. -/
def seedCount : Nat := 20

/-- The constant `seedRadius`. -/
def seedRadius : Int := 3

/-- Go `image.Point`. -/
structure Point where
  X : Int
  Y : Int
  deriving DecidableEq, Repr

/-- The struct `Circle` of the source. -/
structure Circle where
  p : Point
  r : Int
  deriving DecidableEq, Repr

/-- Go `color.RGBA`; every colour stored in an `image.RGBA` has this form. -/
structure Color where
  R : Nat
  G : Nat
  B : Nat
  A : Nat
  deriving DecidableEq, Repr

/-- The struct `Seed` of the source: an embedded `Circle` and a colour. -/
structure Seed extends Circle where
  color : Color
  deriving DecidableEq, Repr

/-- Go `image.RGBA` with `Rect = (0,0)-(W,H)`; `Pix` holds one colour per pixel,
row after row. -/
structure Image where
  W : Nat
  H : Nat
  Pix : List Color
  deriving DecidableEq, Repr

namespace Image

/-- The test `image.Point{x, y}.In(img.Rect)`. -/
def inBounds (img : Image) (x y : Int) : Bool :=
  decide (0 ≤ x ∧ x < img.W ∧ 0 ≤ y ∧ y < img.H)

/-- Index of pixel `(x, y)` in `Pix` (`PixOffset`, counted in pixels). -/
def PixOffset (img : Image) (x y : Int) : Nat := (y * img.W + x).toNat

/-- The method `Set`: a write outside the rectangle is dropped. -/
def Set (img : Image) (x y : Int) (c : Color) : Image :=
  if img.inBounds x y then { img with Pix := img.Pix.set (img.PixOffset x y) c } else img

/-- The method `RGBAAt`: the zero colour outside the rectangle. -/
def At (img : Image) (x y : Int) : Color :=
  if img.inBounds x y then img.Pix.getD (img.PixOffset x y) ⟨0, 0, 0, 0⟩ else ⟨0, 0, 0, 0⟩

/-- An image buffer whose pixel list has the length its rectangle requires. -/
def WellFormed (img : Image) : Prop := img.Pix.length = img.W * img.H

end Image

/-- Go `image.NewRGBA` for the rectangle `(0,0)-(W,H)`: all pixels zero. -/
def NewRGBA (W H : Nat) : Image := ⟨W, H, List.replicate (W * H) ⟨0, 0, 0, 0⟩⟩

/-- The variable `COLOR_BACKGROUND`. -/
def COLOR_BACKGROUND : Color := ⟨18, 18, 18, 255⟩

/-- The variable `COLOR_SEED`: `color.Black`, which `Set` stores as opaque black. -/
def COLOR_SEED : Color := ⟨0, 0, 0, 255⟩

/-- The palette `colorList`. -/
def colorList : List Color :=
  [⟨0, 255, 255, 255⟩, ⟨0, 0, 255, 255⟩, ⟨255, 0, 255, 255⟩, ⟨0, 255, 0, 255⟩,
   ⟨255, 255, 0, 255⟩, ⟨0, 128, 128, 255⟩, ⟨192, 192, 192, 255⟩, ⟨128, 128, 128, 255⟩,
   ⟨0, 128, 0, 255⟩, ⟨0, 0, 128, 255⟩, ⟨128, 0, 0, 255⟩, ⟨128, 128, 0, 255⟩,
   ⟨128, 0, 128, 255⟩, ⟨255, 0, 0, 255⟩, ⟨255, 255, 255, 255⟩]

/-! ## Operations -/

/-- The method `Circle.IsInside`. -/
def Circle.IsInside (c : Circle) (p : Point) : Bool :=
  let dx := F64.ofInt (wrapInt (c.p.X - p.X))
  let dy := F64.ofInt (wrapInt (c.p.Y - p.Y))
  let dist := F64.sqrt (dx * dx + dy * dy)
  F64.le dist (F64.ofInt c.r)

/-- The method `Circle.Dist`. -/
def Circle.Dist (c : Circle) (p : Point) : F64 :=
  let dx := F64.ofInt (wrapInt (c.p.X - p.X))
  let dy := F64.ofInt (wrapInt (c.p.Y - p.Y))
  F64.sqrt (dx * dx + dy * dy) - F64.ofInt c.r

/-- The loop `for x := lo; x <= hi; x++ { body }` on Go `int`s, run with fuel:
`none` when the fuel does not suffice. -/
def forLE {σ : Type} (body : Int → σ → Option σ) (hi : Int) : Nat → Int → σ → Option σ
  | 0, _, _ => none
  | fuel + 1, x, s =>
    if x ≤ hi then (body x s).bind (forLE body hi fuel (wrapInt (x + 1))) else some s

/-- The method `Circle.Draw`, run with fuel. -/
def Circle.Draw (fuel : Nat) (c : Circle) (img : Image) (color : Color) : Option Image :=
  let pUpLeft : Point := ⟨wrapInt (c.p.X - c.r), wrapInt (c.p.Y - c.r)⟩
  let pDownRight : Point := ⟨wrapInt (c.p.X + c.r), wrapInt (c.p.Y + c.r)⟩
  forLE (fun x img =>
      forLE (fun y img =>
          some (if c.IsInside ⟨x, y⟩ then img.Set x y color else img))
        pDownRight.Y fuel pUpLeft.Y img)
    pDownRight.X fuel pUpLeft.X img

/-- The function `fillImage`; the loop bounds `imageWidth` and `imageHeight` are the
parameters `W` and `H`. -/
def fillImage (W H : Nat) (img : Image) (c : Color) : Image :=
  (List.range W).foldl (fun (img : Image) (x : Nat) =>
    (List.range H).foldl (fun (img : Image) (y : Nat) => img.Set x y c) img) img

/-- The loop of `getClosestSeed`: the running pair `(closestSeed, currentDist)`. -/
def closestStep (p : Point) (st : Seed × F64) (seed : Seed) : Seed × F64 :=
  let dist := seed.Dist p
  if F64.lt dist st.2 then (seed, dist) else st

/-- The function `getClosestSeed`; `none` is the index-out-of-range panic of `seeds[0]`. -/
def getClosestSeed (p : Point) (seeds : List Seed) : Option Seed :=
  match seeds with
  | [] => none
  | s0 :: _ => some (seeds.foldl (closestStep p) (s0, MaxFloat64)).1

/-- The seed generation loop of `main`. The random source is a state `σ` with the
method `Intn`; the constants `imageWidth` and `imageHeight` are `W` and `H`. -/
def genSeeds {σ : Type} (Intn : σ → Int → Int × σ) (W H : Nat) (rng : σ) : List Seed × σ :=
  (List.range seedCount).foldl (fun (st : List Seed × σ) i =>
      let (x, rng1) := Intn st.2 (wrapInt (W + 1))
      let (y, rng2) := Intn rng1 (wrapInt (H + 1))
      let c : Circle := ⟨⟨x, y⟩, seedRadius⟩
      (st.1.set i ⟨c, colorList.getD (i % colorList.length) ⟨0, 0, 0, 0⟩⟩, rng2))
    (List.replicate seedCount ⟨⟨⟨0, 0⟩, 0⟩, ⟨0, 0, 0, 0⟩⟩, rng)

/-- The cell colouring loop of `main`: every pixel gets the colour of its closest seed. -/
def colourCells (W H : Nat) (seeds : List Seed) (img : Image) : Option Image :=
  (List.range W).foldlM (fun (img : Image) (x : Nat) =>
    (List.range H).foldlM (fun (img : Image) (y : Nat) =>
      (getClosestSeed ⟨x, y⟩ seeds).map (fun seed => img.Set x y seed.color)) img) img

/-- The overlay loop of `main`: every seed's circle is drawn in the marker colour. -/
def drawSeeds (fuel : Nat) (seeds : List Seed) (marker : Color) (img : Image) : Option Image :=
  seeds.foldlM (fun img seed => seed.toCircle.Draw fuel img marker) img

/-- The render pipeline of `main` from the buffer `img` on: background fill, cell
colouring, seed overlay. -/
def renderFrom (W H fuel : Nat) (seeds : List Seed) (background marker : Color)
    (img : Image) : Option Image :=
  (colourCells W H seeds (fillImage W H img background)).bind (drawSeeds fuel seeds marker)

/-- The render pipeline of `main` on a fresh `W × H` buffer. -/
def render (W H fuel : Nat) (seeds : List Seed) (background marker : Color) : Option Image :=
  renderFrom W H fuel seeds background marker (NewRGBA W H)

/-- A value of the Go type `int`. -/
def IsInt64 (z : Int) : Prop := minInt ≤ z ∧ z ≤ maxInt

instance (z : Int) : Decidable (IsInt64 z) := by unfold IsInt64; infer_instance

/-- Seed A of the two-seed scenario: centre `(0,0)`, radius 1, colour red. -/
def seedA : Seed := ⟨⟨⟨0, 0⟩, 1⟩, ⟨255, 0, 0, 255⟩⟩

/-- Seed B of the two-seed scenario: centre `(9,9)`, radius 1, colour blue. -/
def seedB : Seed := ⟨⟨⟨9, 9⟩, 1⟩, ⟨0, 0, 255, 255⟩⟩

/-- The buffer after the writes `Set pt.X pt.Y (col pt)` for the points of `pts`, in order. -/
def paintF (img : Image) (pts : List Point) (col : Point → Color) : Image :=
  pts.foldl (fun im pt => im.Set pt.X pt.Y (col pt)) img

/-- The buffer after writing the one colour `k` at the points of `pts`, in order. -/
def paint (img : Image) (pts : List Point) (k : Color) : Image :=
  paintF img pts (fun _ => k)

/-- The pixels `Circle.Draw` passes to `Set`, in order: the loops of `Draw` with the
buffer replaced by the list of the points written so far. -/
def Circle.drawTrace (fuel : Nat) (c : Circle) : Option (List Point) :=
  let pUpLeft : Point := ⟨wrapInt (c.p.X - c.r), wrapInt (c.p.Y - c.r)⟩
  let pDownRight : Point := ⟨wrapInt (c.p.X + c.r), wrapInt (c.p.Y + c.r)⟩
  forLE (fun x acc =>
      forLE (fun y acc =>
          some (if c.IsInside ⟨x, y⟩ then acc ++ [⟨x, y⟩] else acc))
        pDownRight.Y fuel pUpLeft.Y acc)
    pDownRight.X fuel pUpLeft.X []

/-- The pixels of the grid `[0, W) × [0, H)`, column after column as the loops of
`main` visit them. -/
def grid (W H : Nat) : List Point :=
  (List.range W).flatMap (fun (x : Nat) =>
    (List.range H).map (fun (y : Nat) => Point.mk (x : Int) (y : Int)))

/-- The loop bounds of `Circle.Draw` stay clear of the ends of the `int` range: no bound
wraps around and no loop counter can overflow. -/
def Circle.NoOverflow (c : Circle) : Prop :=
  -2 ^ 63 ≤ c.p.X - c.r ∧ c.p.X - c.r < 2 ^ 63 - 1 ∧ -2 ^ 63 ≤ c.p.X + c.r ∧
  c.p.X + c.r < 2 ^ 63 - 1 ∧ -2 ^ 63 ≤ c.p.Y - c.r ∧ c.p.Y - c.r < 2 ^ 63 - 1 ∧
  -2 ^ 63 ≤ c.p.Y + c.r ∧ c.p.Y + c.r < 2 ^ 63 - 1

instance (c : Circle) : Decidable c.NoOverflow := by unfold Circle.NoOverflow; infer_instance

instance (img : Image) : Decidable img.WellFormed := by unfold Image.WellFormed; infer_instance

/-- The colour the cell colouring loop of `main` writes at a pixel. -/
def cellColor (seeds : List Seed) (pt : Point) : Color :=
  match getClosestSeed pt seeds with
  | some seed => seed.color
  | none => ⟨0, 0, 0, 0⟩

/-- The pixels the overlay loop of `main` passes to `Set`, in order. -/
def seedsTrace (fuel : Nat) (seeds : List Seed) : Option (List Point) :=
  seeds.foldlM (fun acc seed => (seed.toCircle.drawTrace fuel).map (fun pts => acc ++ pts)) []

/-- The centre coordinates and the radius have magnitude at most `2^25`, a range in
which every `float64` operation of `IsInside` on pixels below `2^25` is exact. -/
def Circle.Small (c : Circle) : Prop :=
  c.p.X.natAbs ≤ 2 ^ 25 ∧ c.p.Y.natAbs ≤ 2 ^ 25 ∧ c.r.natAbs ≤ 2 ^ 25

instance (c : Circle) : Decidable c.Small := by unfold Circle.Small; infer_instance

/-- The point `(a, b)` lies in the bounding square `Circle.Draw` scans. -/
def Circle.InSquare (c : Circle) (a b : Int) : Prop :=
  c.p.X - c.r ≤ a ∧ a ≤ c.p.X + c.r ∧ c.p.Y - c.r ≤ b ∧ b ≤ c.p.Y + c.r

instance (c : Circle) (a b : Int) : Decidable (c.InSquare a b) := by
  unfold Circle.InSquare; infer_instance

/-- A circle whose `float64` distance test rounds: centre `(2^53 + 1, 0)`, radius `2^53`. -/
def circleBig : Circle := ⟨⟨2 ^ 53 + 1, 0⟩, 2 ^ 53⟩

/-- A circle whose bounding square ends at the largest `int`: centre `(MaxInt64, 0)`,
radius 0. -/
def circleEdge : Circle := ⟨⟨maxInt, 0⟩, 0⟩

/-- The circle of centre `(1, 1)` and radius 1. -/
def circleUnit : Circle := ⟨⟨1, 1⟩, 1⟩

/-- The palette colour "Red". -/
def red : Color := ⟨255, 0, 0, 255⟩

/-- The palette colour "White". -/
def white : Color := ⟨255, 255, 255, 255⟩

/-- Opaque black. -/
def black : Color := ⟨0, 0, 0, 255⟩

/-- A seed on the circle `circleBig`. -/
def seedBig : Seed := ⟨circleBig, red⟩

/-- A seed whose squared distance to `(0,0)`, `2^60 + 1`, rounds to `2^60` in `float64`:
centre `(2^30, 1)`, radius `2^30`. -/
def seedFar : Seed := ⟨⟨⟨2 ^ 30, 1⟩, 2 ^ 30⟩, red⟩

/-- The seed of the one-seed scenario: centre `(5,5)`, radius 2, colour red. -/
def seedMid : Seed := ⟨⟨⟨5, 5⟩, 2⟩, red⟩

/-- One iteration of the seed generation loop of `main`, the body of `genSeeds`. -/
def genStep {σ : Type} (Intn : σ → Int → Int × σ) (W H : Nat) (st : List Seed × σ) (i : Nat) :
    List Seed × σ :=
  let (x, rng1) := Intn st.2 (wrapInt (W + 1))
  let (y, rng2) := Intn rng1 (wrapInt (H + 1))
  let c : Circle := ⟨⟨x, y⟩, seedRadius⟩
  (st.1.set i ⟨c, colorList.getD (i % colorList.length) ⟨0, 0, 0, 0⟩⟩, rng2)

/-- Round-to-nearest-even of a whole number of quanta, with its sign. -/
def rnd (x : Int) : Int :=
  if x < 0 then -((roundNat x.natAbs 0 : Nat) : Int) else ((roundNat x.natAbs 0 : Nat) : Int)

/-- The exact integer squared distance `(cx - px)^2 + (cy - py)^2` from a point to the
centre of a circle. -/
def Circle.sqDist (c : Circle) (p : Point) : Int :=
  (c.p.X - p.X) * (c.p.X - p.X) + (c.p.Y - p.Y) * (c.p.Y - p.Y)

/-- A random source whose `Intn(n)` returns an integer of `[0, n)` for every `n > 0`. -/
def ValidIntn {σ : Type} (Intn : σ → Int → Int × σ) : Prop :=
  ∀ (s : σ) (n : Int), 0 < n → 0 ≤ (Intn s n).1 ∧ (Intn s n).1 < n

/-- The random source that always returns the largest value `n - 1`. -/
def maxIntn (s : Unit) (n : Int) : Int × Unit := (n - 1, s)

/-- The circle of centre `(0, 0)` and radius 1. -/
def circleOrigin : Circle := ⟨⟨0, 0⟩, 1⟩

/-- The circle of centre `(3k, 4k)` and radius `5k` for `k = 326831327418569`: the
origin is at distance exactly `5k` from its centre. -/
def circleWide : Circle :=
  ⟨⟨3 * 326831327418569, 4 * 326831327418569⟩, 5 * 326831327418569⟩

/-- The scan the bounding square of `Circle.Draw` stands for: every pixel of the whole
image is visited and the pixels that pass `IsInside` are set. -/
def Circle.DrawWholeImage (c : Circle) (img : Image) (k : Color) : Image :=
  (grid img.W img.H).foldl (fun im pt => if c.IsInside pt then im.Set pt.X pt.Y k else im) img

/-- A seed at squared distance 2 from `(0,0)`, with the radius `2^53`. -/
def seedDiag : Seed := ⟨⟨⟨1, 1⟩, 2 ^ 53⟩, red⟩

/-- A seed at squared distance 1 from `(0,0)`, with the radius `2^53`. -/
def seedNear : Seed := ⟨⟨⟨1, 0⟩, 2 ^ 53⟩, white⟩

/-! # Theorems -/

/-! ## Bit length and integer square root -/

theorem bitsAux_le_iff (f : Nat) : ∀ n b : Nat, n ≤ f → (bitsAux f n ≤ b ↔ n < 2 ^ b) := by
  induction f with
  | zero =>
    intro n b hn
    have h0 : n = 0 := by omega
    subst h0
    simp [bitsAux]
  | succ f ih =>
    intro n b hn
    unfold bitsAux
    by_cases h0 : n = 0
    · subst h0; simp
    · rw [if_neg h0]
      by_cases h64 : 2 ^ 64 ≤ n
      · rw [if_pos h64]
        have hlt : n / 2 ^ 64 ≤ f := by
          have : n / 2 ^ 64 < n := Nat.div_lt_self (by omega) (by norm_num)
          omega
        by_cases hb : 64 ≤ b
        · have e : bitsAux f (n / 2 ^ 64) + 64 ≤ b ↔ bitsAux f (n / 2 ^ 64) ≤ b - 64 := by omega
          rw [e, ih _ _ hlt, Nat.div_lt_iff_lt_mul (by positivity), ← pow_add]
          rw [Nat.sub_add_cancel hb]
        · have hpow : 2 ^ b < 2 ^ 64 := Nat.pow_lt_pow_right (by norm_num) (by omega)
          constructor
          · intro h; omega
          · intro h; omega
      · rw [if_neg h64]
        have hlt : n / 2 ≤ f := by omega
        by_cases hb : 1 ≤ b
        · have e : bitsAux f (n / 2) + 1 ≤ b ↔ bitsAux f (n / 2) ≤ b - 1 := by omega
          rw [e, ih _ _ hlt, Nat.div_lt_iff_lt_mul (by norm_num)]
          have : 2 ^ b = 2 ^ (b - 1) * 2 := by
            rw [← pow_succ, Nat.sub_add_cancel hb]
          rw [this]
        · have hb0 : b = 0 := by omega
          subst hb0
          constructor
          · intro h; omega
          · intro h; simp at h; omega

theorem bits_le_iff (n b : Nat) : bits n ≤ b ↔ n < 2 ^ b :=
  bitsAux_le_iff n n b (le_refl n)

theorem lt_two_pow_bits (n : Nat) : n < 2 ^ bits n := (bits_le_iff n _).1 (le_refl _)

theorem lt_bits_iff (n b : Nat) : b < bits n ↔ 2 ^ b ≤ n := by
  rw [← not_le, bits_le_iff, not_lt]

theorem bits_mono {m n : Nat} (h : m ≤ n) : bits m ≤ bits n :=
  (bits_le_iff m _).2 (lt_of_le_of_lt h (lt_two_pow_bits n))

theorem newton_eq_sqrt (f : Nat) : ∀ n x : Nat, 0 < n → Nat.sqrt n ≤ x → x ≤ f + Nat.sqrt n →
    newton f n x = Nat.sqrt n := by
  induction f with
  | zero =>
    intro n x _ h1 h2
    simp only [newton]
    omega
  | succ f ih =>
    intro n x hn h1 h2
    have hm : 0 < Nat.sqrt n := Nat.sqrt_pos.2 hn
    have hx : 0 < x := lt_of_lt_of_le hm h1
    simp only [newton]
    have hmy : Nat.sqrt n ≤ (x + n / x) / 2 := by
      rw [Nat.le_div_iff_mul_le (by norm_num)]
      have h3 : Nat.sqrt n * 2 - x ≤ n / x := by
        rw [Nat.le_div_iff_mul_le hx]
        have h4 : Nat.sqrt n * Nat.sqrt n ≤ n := Nat.sqrt_le n
        rcases Nat.le_total (Nat.sqrt n * 2) x with h5 | h5
        · rw [Nat.sub_eq_zero_of_le h5]; simp
        · obtain ⟨d, hd⟩ := Nat.exists_eq_add_of_le h5
          have h6 : Nat.sqrt n * 2 - x = d := by omega
          rw [h6]
          have h7 : (x : Int) = Nat.sqrt n * 2 - d := by omega
          have h8 : (d : Int) * x ≤ Nat.sqrt n * Nat.sqrt n := by
            rw [h7]; nlinarith [sq_nonneg ((Nat.sqrt n : Int) - d)]
          have h9 : d * x ≤ Nat.sqrt n * Nat.sqrt n := by exact_mod_cast h8
          omega
      omega
    by_cases hy : (x + n / x) / 2 < x
    · rw [if_pos hy]
      exact ih n _ hn hmy (by omega)
    · rw [if_neg hy]
      have h3 : x ≤ n / x := by omega
      have h4 : x * x ≤ n := (Nat.le_div_iff_mul_le hx).1 h3
      have h5 : x ≤ Nat.sqrt n := Nat.le_sqrt.2 h4
      omega

theorem isqrt_eq_sqrt (n : Nat) : isqrt n = Nat.sqrt n := by
  unfold isqrt
  by_cases h0 : n = 0
  · subst h0; simp
  · rw [if_neg h0]
    have hn : 0 < n := Nat.pos_of_ne_zero h0
    have hlt : n < 2 ^ ((bits n + 1) / 2) * 2 ^ ((bits n + 1) / 2) := by
      rw [← pow_add]
      exact lt_of_lt_of_le (lt_two_pow_bits n) (Nat.pow_le_pow_right (by norm_num) (by omega))
    have h1 : Nat.sqrt n < 2 ^ ((bits n + 1) / 2) := Nat.sqrt_lt.2 hlt
    have hb : 0 < bits n := by
      rw [lt_bits_iff]; simpa using hn
    have h2 : 2 ^ ((bits n + 1) / 2) ≤ n + Nat.sqrt n := by
      have hs : 0 < Nat.sqrt n := Nat.sqrt_pos.2 hn
      by_cases hb1 : bits n = 1
      · rw [hb1]; simp; omega
      · have h3 : 2 ^ (bits n - 1) ≤ n := (lt_bits_iff n _).1 (by omega)
        have h4 : 2 ^ ((bits n + 1) / 2) ≤ 2 ^ (bits n - 1) :=
          Nat.pow_le_pow_right (by norm_num) (by omega)
        omega
    exact newton_eq_sqrt n n _ hn (le_of_lt h1) h2

/-! ## Rounding to nearest even -/

theorem roundNat_eq (n k : Nat) : roundNat n k = rne n (shift n k) * 2 ^ (shift n k - k) := rfl

theorem le_shift (n k : Nat) : k ≤ shift n k := le_max_right _ _

theorem shift_mono {m n : Nat} (k : Nat) (h : m ≤ n) : shift m k ≤ shift n k := by
  unfold shift
  have := bits_mono h
  omega

theorem rne_exact (m s : Nat) : rne (m * 2 ^ s) s = m := by
  have hp : 0 < 2 ^ s := by positivity
  unfold rne
  rw [Nat.mul_mod_left, Nat.mul_div_cancel _ hp]
  have : ¬ (2 ^ s < 2 * 0 ∨ (2 * 0 = 2 ^ s ∧ m % 2 = 1)) := by omega
  rw [if_neg this]

theorem div_le_rne (n s : Nat) : n / 2 ^ s ≤ rne n s := by
  unfold rne; split <;> omega

theorem rne_le_succ (n s : Nat) : rne n s ≤ n / 2 ^ s + 1 := by
  unfold rne; split <;> omega

theorem rne_mono {m n : Nat} (s : Nat) (h : m ≤ n) : rne m s ≤ rne n s := by
  have hp : 0 < 2 ^ s := by positivity
  have hq : m / 2 ^ s ≤ n / 2 ^ s := Nat.div_le_div_right h
  rcases Nat.lt_or_ge (m / 2 ^ s) (n / 2 ^ s) with hlt | hge
  · exact le_trans (rne_le_succ m s) (le_trans hlt (div_le_rne n s))
  · have hqe : m / 2 ^ s = n / 2 ^ s := le_antisymm hq hge
    have hm := Nat.div_add_mod m (2 ^ s)
    have hn := Nat.div_add_mod n (2 ^ s)
    have hr : m % 2 ^ s ≤ n % 2 ^ s := by
      rw [hqe] at hm
      omega
    unfold rne
    rw [hqe]
    split_ifs with h1 h2 h2
    · exact le_refl _
    · exfalso; apply h2
      rcases h1 with h1 | ⟨h1, h3⟩
      · left; omega
      · rcases Nat.lt_or_ge (2 ^ s) (2 * (n % 2 ^ s)) with h4 | h4
        · left; exact h4
        · right; exact ⟨by omega, h3⟩
    · omega
    · exact le_refl _

/-- The rounded value, in units of `2^-k` quanta. -/
theorem roundNat_mul (n k : Nat) :
    roundNat n k * 2 ^ k = rne n (shift n k) * 2 ^ shift n k := by
  rw [roundNat_eq, mul_assoc, ← pow_add, Nat.sub_add_cancel (le_shift n k)]

theorem rne_mul_le_pow {m s t : Nat} (hs : s ≤ t) (h : m ≤ 2 ^ t) : rne m s * 2 ^ s ≤ 2 ^ t := by
  have e1 : 2 ^ t = 2 ^ (t - s) * 2 ^ s := by
    rw [← pow_add, Nat.sub_add_cancel hs]
  have h1 := rne_mono s h
  rw [e1, rne_exact] at h1
  rw [e1]
  exact Nat.mul_le_mul_right _ h1

theorem pow_le_rne_mul {n s t : Nat} (hs : s ≤ t) (h : 2 ^ t ≤ n) : 2 ^ t ≤ rne n s * 2 ^ s := by
  have e1 : 2 ^ t = 2 ^ (t - s) * 2 ^ s := by
    rw [← pow_add, Nat.sub_add_cancel hs]
  have h1 := rne_mono s h
  rw [e1, rne_exact] at h1
  rw [e1]
  exact Nat.mul_le_mul_right _ h1

theorem roundNat_mono {m n : Nat} (k : Nat) (h : m ≤ n) : roundNat m k ≤ roundNat n k := by
  have hk : 0 < 2 ^ k := by positivity
  apply Nat.le_of_mul_le_mul_right _ hk
  rw [roundNat_mul, roundNat_mul]
  rcases Nat.lt_or_ge (shift m k) (shift n k) with hlt | hge
  · -- the two arguments lie in different binades: a power of two separates them
    have hs2 : shift n k = bits n - 53 := by
      unfold shift at hlt ⊢
      have := le_max_right (bits m - 53) k
      omega
    have hbm : bits m ≤ shift n k + 52 := by
      unfold shift at hlt
      have := le_max_left (bits m - 53) k
      omega
    have hbn : shift n k + 52 < bits n := by
      have : 0 < shift n k := by omega
      omega
    have hP1 : m < 2 ^ (shift n k + 52) := (bits_le_iff m _).1 hbm
    have hP2 : 2 ^ (shift n k + 52) ≤ n := (lt_bits_iff n _).1 hbn
    generalize shift n k = s2 at hlt hP1 hP2 ⊢
    generalize shift m k = s1 at hlt ⊢
    exact le_trans (rne_mul_le_pow (by omega) (le_of_lt hP1)) (pow_le_rne_mul (by omega) hP2)
  · have he : shift m k = shift n k := le_antisymm (shift_mono k h) hge
    rw [he]
    exact Nat.mul_le_mul_right _ (rne_mono _ h)

/-- A value with at most 53 significant bits above position `k` is not changed by rounding. -/
theorem roundNat_exact (m j k : Nat) (hm : m ≤ 2 ^ 53) (hk : k ≤ j) :
    roundNat (m * 2 ^ j) k = m * 2 ^ (j - k) := by
  have hk2 : 0 < 2 ^ k := by positivity
  apply Nat.eq_of_mul_eq_mul_right hk2
  rw [roundNat_mul, mul_assoc, ← pow_add, Nat.sub_add_cancel hk]
  rcases Nat.lt_or_ge m (2 ^ 53) with hlt | hge
  · have hb : bits (m * 2 ^ j) ≤ 53 + j := by
      rw [bits_le_iff, pow_add]
      exact Nat.mul_lt_mul_of_lt_of_le hlt (le_refl _) (by positivity)
    have hs : shift (m * 2 ^ j) k ≤ j := by
      unfold shift; omega
    generalize shift (m * 2 ^ j) k = s at hs
    have e : m * 2 ^ j = m * 2 ^ (j - s) * 2 ^ s := by
      rw [mul_assoc, ← pow_add, Nat.sub_add_cancel hs]
    rw [e, rne_exact]
  · have hm2 : m = 2 ^ 53 := le_antisymm hm hge
    have hb : bits (m * 2 ^ j) ≤ 54 + j := by
      rw [bits_le_iff, pow_add]
      exact Nat.mul_lt_mul_of_lt_of_le (by rw [hm2]; norm_num) (le_refl _) (by positivity)
    have hs : shift (m * 2 ^ j) k ≤ j + 1 := by
      unfold shift; omega
    generalize shift (m * 2 ^ j) k = s at hs
    have e : m * 2 ^ j = 2 ^ (53 + j - s) * 2 ^ s := by
      rw [hm2, ← pow_add, ← pow_add]; congr 1; omega
    rw [e, rne_exact]

namespace F64

/-! ## Facts about the `float64` operations -/

theorem round_exact (z : Int) (j k : Nat) (hz : z.natAbs ≤ 2 ^ 53) (hk : k ≤ j)
    (hj : j - k + 53 < 2098) :
    round (decide (z * 2 ^ j < 0)) (z * 2 ^ j).natAbs k = fin (z * 2 ^ (j - k)) := by
  have hp : (0 : Int) < 2 ^ j := by positivity
  have hp2 : (0 : Int) < 2 ^ (j - k) := by positivity
  have hn : (z * 2 ^ j).natAbs = z.natAbs * 2 ^ j := by
    rw [Int.natAbs_mul, Int.natAbs_pow]; rfl
  have hlt : z.natAbs * 2 ^ (j - k) < overflow := by
    unfold overflow
    calc z.natAbs * 2 ^ (j - k) ≤ 2 ^ 53 * 2 ^ (j - k) := Nat.mul_le_mul_right _ hz
      _ = 2 ^ (j - k + 53) := by rw [← pow_add]; congr 1; omega
      _ < 2 ^ 2098 := Nat.pow_lt_pow_right (by norm_num) hj
  unfold round
  simp only [hn, roundNat_exact _ _ _ hz hk, if_neg (not_le.2 hlt)]
  congr 1
  by_cases h0 : z < 0
  · have h1 : z * 2 ^ j < 0 := Int.mul_neg_of_neg_of_pos h0 hp
    simp only [h1, decide_True, if_true]
    push_cast
    rw [abs_of_neg h0]; ring
  · have h1 : ¬ z * 2 ^ j < 0 := by
      have : 0 ≤ z * 2 ^ j := mul_nonneg (by omega) (le_of_lt hp)
      omega
    simp only [h1, decide_False]
    push_cast
    rw [abs_of_nonneg (not_lt.1 h0)]

theorem ofInt_exact (z : Int) (hz : z.natAbs ≤ 2 ^ 53) : ofInt z = fin (z * 2 ^ 1074) := by
  have h := round_exact z 1074 0 hz (by omega) (by omega)
  have hp : (0 : Int) < 2 ^ 1074 := by positivity
  have e1 : decide (z * 2 ^ 1074 < 0) = decide (z < 0) := by
    congr 1
    apply propext
    constructor
    · intro h1
      by_contra h2
      have : 0 ≤ z * 2 ^ 1074 := mul_nonneg (by omega) (le_of_lt hp)
      omega
    · intro h1
      exact Int.mul_neg_of_neg_of_pos h1 hp
  have e2 : (z * 2 ^ 1074).natAbs = z.natAbs * 2 ^ 1074 := by
    rw [Int.natAbs_mul, Int.natAbs_pow]; rfl
  rw [e1, e2] at h
  exact h

theorem fin_mul_fin (a b : Int) :
    fin a * fin b = round (decide (a * b < 0)) (a * b).natAbs 1074 := by
  show mul (fin a) (fin b) = _
  simp only [mul]

theorem fin_add_fin (a b : Int) :
    fin a + fin b = round (decide (a + b < 0)) (a + b).natAbs 0 := by
  show add (fin a) (fin b) = _
  simp only [add]

theorem sub_eq_add_neg (a b : F64) : a - b = a + neg b := rfl

theorem neg_fin (a : Int) : neg (fin a) = fin (-a) := rfl

theorem mul_exact (a b : Int) (h : (a * b).natAbs ≤ 2 ^ 53) :
    fin (a * 2 ^ 1074) * fin (b * 2 ^ 1074) = fin (a * b * 2 ^ 1074) := by
  have e : a * 2 ^ 1074 * (b * 2 ^ 1074) = a * b * 2 ^ 2148 := by ring
  rw [fin_mul_fin, e]
  exact round_exact (a * b) 2148 1074 h (by omega) (by omega)

theorem add_exact (a b : Int) (h : (a + b).natAbs ≤ 2 ^ 53) :
    fin (a * 2 ^ 1074) + fin (b * 2 ^ 1074) = fin ((a + b) * 2 ^ 1074) := by
  have e : a * 2 ^ 1074 + b * 2 ^ 1074 = (a + b) * 2 ^ 1074 := by ring
  rw [fin_add_fin, e]
  exact round_exact (a + b) 1074 0 h (by omega) (by omega)

theorem sub_exact (a b : Int) (h : (a - b).natAbs ≤ 2 ^ 53) :
    fin (a * 2 ^ 1074) - fin (b * 2 ^ 1074) = fin ((a - b) * 2 ^ 1074) := by
  have e : a * 2 ^ 1074 + -(b * 2 ^ 1074) = (a - b) * 2 ^ 1074 := by ring
  rw [sub_eq_add_neg, neg_fin, fin_add_fin, e]
  exact round_exact (a - b) 1074 0 h (by omega) (by omega)

theorem sqrt_fin_pos (q : Nat) (hq : 0 < q) : sqrt (fin q) = round false (sqrtArg q) 1 := by
  unfold sqrt sqrtArg
  have h1 : ¬ (q : Int) < 0 := by omega
  have h2 : ¬ (q : Int) = 0 := by omega
  simp only [h1, h2, if_false, Int.toNat_ofNat, isqrt_eq_sqrt]

theorem sqrtArg_le (q T : Nat) (h : q * 2 ^ 1074 ≤ T * T) : sqrtArg q ≤ 2 * T := by
  unfold sqrtArg
  generalize q * 2 ^ 1074 = n at h
  have hr : Nat.sqrt n ≤ T := by
    have := Nat.sqrt_le_sqrt h
    rwa [Nat.sqrt_eq] at this
  rcases Nat.lt_or_ge (Nat.sqrt n) T with h1 | h1
  · split <;> omega
  · have he : Nat.sqrt n = T := le_antisymm hr h1
    have h2 : Nat.sqrt n * Nat.sqrt n ≤ n := Nat.sqrt_le n
    have h3 : Nat.sqrt n * Nat.sqrt n = n := by
      rw [he] at h2 ⊢
      exact le_antisymm h2 h
    rw [if_pos h3]; omega

theorem le_sqrtArg (q T : Nat) (h : T * T ≤ q * 2 ^ 1074) : 2 * T ≤ sqrtArg q := by
  unfold sqrtArg
  have hr : T ≤ Nat.sqrt (q * 2 ^ 1074) := Nat.le_sqrt.2 h
  omega

/-- Upper bound: when `q * 2^-1074 ≤ (T * 2^-1074)^2` for a representable `T = m * 2^j`,
the square root of `fin q` is finite and at most `T`. -/
theorem sqrt_le_of_le (q m j : Nat) (hq : 0 < q) (hm : m ≤ 2 ^ 53) (hj : j + 53 < 2098)
    (h : q * 2 ^ 1074 ≤ (m * 2 ^ j) * (m * 2 ^ j)) :
    sqrt (fin q) = fin (roundNat (sqrtArg q) 1) ∧ roundNat (sqrtArg q) 1 ≤ m * 2 ^ j := by
  have h1 : roundNat (sqrtArg q) 1 ≤ m * 2 ^ j := by
    have h2 := roundNat_mono 1 (sqrtArg_le q _ h)
    have e : 2 * (m * 2 ^ j) = m * 2 ^ (j + 1) := by ring
    rw [e, roundNat_exact m (j + 1) 1 hm (by omega)] at h2
    simpa using h2
  refine ⟨?_, h1⟩
  rw [sqrt_fin_pos q hq]
  unfold round
  have hlt : m * 2 ^ j < overflow := by
    unfold overflow
    calc m * 2 ^ j ≤ 2 ^ 53 * 2 ^ j := Nat.mul_le_mul_right _ hm
      _ = 2 ^ (j + 53) := by rw [← pow_add]; congr 1; omega
      _ < 2 ^ 2098 := Nat.pow_lt_pow_right (by norm_num) hj
  simp only [if_neg (not_le.2 (lt_of_le_of_lt h1 hlt))]
  rfl

/-- Lower bound: when `(T * 2^-1074)^2 ≤ q * 2^-1074` for a representable `T = m * 2^j`,
the rounded square root is at least `T`. -/
theorem le_roundNat_sqrtArg (q m j : Nat) (hm : m ≤ 2 ^ 53)
    (h : (m * 2 ^ j) * (m * 2 ^ j) ≤ q * 2 ^ 1074) :
    m * 2 ^ j ≤ roundNat (sqrtArg q) 1 := by
  have h2 := roundNat_mono 1 (le_sqrtArg q _ h)
  have e : 2 * (m * 2 ^ j) = m * 2 ^ (j + 1) := by ring
  rw [e, roundNat_exact m (j + 1) 1 hm (by omega)] at h2
  simpa using h2

/-- The square root of every finite non-negative value is finite and non-negative. -/
theorem sqrt_fin (q : Nat) (hq : q ≤ 2 ^ 2098) : ∃ s : Nat, sqrt (fin q) = fin s := by
  rcases Nat.eq_zero_or_pos q with h0 | h0
  · subst h0
    exact ⟨0, by simp [sqrt]⟩
  · refine ⟨_, (sqrt_le_of_le q 1 1586 h0 (by norm_num) (by norm_num) ?_).1⟩
    calc q * 2 ^ 1074 ≤ 2 ^ 2098 * 2 ^ 1074 := Nat.mul_le_mul_right _ hq
      _ = (1 * 2 ^ 1586) * (1 * 2 ^ 1586) := by rw [one_mul, ← pow_add, ← pow_add]

end F64

theorem wrapInt_bounds (z : Int) : -2 ^ 63 ≤ wrapInt z ∧ wrapInt z < 2 ^ 63 := by
  unfold wrapInt
  have h1 := Int.emod_nonneg (z + 2 ^ 63) (by norm_num : (2 ^ 64 : Int) ≠ 0)
  have h2 := Int.emod_lt_of_pos (z + 2 ^ 63) (by norm_num : (0 : Int) < 2 ^ 64)
  constructor <;> omega

theorem wrapInt_eq (z : Int) (h1 : -2 ^ 63 ≤ z) (h2 : z < 2 ^ 63) : wrapInt z = z := by
  unfold wrapInt
  rw [Int.emod_eq_of_lt (by omega) (by omega)]
  omega

theorem wrapInt_natAbs (z : Int) : (wrapInt z).natAbs ≤ 2 ^ 63 := by
  have := wrapInt_bounds z
  omega

namespace F64

theorem roundNat_le_pow (n t k : Nat) (h : n ≤ 2 ^ t) (hk : k ≤ t) :
    roundNat n k ≤ 2 ^ (t - k) := by
  have h1 := roundNat_mono k h
  have h2 := roundNat_exact 1 t k (by norm_num) hk
  rw [one_mul, one_mul] at h2
  rwa [h2] at h1

/-- Rounding a magnitude of at most `2^t` units gives a finite value of magnitude at
most `2^(t-k)` quanta, non-negative when the sign is positive. -/
theorem round_fin_of_le (sg : Bool) (n t k : Nat) (h : n ≤ 2 ^ t) (hk : k ≤ t)
    (ht : t - k < 2098) :
    ∃ q : Int, round sg n k = fin q ∧ q.natAbs ≤ 2 ^ (t - k) ∧ (sg = false → 0 ≤ q) := by
  have h1 := roundNat_le_pow n t k h hk
  have h2 : roundNat n k < overflow :=
    lt_of_le_of_lt h1 (Nat.pow_lt_pow_right (by norm_num) ht)
  unfold round
  simp only [if_neg (not_le.2 h2)]
  cases sg
  · exact ⟨_, rfl, by simpa using h1, fun _ => by simp⟩
  · exact ⟨_, rfl, by simpa using h1, fun h => by simp at h⟩

theorem ofInt_fin (z : Int) (hz : z.natAbs ≤ 2 ^ 63) :
    ∃ q : Int, ofInt z = fin q ∧ q.natAbs ≤ 2 ^ 1137 := by
  have h : z.natAbs * 2 ^ 1074 ≤ 2 ^ 1137 := by
    calc z.natAbs * 2 ^ 1074 ≤ 2 ^ 63 * 2 ^ 1074 := Nat.mul_le_mul_right _ hz
      _ = 2 ^ 1137 := by rw [← pow_add]
  obtain ⟨q, h1, h2, _⟩ := round_fin_of_le (decide (z < 0)) _ 1137 0 h (by omega) (by omega)
  exact ⟨q, h1, h2⟩

/-- The squared length `dx*dx + dy*dy` of a difference of Go `int`s is finite and
non-negative, and so is its square root. -/
theorem sqrt_sumsq_fin (a b : Int) (ha : a.natAbs ≤ 2 ^ 63) (hb : b.natAbs ≤ 2 ^ 63) :
    ∃ s : Nat, sqrt (ofInt a * ofInt a + ofInt b * ofInt b) = fin s ∧ s ≤ 2 ^ 1139 := by
  obtain ⟨qa, ea, ha1⟩ := ofInt_fin a ha
  obtain ⟨qb, eb, hb1⟩ := ofInt_fin b hb
  have sq : ∀ q : Int, q.natAbs ≤ 2 ^ 1137 →
      ∃ m : Int, fin q * fin q = fin m ∧ m.natAbs ≤ 2 ^ 1200 ∧ 0 ≤ m := by
    intro q hq
    have h1 : (q * q).natAbs ≤ 2 ^ 2274 := by
      rw [Int.natAbs_mul]
      calc q.natAbs * q.natAbs ≤ 2 ^ 1137 * 2 ^ 1137 := Nat.mul_le_mul hq hq
        _ = 2 ^ 2274 := by rw [← pow_add]
    have h2 : decide (q * q < 0) = false := by
      simp only [decide_eq_false_iff_not, not_lt]
      exact mul_self_nonneg q
    obtain ⟨m, e1, e2, e3⟩ := round_fin_of_le (decide (q * q < 0)) _ 2274 1074 h1
      (by omega) (by omega)
    exact ⟨m, by rw [fin_mul_fin, e1], e2, e3 h2⟩
  obtain ⟨ma, e1, h1, p1⟩ := sq qa ha1
  obtain ⟨mb, e2, h2, p2⟩ := sq qb hb1
  have h3 : (ma + mb).natAbs ≤ 2 ^ 1201 := by
    have : (2 : Nat) ^ 1201 = 2 ^ 1200 + 2 ^ 1200 := by rw [pow_succ]; omega
    omega
  have h4 : decide (ma + mb < 0) = false := by
    simp only [decide_eq_false_iff_not, not_lt]; omega
  obtain ⟨m, e3, h5, p3⟩ := round_fin_of_le (decide (ma + mb < 0)) _ 1201 0 h3
    (by omega) (by omega)
  have p4 := p3 h4
  rw [ea, eb, e1, e2, fin_add_fin, e3]
  have em : m = (m.toNat : Int) := (Int.toNat_of_nonneg p4).symm
  rw [em]
  rcases Nat.eq_zero_or_pos m.toNat with h0 | h0
  · rw [h0]
    exact ⟨0, by simp [sqrt], by positivity⟩
  · have hm : m.toNat ≤ 2 ^ 1201 := by omega
    have h6 := sqrt_le_of_le m.toNat 1 1138 h0 (by norm_num) (by norm_num) (by
      calc m.toNat * 2 ^ 1074 ≤ 2 ^ 1201 * 2 ^ 1074 := Nat.mul_le_mul_right _ hm
        _ ≤ (1 * 2 ^ 1138) * (1 * 2 ^ 1138) := by
          rw [one_mul, ← pow_add, ← pow_add]
          exact Nat.pow_le_pow_right (by norm_num) (by norm_num))
    refine ⟨_, h6.1, le_trans h6.2 ?_⟩
    rw [one_mul]
    exact Nat.pow_le_pow_right (by norm_num) (by norm_num)

end F64

/-- The signed distance of a point to a circle whose radius is a Go `int` is a finite
`float64`, smaller than `math.MaxFloat64`. -/
theorem Dist_fin (c : Circle) (p : Point) (hr : IsInt64 c.r) :
    ∃ q : Int, c.Dist p = F64.fin q ∧ q < (2 ^ 53 - 1) * 2 ^ 2045 := by
  unfold Circle.Dist
  obtain ⟨s, es, hs⟩ := F64.sqrt_sumsq_fin _ _ (wrapInt_natAbs (c.p.X - p.X))
    (wrapInt_natAbs (c.p.Y - p.Y))
  have hr2 : c.r.natAbs ≤ 2 ^ 63 := by
    unfold IsInt64 minInt maxInt at hr
    omega
  obtain ⟨t, et, ht⟩ := F64.ofInt_fin c.r hr2
  simp only []
  rw [es, et, F64.sub_eq_add_neg, F64.neg_fin, F64.fin_add_fin]
  have h1 : ((s : Int) + -t).natAbs ≤ 2 ^ 1140 := by
    have e1 : (2 : Nat) ^ 1140 = 2 ^ 1139 + 2 ^ 1139 := by rw [pow_succ]; omega
    have e2 : (2 : Nat) ^ 1139 = 2 ^ 1138 + 2 ^ 1138 := by rw [pow_succ]; omega
    have e3 : (2 : Nat) ^ 1138 = 2 ^ 1137 + 2 ^ 1137 := by rw [pow_succ]; omega
    omega
  obtain ⟨q, e, h2, _⟩ := F64.round_fin_of_le (decide ((s : Int) + -t < 0)) _ 1140 0 h1
    (by omega) (by omega)
  refine ⟨q, e, ?_⟩
  have h3 : (2 : Int) ^ 1140 < (2 ^ 53 - 1) * 2 ^ 2045 := by norm_num
  have h4 : ((q.natAbs : Nat) : Int) ≤ 2 ^ 1140 := by exact_mod_cast h2
  have h5 : q ≤ q.natAbs := Int.le_natAbs
  omega

/-! ## The nearest-seed query -/

theorem lt_fin_fin (a b : Int) : F64.lt (F64.fin a) (F64.fin b) = decide (a < b) := rfl

theorem le_fin_fin (a b : Int) : F64.le (F64.fin a) (F64.fin b) = decide (a ≤ b) := rfl

/-- The running minimum of `getClosestSeed`: either no seed of the list beats the
initial distance and the state is unchanged, or the list splits at the returned seed,
which beats the initial distance, strictly beats every seed before it and is not beaten
by any seed after it. -/
theorem closest_foldl (p : Point) (l : List Seed)
    (hl : ∀ s ∈ l, ∃ q : Int, s.Dist p = F64.fin q) :
    ∀ (b0 : Seed) (c0 : Int),
      ((∀ t ∈ l, F64.lt (t.Dist p) (F64.fin c0) = false) ∧
        l.foldl (closestStep p) (b0, F64.fin c0) = (b0, F64.fin c0)) ∨
      (∃ l1 b l2, l = l1 ++ b :: l2 ∧
        l.foldl (closestStep p) (b0, F64.fin c0) = (b, b.Dist p) ∧
        F64.lt (b.Dist p) (F64.fin c0) = true ∧
        (∀ t ∈ l1, F64.lt (b.Dist p) (t.Dist p) = true) ∧
        (∀ t ∈ l2, F64.le (b.Dist p) (t.Dist p) = true)) := by
  induction l with
  | nil =>
    intro b0 c0
    left
    exact ⟨by simp, rfl⟩
  | cons s l ih =>
    intro b0 c0
    have hl2 : ∀ t ∈ l, ∃ q : Int, t.Dist p = F64.fin q :=
      fun t ht => hl t (List.mem_cons_of_mem _ ht)
    obtain ⟨qs, es⟩ := hl s (List.mem_cons_self _ _)
    rw [List.foldl_cons]
    by_cases hlt : qs < c0
    · have hstep : closestStep p (b0, F64.fin c0) s = (s, F64.fin qs) := by
        simp [closestStep, es, lt_fin_fin, hlt]
      rw [hstep]
      right
      rcases ih hl2 s qs with ⟨h1, h2⟩ | ⟨l1, b, l2, h1, h2, h3, h4, h5⟩
      · refine ⟨[], s, l, rfl, by rw [h2, es], by simp [es, lt_fin_fin, hlt], by simp, ?_⟩
        intro t ht
        obtain ⟨qt, et⟩ := hl2 t ht
        have := h1 t ht
        rw [et, lt_fin_fin] at this
        rw [es, et, le_fin_fin]
        simp only [decide_eq_false_iff_not, not_lt] at this
        simpa using this
      · obtain ⟨qb, eb⟩ : ∃ q : Int, b.Dist p = F64.fin q :=
          hl2 b (by rw [h1]; simp)
        rw [eb, lt_fin_fin] at h3
        simp only [decide_eq_true_eq] at h3
        refine ⟨s :: l1, b, l2, by rw [h1]; rfl, h2, ?_, ?_, h5⟩
        · rw [eb, lt_fin_fin]; simp only [decide_eq_true_eq]; omega
        · intro t ht
          rcases List.mem_cons.1 ht with rfl | ht
          · rw [eb, es, lt_fin_fin]; simpa using h3
          · exact h4 t ht
    · have hstep : closestStep p (b0, F64.fin c0) s = (b0, F64.fin c0) := by
        simp [closestStep, es, lt_fin_fin, hlt]
      rw [hstep]
      rcases ih hl2 b0 c0 with ⟨h1, h2⟩ | ⟨l1, b, l2, h1, h2, h3, h4, h5⟩
      · left
        refine ⟨?_, h2⟩
        intro t ht
        rcases List.mem_cons.1 ht with rfl | ht
        · rw [es, lt_fin_fin]; simpa using hlt
        · exact h1 t ht
      · right
        obtain ⟨qb, eb⟩ : ∃ q : Int, b.Dist p = F64.fin q :=
          hl2 b (by rw [h1]; simp)
        refine ⟨s :: l1, b, l2, by rw [h1]; rfl, h2, h3, ?_, h5⟩
        intro t ht
        rcases List.mem_cons.1 ht with rfl | ht
        · rw [eb, lt_fin_fin] at h3
          simp only [decide_eq_true_eq] at h3
          rw [eb, es, lt_fin_fin]
          simp only [decide_eq_true_eq]
          omega
        · exact h4 t ht

/-- On a non-empty list of seeds whose radii are Go `int`s, `getClosestSeed` returns a
seed at which the list splits: every earlier seed is strictly farther, no later seed
is nearer. -/
theorem getClosestSeed_split (p : Point) (seeds : List Seed) (hne : seeds ≠ [])
    (hr : ∀ s ∈ seeds, IsInt64 s.r) :
    ∃ l1 b l2, seeds = l1 ++ b :: l2 ∧ getClosestSeed p seeds = some b ∧
      (∀ t ∈ l1, F64.lt (b.Dist p) (t.Dist p) = true) ∧
      (∀ t ∈ l2, F64.le (b.Dist p) (t.Dist p) = true) := by
  cases seeds with
  | nil => exact absurd rfl hne
  | cons s0 rest =>
    have hl : ∀ s ∈ s0 :: rest, ∃ q : Int, s.Dist p = F64.fin q := by
      intro s hs
      obtain ⟨q, e, _⟩ := Dist_fin s.toCircle p (hr s hs)
      exact ⟨q, e⟩
    have hget : getClosestSeed p (s0 :: rest) =
        some ((s0 :: rest).foldl (closestStep p) (s0, MaxFloat64)).1 := rfl
    rcases closest_foldl p (s0 :: rest) hl s0 ((2 ^ 53 - 1) * 2 ^ 2045) with
      ⟨h1, _⟩ | ⟨l1, b, l2, h1, h2, _, h4, h5⟩
    · exfalso
      obtain ⟨q, e, hq⟩ := Dist_fin s0.toCircle p (hr s0 (List.mem_cons_self _ _))
      have := h1 s0 (List.mem_cons_self _ _)
      rw [e, lt_fin_fin] at this
      simp only [decide_eq_false_iff_not] at this
      exact this hq
    · refine ⟨l1, b, l2, h1, ?_, h4, h5⟩
      rw [hget]
      unfold MaxFloat64
      rw [h2]

/-- On distances of seeds with Go `int` radii, `<` and `<=` are the strict and weak
parts of one total order. -/
theorem lt_false_of_le (p : Point) (a b : Seed) (ha : IsInt64 a.r) (hb : IsInt64 b.r)
    (h : F64.le (a.Dist p) (b.Dist p) = true) : F64.lt (b.Dist p) (a.Dist p) = false := by
  obtain ⟨qa, ea, _⟩ := Dist_fin a.toCircle p ha
  obtain ⟨qb, eb, _⟩ := Dist_fin b.toCircle p hb
  rw [ea, eb, le_fin_fin] at h
  rw [ea, eb, lt_fin_fin]
  simp only [decide_eq_true_eq] at h
  simp only [decide_eq_false_iff_not, not_lt]
  exact h

theorem le_of_lt_dist (p : Point) (a b : Seed) (ha : IsInt64 a.r) (hb : IsInt64 b.r)
    (h : F64.lt (a.Dist p) (b.Dist p) = true) : F64.le (a.Dist p) (b.Dist p) = true := by
  obtain ⟨qa, ea, _⟩ := Dist_fin a.toCircle p ha
  obtain ⟨qb, eb, _⟩ := Dist_fin b.toCircle p hb
  rw [ea, eb, lt_fin_fin] at h
  rw [ea, eb, le_fin_fin]
  simp only [decide_eq_true_eq] at h ⊢
  omega

theorem le_refl_dist (p : Point) (a : Seed) (ha : IsInt64 a.r) :
    F64.le (a.Dist p) (a.Dist p) = true := by
  obtain ⟨qa, ea, _⟩ := Dist_fin a.toCircle p ha
  rw [ea, le_fin_fin]
  simp

/-- C1: for a non-empty list of seeds (radii of Go type `int`) and any pixel,
`getClosestSeed` returns a seed of the list, and no seed of the list has a signed
boundary distance `Dist` strictly smaller than that of the returned seed. -/
theorem getClosestSeed_mem_minimal (p : Point) (seeds : List Seed) (hne : seeds ≠ [])
    (hr : ∀ s ∈ seeds, IsInt64 s.r) :
    ∃ b, getClosestSeed p seeds = some b ∧ b ∈ seeds ∧
      ∀ t ∈ seeds, F64.lt (t.Dist p) (b.Dist p) = false := by
  obtain ⟨l1, b, l2, h1, h2, h3, h4⟩ := getClosestSeed_split p seeds hne hr
  have hb : b ∈ seeds := by rw [h1]; simp
  refine ⟨b, h2, hb, ?_⟩
  intro t ht
  apply lt_false_of_le p b t (hr b hb) (hr t ht)
  rw [h1] at ht
  rcases List.mem_append.1 ht with ht1 | ht2
  · exact le_of_lt_dist p b t (hr b hb) (hr t (by rw [h1]; simp [ht1])) (h3 t ht1)
  · rcases List.mem_cons.1 ht2 with rfl | ht3
    · exact le_refl_dist p _ (hr _ hb)
    · exact h4 t ht3

/-- Witness of C1 on the two seeds `(0,0)` and `(9,9)` and the pixel `(3,6)`. -/
theorem getClosestSeed_mem_minimal_witness :
    [seedA, seedB] ≠ [] ∧ (∀ s ∈ [seedA, seedB], IsInt64 s.r) ∧
    ∃ b, getClosestSeed ⟨3, 6⟩ [seedA, seedB] = some b ∧ b ∈ [seedA, seedB] ∧
      ∀ t ∈ [seedA, seedB], F64.lt (t.Dist ⟨3, 6⟩) (b.Dist ⟨3, 6⟩) = false :=
  ⟨by decide, by decide,
    getClosestSeed_mem_minimal ⟨3, 6⟩ [seedA, seedB] (by decide) (by decide)⟩

/-- C2: for a non-empty list of seeds (radii of Go type `int`) and any pixel,
`getClosestSeed` returns `seeds[i]` for the least index `i` whose distance is minimal:
`Dist(seeds[i]) <= Dist(seeds[j])` for every `j`, every seed before index `i` has a
strictly larger distance, and no smaller index is a minimiser. -/
theorem getClosestSeed_first_minimum (p : Point) (seeds : List Seed) (hne : seeds ≠ [])
    (hr : ∀ s ∈ seeds, IsInt64 s.r) :
    ∃ (i : Nat) (hi : i < seeds.length),
      getClosestSeed p seeds = some (seeds.get ⟨i, hi⟩) ∧
      (∀ (j : Nat) (hj : j < seeds.length),
        F64.le ((seeds.get ⟨i, hi⟩).Dist p) ((seeds.get ⟨j, hj⟩).Dist p) = true) ∧
      (∀ (j : Nat) (hj : j < seeds.length), j < i →
        F64.lt ((seeds.get ⟨i, hi⟩).Dist p) ((seeds.get ⟨j, hj⟩).Dist p) = true) ∧
      (∀ (k : Nat) (hk : k < seeds.length),
        (∀ (j : Nat) (hj : j < seeds.length),
          F64.le ((seeds.get ⟨k, hk⟩).Dist p) ((seeds.get ⟨j, hj⟩).Dist p) = true) →
        i ≤ k) := by
  obtain ⟨l1, b, l2, h1, h2, h3, h4⟩ := getClosestSeed_split p seeds hne hr
  have hb : b ∈ seeds := by rw [h1]; simp
  have hi : l1.length < seeds.length := by rw [h1]; simp
  have hget : seeds.get ⟨l1.length, hi⟩ = b := by
    subst h1
    rw [List.get_eq_getElem, List.getElem_append_right (le_refl _)]
    simp
  have hbefore : ∀ (j : Nat) (hj : j < seeds.length), j < l1.length →
      F64.lt (b.Dist p) ((seeds.get ⟨j, hj⟩).Dist p) = true := by
    intro j hj hlt
    apply h3
    subst h1
    simp only [List.get_eq_getElem]
    rw [List.getElem_append_left hlt]
    exact List.getElem_mem _
  refine ⟨l1.length, hi, by rw [h2, hget], ?_, ?_, ?_⟩
  · intro j hj
    rw [hget]
    have hmem : seeds.get ⟨j, hj⟩ ∈ seeds := List.get_mem _ _ _
    rcases Nat.lt_or_ge j l1.length with hlt | hge
    · exact le_of_lt_dist p b _ (hr b hb) (hr _ hmem) (hbefore j hj hlt)
    · rcases Nat.eq_or_lt_of_le hge with heq | hgt
      · have : seeds.get ⟨j, hj⟩ = b := by
          rw [← hget]; congr 1; exact Fin.ext heq.symm
        rw [this]
        exact le_refl_dist p b (hr b hb)
      · apply h4
        subst h1
        simp only [List.get_eq_getElem]
        rw [List.getElem_append_right (by omega)]
        have hpos : 0 < j - l1.length := by omega
        obtain ⟨m, hm⟩ := Nat.exists_eq_succ_of_ne_zero (Nat.pos_iff_ne_zero.1 hpos)
        simp only [hm, List.getElem_cons_succ]
        exact List.getElem_mem _
  · intro j hj hlt
    rw [hget]
    exact hbefore j hj hlt
  · intro k hk hmin
    by_contra hcon
    have hlt : k < l1.length := by omega
    have h5 := hbefore k hk hlt
    have h6 := hmin l1.length hi
    rw [hget] at h6
    have hmem : seeds.get ⟨k, hk⟩ ∈ seeds := List.get_mem _ _ _
    have h7 := lt_false_of_le p _ b (hr _ hmem) (hr b hb) h6
    rw [h5] at h7
    exact absurd h7 (by decide)

/-- Witness of C2 on the two seeds `(0,0)` and `(9,9)` and the tie pixel `(4,5)`. -/
theorem getClosestSeed_first_minimum_witness :
    [seedA, seedB] ≠ [] ∧ (∀ s ∈ [seedA, seedB], IsInt64 s.r) ∧
    ∃ (i : Nat) (hi : i < [seedA, seedB].length),
      getClosestSeed ⟨4, 5⟩ [seedA, seedB] = some ([seedA, seedB].get ⟨i, hi⟩) ∧
      (∀ (j : Nat) (hj : j < [seedA, seedB].length),
        F64.le (([seedA, seedB].get ⟨i, hi⟩).Dist ⟨4, 5⟩)
          (([seedA, seedB].get ⟨j, hj⟩).Dist ⟨4, 5⟩) = true) ∧
      (∀ (j : Nat) (hj : j < [seedA, seedB].length), j < i →
        F64.lt (([seedA, seedB].get ⟨i, hi⟩).Dist ⟨4, 5⟩)
          (([seedA, seedB].get ⟨j, hj⟩).Dist ⟨4, 5⟩) = true) ∧
      (∀ (k : Nat) (hk : k < [seedA, seedB].length),
        (∀ (j : Nat) (hj : j < [seedA, seedB].length),
          F64.le (([seedA, seedB].get ⟨k, hk⟩).Dist ⟨4, 5⟩)
            (([seedA, seedB].get ⟨j, hj⟩).Dist ⟨4, 5⟩) = true) →
        i ≤ k) :=
  ⟨by decide, by decide,
    getClosestSeed_first_minimum ⟨4, 5⟩ [seedA, seedB] (by decide) (by decide)⟩

/-! ## Image buffers -/

namespace Image

theorem Set_W (img : Image) (x y : Int) (c : Color) : (img.Set x y c).W = img.W := by
  unfold Set; split <;> rfl

theorem Set_H (img : Image) (x y : Int) (c : Color) : (img.Set x y c).H = img.H := by
  unfold Set; split <;> rfl

theorem Set_length (img : Image) (x y : Int) (c : Color) :
    (img.Set x y c).Pix.length = img.Pix.length := by
  unfold Set; split <;> simp

theorem Set_WellFormed (img : Image) (x y : Int) (c : Color) (h : img.WellFormed) :
    (img.Set x y c).WellFormed := by
  unfold WellFormed at *
  rw [Set_length, Set_W, Set_H, h]

theorem Set_inBounds (img : Image) (x y : Int) (c : Color) (a b : Int) :
    (img.Set x y c).inBounds a b = img.inBounds a b := by
  unfold inBounds
  rw [Set_W, Set_H]

theorem Set_PixOffset (img : Image) (x y : Int) (c : Color) (a b : Int) :
    (img.Set x y c).PixOffset a b = img.PixOffset a b := by
  unfold PixOffset
  rw [Set_W]

theorem inBounds_iff (img : Image) (x y : Int) :
    img.inBounds x y = true ↔ 0 ≤ x ∧ x < img.W ∧ 0 ≤ y ∧ y < img.H := by
  unfold inBounds
  simp

/-- The offset of an in-bounds pixel, as an integer. -/
theorem PixOffset_cast (img : Image) (x y : Int) (h : img.inBounds x y = true) :
    (img.PixOffset x y : Int) = y * img.W + x := by
  rw [inBounds_iff] at h
  unfold PixOffset
  apply Int.toNat_of_nonneg
  have : 0 ≤ y * (img.W : Int) := mul_nonneg h.2.2.1 (by positivity)
  omega

theorem PixOffset_lt (img : Image) (x y : Int) (h : img.inBounds x y = true) :
    img.PixOffset x y < img.W * img.H := by
  have h1 := PixOffset_cast img x y h
  rw [inBounds_iff] at h
  have h2 : (y + 1) * (img.W : Int) ≤ img.H * img.W :=
    mul_le_mul_of_nonneg_right (by omega) (by positivity)
  have h3 : (img.PixOffset x y : Int) < img.W * img.H := by
    rw [h1]; nlinarith
  exact_mod_cast h3

/-- Distinct in-bounds pixels have distinct offsets. -/
theorem PixOffset_inj (img : Image) (x y a b : Int) (h1 : img.inBounds x y = true)
    (h2 : img.inBounds a b = true) (h : img.PixOffset x y = img.PixOffset a b) :
    x = a ∧ y = b := by
  have e1 := PixOffset_cast img x y h1
  have e2 := PixOffset_cast img a b h2
  rw [h, e2] at e1
  rw [inBounds_iff] at h1 h2
  have hy : y = b := by
    by_contra hne
    rcases lt_or_gt_of_ne hne with hlt | hgt
    · have : (y + 1) * (img.W : Int) ≤ b * img.W :=
        mul_le_mul_of_nonneg_right (by omega) (by positivity)
      nlinarith
    · have : (b + 1) * (img.W : Int) ≤ y * img.W :=
        mul_le_mul_of_nonneg_right (by omega) (by positivity)
      nlinarith
  subst hy
  exact ⟨by omega, rfl⟩

/-- Reading a pixel after one write. -/
theorem At_Set (img : Image) (hw : img.WellFormed) (x y : Int) (c : Color) (a b : Int) :
    (img.Set x y c).At a b =
      if a = x ∧ b = y ∧ img.inBounds x y = true then c else img.At a b := by
  unfold At
  rw [Set_inBounds, Set_PixOffset]
  by_cases hab : img.inBounds a b = true
  · rw [if_pos hab, if_pos hab]
    unfold Set
    by_cases hxy : img.inBounds x y = true
    · rw [if_pos hxy]
      by_cases he : a = x ∧ b = y
      · obtain ⟨rfl, rfl⟩ := he
        have hlt : img.PixOffset a b < img.Pix.length := by
          rw [hw]; exact PixOffset_lt img a b hab
        simp [hxy, List.getElem?_set, hlt]
      · have hne : img.PixOffset x y ≠ img.PixOffset a b := by
          intro h
          have := PixOffset_inj img x y a b hxy hab h
          exact he ⟨this.1.symm, this.2.symm⟩
        have hc : ¬ (a = x ∧ b = y ∧ img.inBounds x y = true) := fun h => he ⟨h.1, h.2.1⟩
        rw [if_neg hc]
        simp [List.getElem?_set, hne]
    · rw [if_neg hxy]
      have hc : ¬ (a = x ∧ b = y ∧ img.inBounds x y = true) := fun h => hxy h.2.2
      rw [if_neg hc]
  · rw [if_neg hab, if_neg hab]
    have hc : ¬ (a = x ∧ b = y ∧ img.inBounds x y = true) := by
      rintro ⟨rfl, rfl, h⟩
      exact hab h
    rw [if_neg hc]

/-- Two writes of the same colour commute. -/
theorem Set_comm (img : Image) (x y a b : Int) (k : Color) :
    (img.Set x y k).Set a b k = (img.Set a b k).Set x y k := by
  unfold Set
  by_cases h1 : img.inBounds x y = true <;> by_cases h2 : img.inBounds a b = true
  · simp only [h1, h2, if_true, inBounds, PixOffset]
    simp only [inBounds] at h1 h2
    simp only [h1, h2, if_true]
    congr 1
    by_cases he : (y * ↑img.W + x).toNat = (b * ↑img.W + a).toNat
    · rw [he]
    · exact List.set_comm k k _ he
  · simp only [h1, h2, inBounds, PixOffset]
    simp only [inBounds] at h1 h2
    simp [h1, h2]
  · simp only [h1, h2, inBounds, PixOffset]
    simp only [inBounds] at h1 h2
    simp [h1, h2]
  · simp [h1, h2]

/-- Writing the same colour twice at one pixel is writing it once. -/
theorem Set_Set (img : Image) (x y : Int) (k : Color) :
    (img.Set x y k).Set x y k = img.Set x y k := by
  unfold Set
  by_cases h1 : img.inBounds x y = true
  · simp only [h1, if_true, inBounds, PixOffset]
    simp only [inBounds] at h1
    simp only [h1, if_true]
    congr 1
    exact List.set_set k k _ _
  · simp [h1]

/-- Two well-formed buffers of the same size with the same pixels are equal. -/
theorem ext_At (i1 i2 : Image) (h1 : i1.WellFormed) (h2 : i2.WellFormed) (hW : i1.W = i2.W)
    (hH : i1.H = i2.H)
    (h : ∀ x y : Int, i1.inBounds x y = true → i1.At x y = i2.At x y) : i1 = i2 := by
  cases i1 with
  | mk W1 H1 P1 =>
  cases i2 with
  | mk W2 H2 P2 =>
  simp only at hW hH
  subst hW hH
  unfold WellFormed at h1 h2
  simp only at h1 h2
  congr 1
  apply List.ext_getElem (by rw [h1, h2])
  intro n hn1 hn2
  rw [h1] at hn1
  have hWpos : 0 < W1 := by
    rcases Nat.eq_zero_or_pos W1 with h0 | h0
    · subst h0; simp at hn1
    · exact h0
  have hq : n / W1 < H1 := by
    rw [Nat.div_lt_iff_lt_mul hWpos]; rwa [Nat.mul_comm] at hn1
  have hr : n % W1 < W1 := Nat.mod_lt _ hWpos
  have hb : (Image.mk W1 H1 P1).inBounds (n % W1 : Nat) (n / W1 : Nat) = true := by
    rw [inBounds_iff]
    exact ⟨Int.natCast_nonneg _, by exact_mod_cast hr, Int.natCast_nonneg _,
      by exact_mod_cast hq⟩
  have hoff : ∀ P : List Color, (Image.mk W1 H1 P).PixOffset (n % W1 : Nat) (n / W1 : Nat) = n := by
    intro P
    unfold PixOffset
    simp only
    have : ((n / W1 : Nat) : Int) * (W1 : Int) + ((n % W1 : Nat) : Int) = (n : Int) := by
      have := Nat.div_add_mod n W1
      rw [Nat.mul_comm] at this
      exact_mod_cast this
    rw [this]
    simp
  have := h _ _ hb
  have hb2 : (Image.mk W1 H1 P2).inBounds (n % W1 : Nat) (n / W1 : Nat) = true := hb
  unfold At at this
  rw [if_pos hb, if_pos hb2, hoff, hoff] at this
  simp only [List.getD_eq_getElem?_getD] at this
  rw [List.getElem?_eq_getElem (by rw [h1]; exact hn1),
    List.getElem?_eq_getElem hn2] at this
  simpa using this

end Image

/-! ## Sequences of writes -/

theorem paintF_nil (img : Image) (col : Point → Color) : paintF img [] col = img := rfl

theorem paintF_cons (img : Image) (pt : Point) (pts : List Point) (col : Point → Color) :
    paintF img (pt :: pts) col = paintF (img.Set pt.X pt.Y (col pt)) pts col := rfl

theorem paintF_append (img : Image) (l1 l2 : List Point) (col : Point → Color) :
    paintF img (l1 ++ l2) col = paintF (paintF img l1 col) l2 col := by
  unfold paintF
  rw [List.foldl_append]

theorem paintF_W (pts : List Point) (col : Point → Color) :
    ∀ img : Image, (paintF img pts col).W = img.W := by
  induction pts with
  | nil => intro img; rfl
  | cons pt pts ih => intro img; rw [paintF_cons, ih, Image.Set_W]

theorem paintF_H (pts : List Point) (col : Point → Color) :
    ∀ img : Image, (paintF img pts col).H = img.H := by
  induction pts with
  | nil => intro img; rfl
  | cons pt pts ih => intro img; rw [paintF_cons, ih, Image.Set_H]

theorem paintF_length (pts : List Point) (col : Point → Color) :
    ∀ img : Image, (paintF img pts col).Pix.length = img.Pix.length := by
  induction pts with
  | nil => intro img; rfl
  | cons pt pts ih => intro img; rw [paintF_cons, ih, Image.Set_length]

theorem paintF_WellFormed (pts : List Point) (col : Point → Color) (img : Image)
    (h : img.WellFormed) : (paintF img pts col).WellFormed := by
  unfold Image.WellFormed at *
  rw [paintF_length, paintF_W, paintF_H, h]

theorem paintF_inBounds (pts : List Point) (col : Point → Color) (img : Image) (a b : Int) :
    (paintF img pts col).inBounds a b = img.inBounds a b := by
  unfold Image.inBounds
  rw [paintF_W, paintF_H]

/-- Reading a pixel after a sequence of writes whose colour depends on the pixel only. -/
theorem paintF_At (pts : List Point) (col : Point → Color) :
    ∀ img : Image, img.WellFormed → ∀ a b : Int,
      (paintF img pts col).At a b =
        if (⟨a, b⟩ : Point) ∈ pts ∧ img.inBounds a b = true then col ⟨a, b⟩ else img.At a b := by
  induction pts with
  | nil =>
    intro img _ a b
    simp [paintF_nil]
  | cons pt pts ih =>
    intro img hw a b
    rw [paintF_cons, ih _ (Image.Set_WellFormed _ _ _ _ hw), Image.Set_inBounds,
      Image.At_Set _ hw]
    by_cases hb : img.inBounds a b = true
    · by_cases h1 : (⟨a, b⟩ : Point) ∈ pts
      · have h2 : (⟨a, b⟩ : Point) ∈ pt :: pts := List.mem_cons_of_mem _ h1
        rw [if_pos ⟨h1, hb⟩, if_pos ⟨h2, hb⟩]
      · rw [if_neg (fun h => h1 h.1)]
        by_cases h3 : a = pt.X ∧ b = pt.Y
        · obtain ⟨rfl, rfl⟩ := h3
          have h2 : (⟨pt.X, pt.Y⟩ : Point) ∈ pt :: pts := List.mem_cons_self _ _
          rw [if_pos ⟨rfl, rfl, hb⟩, if_pos ⟨h2, hb⟩]
        · have h4 : ¬ (a = pt.X ∧ b = pt.Y ∧ img.inBounds pt.X pt.Y = true) :=
            fun h => h3 ⟨h.1, h.2.1⟩
          have h5 : ¬ ((⟨a, b⟩ : Point) ∈ pt :: pts ∧ img.inBounds a b = true) := by
            rintro ⟨h, _⟩
            rcases List.mem_cons.1 h with h | h
            · apply h3
              rw [← h]
              exact ⟨rfl, rfl⟩
            · exact h1 h
          rw [if_neg h4, if_neg h5]
    · have h4 : ¬ (a = pt.X ∧ b = pt.Y ∧ img.inBounds pt.X pt.Y = true) := by
        rintro ⟨rfl, rfl, h⟩
        exact hb h
      have h5 : ¬ ((⟨a, b⟩ : Point) ∈ pts ∧ img.inBounds a b = true) := fun h => hb h.2
      have h6 : ¬ ((⟨a, b⟩ : Point) ∈ pt :: pts ∧ img.inBounds a b = true) := fun h => hb h.2
      rw [if_neg h5, if_neg h4, if_neg h6]

theorem paint_Set_comm (pts : List Point) (k : Color) :
    ∀ (img : Image) (a b : Int), (paint img pts k).Set a b k = paint (img.Set a b k) pts k := by
  induction pts with
  | nil => intro img a b; rfl
  | cons pt pts ih =>
    intro img a b
    unfold paint at ih ⊢
    rw [paintF_cons, paintF_cons, ih, Image.Set_comm]

theorem paint_paint_comm (l1 : List Point) (k : Color) :
    ∀ (img : Image) (l2 : List Point), paint (paint img l1 k) l2 k = paint (paint img l2 k) l1 k := by
  induction l1 with
  | nil => intro img l2; rfl
  | cons pt l1 ih =>
    intro img l2
    have e1 : paint img (pt :: l1) k = paint (img.Set pt.X pt.Y k) l1 k := rfl
    have e2 : ∀ im : Image, paint im (pt :: l1) k = paint (im.Set pt.X pt.Y k) l1 k :=
      fun _ => rfl
    rw [e1, ih, e2, paint_Set_comm]

/-- Writing one colour along a list of points twice is writing it once. -/
theorem paint_idem (pts : List Point) (k : Color) :
    ∀ img : Image, paint (paint img pts k) pts k = paint img pts k := by
  induction pts with
  | nil => intro img; rfl
  | cons pt pts ih =>
    intro img
    have e : ∀ im : Image, paint im (pt :: pts) k = paint (im.Set pt.X pt.Y k) pts k :=
      fun _ => rfl
    rw [e img, e (paint _ pts k), paint_Set_comm, Image.Set_Set, ih]

/-! ## The loops of `Circle.Draw` -/

/-- Simulation: a loop on states `f t` follows the loop on the states `t`. -/
theorem forLE_map {σ τ : Type} (f : τ → σ) (body1 : Int → σ → Option σ)
    (body2 : Int → τ → Option τ) (hi : Int)
    (h : ∀ x t, body1 x (f t) = (body2 x t).map f) :
    ∀ (fuel : Nat) (x : Int) (t : τ),
      forLE body1 hi fuel x (f t) = (forLE body2 hi fuel x t).map f := by
  intro fuel
  induction fuel with
  | zero => intro x t; rfl
  | succ n ih =>
    intro x t
    unfold forLE
    by_cases hx : x ≤ hi
    · rw [if_pos hx, if_pos hx, h]
      cases hb : body2 x t with
      | none => rfl
      | some t1 =>
        simp only [Option.map_some', Option.some_bind]
        exact ih _ _
    · rw [if_neg hx, if_neg hx]
      rfl

/-- The method `Circle.Draw` writes the one colour along its trace, whatever the buffer
holds. -/
theorem Draw_eq_paint (fuel : Nat) (c : Circle) (img : Image) (k : Color) :
    c.Draw fuel img k = (c.drawTrace fuel).map (fun pts => paint img pts k) := by
  unfold Circle.Draw Circle.drawTrace
  simp only
  have h0 : img = paint img [] k := rfl
  conv_lhs => rw [h0]
  apply forLE_map (fun pts => paint img pts k)
  intro x t
  apply forLE_map (fun pts => paint img pts k)
  intro y t
  simp only [Option.map_some']
  congr 1
  split
  · unfold paint; rw [paintF_append]; rfl
  · rfl

/-- A loop whose bounds do not reach the largest `int` terminates, with the fold of
its body over the range. -/
theorem forLE_some {σ : Type} (body : Int → σ → Option σ) (g : Int → σ → σ) (hi : Int)
    (hhi : hi < 2 ^ 63 - 1) (hb : ∀ x s, body x s = some (g x s)) :
    ∀ (n fuel : Nat) (lo : Int) (s : σ), (hi + 1 - lo).toNat = n → n < fuel → -2 ^ 63 ≤ lo →
      forLE body hi fuel lo s = some ((List.range n).foldl (fun s i => g (lo + (i : Nat)) s) s) := by
  intro n
  induction n with
  | zero =>
    intro fuel lo s hn hf _
    obtain ⟨f, rfl⟩ := Nat.exists_eq_succ_of_ne_zero (Nat.pos_iff_ne_zero.1 hf)
    unfold forLE
    have : ¬ lo ≤ hi := by omega
    rw [if_neg this]
    rfl
  | succ n ih =>
    intro fuel lo s hn hf hlo
    obtain ⟨f, rfl⟩ := Nat.exists_eq_succ_of_ne_zero (Nat.pos_iff_ne_zero.1 (by omega : 0 < fuel))
    unfold forLE
    have h1 : lo ≤ hi := by omega
    rw [if_pos h1, hb, Option.some_bind, wrapInt_eq _ (by omega) (by omega),
      ih f (lo + 1) (g lo s) (by omega) (by omega) (by omega)]
    rw [List.range_succ_eq_map, List.foldl_cons, List.foldl_map]
    simp only [Nat.cast_zero, add_zero, Nat.cast_succ]
    congr 2
    funext s i
    congr 1
    ring

/-- A loop whose upper bound is the largest `int` never terminates when its body does. -/
theorem forLE_maxInt {σ : Type} (body : Int → σ → Option σ) :
    ∀ (fuel : Nat) (x : Int) (s : σ), x < 2 ^ 63 →
      forLE body (2 ^ 63 - 1) fuel x s = none := by
  intro fuel
  induction fuel with
  | zero => intro x s _; rfl
  | succ n ih =>
    intro x s hx
    unfold forLE
    rw [if_pos (by omega)]
    cases body x s with
    | none => rfl
    | some s1 =>
      rw [Option.some_bind]
      exact ih _ _ (wrapInt_bounds _).2

/-- Membership in a list grown by a loop that appends `pt i` whenever `P i` holds. -/
theorem mem_foldl_append {ι : Type} (P : ι → Bool) (pt : ι → Point) (q : Point) (L : List ι) :
    ∀ acc : List Point,
      q ∈ L.foldl (fun acc i => if P i = true then acc ++ [pt i] else acc) acc ↔
        q ∈ acc ∨ ∃ i ∈ L, P i = true ∧ pt i = q := by
  induction L with
  | nil => intro acc; simp
  | cons i L ih =>
    intro acc
    rw [List.foldl_cons, ih]
    by_cases hP : P i = true
    · rw [if_pos hP]
      constructor
      · rintro (h | ⟨j, hj, h1, h2⟩)
        · rcases List.mem_append.1 h with h | h
          · exact Or.inl h
          · exact Or.inr ⟨i, List.mem_cons_self _ _, hP, (List.mem_singleton.1 h).symm⟩
        · exact Or.inr ⟨j, List.mem_cons_of_mem _ hj, h1, h2⟩
      · rintro (h | ⟨j, hj, h1, h2⟩)
        · exact Or.inl (List.mem_append.2 (Or.inl h))
        · rcases List.mem_cons.1 hj with hj | hj
          · subst hj
            exact Or.inl (List.mem_append.2 (Or.inr (List.mem_singleton.2 h2.symm)))
          · exact Or.inr ⟨j, hj, h1, h2⟩
    · rw [if_neg hP]
      constructor
      · rintro (h | ⟨j, hj, h1, h2⟩)
        · exact Or.inl h
        · exact Or.inr ⟨j, List.mem_cons_of_mem _ hj, h1, h2⟩
      · rintro (h | ⟨j, hj, h1, h2⟩)
        · exact Or.inl h
        · rcases List.mem_cons.1 hj with hj | hj
          · subst hj; exact absurd h1 hP
          · exact Or.inr ⟨j, hj, h1, h2⟩

/-- Membership in the list grown by two nested loops. -/
theorem mem_foldl_foldl_append {ι κ : Type} (P : ι → κ → Bool) (pt : ι → κ → Point) (q : Point)
    (ys : List κ) (xs : List ι) :
    ∀ acc : List Point,
      q ∈ xs.foldl (fun acc i =>
          ys.foldl (fun acc j => if P i j = true then acc ++ [pt i j] else acc) acc) acc ↔
        q ∈ acc ∨ ∃ i ∈ xs, ∃ j ∈ ys, P i j = true ∧ pt i j = q := by
  induction xs with
  | nil => intro acc; simp
  | cons i xs ih =>
    intro acc
    rw [List.foldl_cons, ih, mem_foldl_append (P i) (pt i) q ys acc]
    constructor
    · rintro ((h | ⟨j, hj, h1, h2⟩) | ⟨i', hi', j, hj, h1, h2⟩)
      · exact Or.inl h
      · exact Or.inr ⟨i, List.mem_cons_self _ _, j, hj, h1, h2⟩
      · exact Or.inr ⟨i', List.mem_cons_of_mem _ hi', j, hj, h1, h2⟩
    · rintro (h | ⟨i', hi', j, hj, h1, h2⟩)
      · exact Or.inl (Or.inl h)
      · rcases List.mem_cons.1 hi' with hi' | hi'
        · subst hi'; exact Or.inl (Or.inr ⟨j, hj, h1, h2⟩)
        · exact Or.inr ⟨i', hi', j, hj, h1, h2⟩

/-- Two nested `for ... <= ...` loops that collect the points passing a test, when no
counter can overflow: they terminate and collect exactly the points of the rectangle
that pass. -/
theorem nested_forLE_spec (ins : Int → Int → Bool) (loX hiX loY hiY : Int) (fuel : Nat)
    (hx1 : -2 ^ 63 ≤ loX) (hx2 : hiX < 2 ^ 63 - 1) (hy1 : -2 ^ 63 ≤ loY)
    (hy2 : hiY < 2 ^ 63 - 1) (hfx : (hiX + 1 - loX).toNat < fuel)
    (hfy : (hiY + 1 - loY).toNat < fuel) :
    ∃ pts,
      forLE (fun x acc =>
          forLE (fun y acc => some (if ins x y = true then acc ++ [(⟨x, y⟩ : Point)] else acc))
            hiY fuel loY acc)
        hiX fuel loX [] = some pts ∧
      ∀ a b : Int, (⟨a, b⟩ : Point) ∈ pts ↔
        (loX ≤ a ∧ a ≤ hiX ∧ loY ≤ b ∧ b ≤ hiY ∧ ins a b = true) := by
  have inner : ∀ (x : Int) (acc : List Point),
      forLE (fun y acc => some (if ins x y = true then acc ++ [(⟨x, y⟩ : Point)] else acc))
        hiY fuel loY acc =
      some ((List.range (hiY + 1 - loY).toNat).foldl
        (fun acc (j : Nat) =>
          if ins x (loY + j) = true then acc ++ [(⟨x, loY + j⟩ : Point)] else acc) acc) := by
    intro x acc
    exact forLE_some _ (fun y acc => if ins x y = true then acc ++ [(⟨x, y⟩ : Point)] else acc)
      _ hy2 (fun _ _ => rfl) _ fuel _ acc rfl hfy hy1
  have outer := forLE_some
    (fun x acc =>
      forLE (fun y acc => some (if ins x y = true then acc ++ [(⟨x, y⟩ : Point)] else acc))
        hiY fuel loY acc)
    (fun x acc => (List.range (hiY + 1 - loY).toNat).foldl
        (fun acc (j : Nat) =>
          if ins x (loY + j) = true then acc ++ [(⟨x, loY + j⟩ : Point)] else acc) acc)
    hiX hx2 inner _ fuel loX [] rfl hfx hx1
  refine ⟨_, outer, ?_⟩
  intro a b
  have key := mem_foldl_foldl_append (fun (i j : Nat) => ins (loX + i) (loY + j))
    (fun (i j : Nat) => (⟨loX + i, loY + j⟩ : Point)) ⟨a, b⟩
    (List.range (hiY + 1 - loY).toNat) (List.range (hiX + 1 - loX).toNat) []
  simp only at key
  rw [key]
  simp only [List.not_mem_nil, false_or, List.mem_range, Point.mk.injEq]
  constructor
  · rintro ⟨i, hi, j, hj, hin, rfl, rfl⟩
    refine ⟨by omega, by omega, by omega, by omega, hin⟩
  · rintro ⟨ha1, ha2, hb1, hb2, hin⟩
    refine ⟨(a - loX).toNat, by omega, (b - loY).toNat, by omega, ?_, ?_, ?_⟩
    · have e1 : loX + ((a - loX).toNat : Int) = a := by omega
      have e2 : loY + ((b - loY).toNat : Int) = b := by omega
      rw [e1, e2]; exact hin
    · omega
    · omega

/-- When no loop bound of `Draw` overflows, `Draw` terminates with enough fuel, and its
trace holds exactly the points of the bounding square that pass `IsInside`. -/
theorem drawTrace_spec (c : Circle) (hno : c.NoOverflow) (fuel : Nat)
    (hf : (2 * c.r + 1).toNat < fuel) :
    ∃ pts, c.drawTrace fuel = some pts ∧
      ∀ a b : Int, (⟨a, b⟩ : Point) ∈ pts ↔
        (c.p.X - c.r ≤ a ∧ a ≤ c.p.X + c.r ∧ c.p.Y - c.r ≤ b ∧ b ≤ c.p.Y + c.r ∧
          c.IsInside ⟨a, b⟩ = true) := by
  obtain ⟨h1, h2, h3, h4, h5, h6, h7, h8⟩ := hno
  unfold Circle.drawTrace
  simp only
  rw [wrapInt_eq _ h1 (by omega), wrapInt_eq _ h3 (by omega), wrapInt_eq _ h5 (by omega),
    wrapInt_eq _ h7 (by omega)]
  have hn : ∀ u : Int, (u + c.r + 1 - (u - c.r)).toNat < fuel := by
    intro u
    have : u + c.r + 1 - (u - c.r) = 2 * c.r + 1 := by ring
    rw [this]
    exact hf
  exact nested_forLE_spec (fun x y => c.IsInside ⟨x, y⟩) _ _ _ _ fuel h1 h4 h5 h8 (hn _) (hn _)

/-- The effect of `Circle.Draw` when no loop bound overflows: it terminates with enough
fuel, keeps the buffer's size, and sets exactly the in-bounds pixels of the bounding
square that pass `IsInside`. -/
theorem Draw_spec (c : Circle) (hno : c.NoOverflow) (fuel : Nat)
    (hf : (2 * c.r + 1).toNat < fuel)
    (img : Image) (hw : img.WellFormed) (k : Color) :
    ∃ out, c.Draw fuel img k = some out ∧ out.W = img.W ∧ out.H = img.H ∧ out.WellFormed ∧
      ∀ a b : Int, out.At a b =
        if (c.p.X - c.r ≤ a ∧ a ≤ c.p.X + c.r ∧ c.p.Y - c.r ≤ b ∧ b ≤ c.p.Y + c.r ∧
          c.IsInside ⟨a, b⟩ = true) ∧ img.inBounds a b = true then k else img.At a b := by
  obtain ⟨pts, h1, h2⟩ := drawTrace_spec c hno fuel hf
  refine ⟨paint img pts k, by rw [Draw_eq_paint, h1]; rfl, paintF_W _ _ _, paintF_H _ _ _,
    paintF_WellFormed _ _ _ hw, ?_⟩
  intro a b
  unfold paint
  rw [paintF_At _ _ _ hw]
  simp only [h2]

/-! ## `IsInside` in exact integer arithmetic -/

namespace F64

/-- On integers small enough for `float64` to be exact, the rounded square root of `A`
is at most `R` exactly when `A ≤ R * R`. -/
theorem sqrt_le_iff (A R : Nat) (hA : A ≤ 2 ^ 54) (hR : R < 2 ^ 26) :
    le (sqrt (fin ((A * 2 ^ 1074 : Nat) : Int))) (fin ((R * 2 ^ 1074 : Nat) : Int)) = true ↔
      A ≤ R * R := by
  rcases Nat.eq_zero_or_pos A with h0 | h0
  · subst h0
    have : sqrt (fin ((0 * 2 ^ 1074 : Nat) : Int)) = fin 0 := by simp [sqrt]
    rw [this]
    show decide ((0 : Int) ≤ ((R * 2 ^ 1074 : Nat) : Int)) = true ↔ _
    simp
  · have hq : 0 < A * 2 ^ 1074 := Nat.mul_pos h0 (by positivity)
    have hfin := sqrt_le_of_le (A * 2 ^ 1074) (2 ^ 27) 1074 hq
      (Nat.pow_le_pow_right (by norm_num) (by norm_num)) (by norm_num) (by
        calc A * 2 ^ 1074 * 2 ^ 1074 ≤ 2 ^ 54 * 2 ^ 1074 * 2 ^ 1074 :=
              Nat.mul_le_mul_right _ (Nat.mul_le_mul_right _ hA)
          _ = 2 ^ 27 * 2 ^ 1074 * (2 ^ 27 * 2 ^ 1074) := by ring)
    rw [hfin.1]
    show decide (((roundNat (sqrtArg (A * 2 ^ 1074)) 1 : Nat) : Int) ≤
      ((R * 2 ^ 1074 : Nat) : Int)) = true ↔ _
    rw [decide_eq_true_iff, Int.ofNat_le]
    constructor
    · intro hs
      by_contra hc
      have hlt : R * R + 1 ≤ A := by omega
      have hT := le_roundNat_sqrtArg (A * 2 ^ 1074) (R * 2 ^ 27 + 1) 1047 (by
          have : R * 2 ^ 27 < 2 ^ 26 * 2 ^ 27 := Nat.mul_lt_mul_of_pos_right hR (by positivity)
          have e : (2 : Nat) ^ 26 * 2 ^ 27 = 2 ^ 53 := by rw [← pow_add]
          omega) (by
        have h1 : (R * 2 ^ 27 + 1) * (R * 2 ^ 27 + 1) ≤ A * 2 ^ 54 := by
          have h2 : (R * R + 1) * 2 ^ 54 ≤ A * 2 ^ 54 := Nat.mul_le_mul_right _ hlt
          have h3 : (R * 2 ^ 27 + 1) * (R * 2 ^ 27 + 1) ≤ (R * R + 1) * 2 ^ 54 := by
            have e1 : (R * 2 ^ 27 + 1) * (R * 2 ^ 27 + 1) = R * R * 2 ^ 54 + R * 2 ^ 28 + 1 := by
              ring
            have e2 : (R * R + 1) * 2 ^ 54 = R * R * 2 ^ 54 + 2 ^ 54 := by ring
            have e3 : R * 2 ^ 28 + 1 ≤ 2 ^ 54 := by
              have : R * 2 ^ 28 < 2 ^ 26 * 2 ^ 28 :=
                Nat.mul_lt_mul_of_pos_right hR (by positivity)
              have e : (2 : Nat) ^ 26 * 2 ^ 28 = 2 ^ 54 := by rw [← pow_add]
              omega
            rw [e1, e2]; omega
          exact le_trans h3 h2
        calc (R * 2 ^ 27 + 1) * 2 ^ 1047 * ((R * 2 ^ 27 + 1) * 2 ^ 1047)
            = (R * 2 ^ 27 + 1) * (R * 2 ^ 27 + 1) * 2 ^ 2094 := by ring
          _ ≤ A * 2 ^ 54 * 2 ^ 2094 := Nat.mul_le_mul_right _ h1
          _ = A * 2 ^ 1074 * 2 ^ 1074 := by ring)
      have hgt : R * 2 ^ 1074 < (R * 2 ^ 27 + 1) * 2 ^ 1047 := by
        have e : R * 2 ^ 1074 = R * 2 ^ 27 * 2 ^ 1047 := by ring
        rw [e]
        exact Nat.mul_lt_mul_of_pos_right (by omega) (by positivity)
      omega
    · intro hle
      have := sqrt_le_of_le (A * 2 ^ 1074) R 1074 hq
        (le_trans (le_of_lt hR) (Nat.pow_le_pow_right (by norm_num) (by norm_num)))
        (by norm_num) (by
          calc A * 2 ^ 1074 * 2 ^ 1074 ≤ R * R * 2 ^ 1074 * 2 ^ 1074 :=
                Nat.mul_le_mul_right _ (Nat.mul_le_mul_right _ hle)
            _ = R * 2 ^ 1074 * (R * 2 ^ 1074) := by ring)
      exact this.2

end F64

/-- In the range where `float64` is exact (differences and radius below `2^26` in
magnitude), `IsInside` is the integer test `dx*dx + dy*dy ≤ r*r` for a radius `r ≥ 0`,
and fails for every `r < 0`. -/
theorem IsInside_iff (c : Circle) (p : Point) (hx : (c.p.X - p.X).natAbs < 2 ^ 26)
    (hy : (c.p.Y - p.Y).natAbs < 2 ^ 26) (hr : c.r.natAbs < 2 ^ 26) :
    c.IsInside p = true ↔
      0 ≤ c.r ∧ (c.p.X - p.X) * (c.p.X - p.X) + (c.p.Y - p.Y) * (c.p.Y - p.Y) ≤ c.r * c.r := by
  unfold Circle.IsInside
  simp only
  generalize c.p.X - p.X = dx at hx ⊢
  generalize c.p.Y - p.Y = dy at hy ⊢
  generalize c.r = r at hr ⊢
  have hp26 : (2 : Nat) ^ 26 * 2 ^ 26 = 2 ^ 52 := by rw [← pow_add]
  have hp52 : (2 : Nat) ^ 52 + 2 ^ 52 = 2 ^ 53 := by rw [pow_succ]; omega
  have hp53 : (2 : Nat) ^ 53 ≤ 2 ^ 54 := Nat.pow_le_pow_right (by norm_num) (by norm_num)
  have h63 : (2 : Int) ^ 26 < 2 ^ 63 := by norm_num
  have sqb : ∀ z : Int, z.natAbs < 2 ^ 26 → (z * z).natAbs < 2 ^ 52 := by
    intro z hz
    rw [Int.natAbs_mul, ← hp26]
    exact Nat.mul_lt_mul'' hz hz
  have hxx := sqb dx hx
  have hyy := sqb dy hy
  have hnn : 0 ≤ dx * dx + dy * dy := add_nonneg (mul_self_nonneg _) (mul_self_nonneg _)
  have hsum : (dx * dx + dy * dy).natAbs < 2 ^ 53 := by
    have := Int.natAbs_add_le (dx * dx) (dy * dy)
    omega
  rw [wrapInt_eq dx (by omega) (by omega), wrapInt_eq dy (by omega) (by omega),
    F64.ofInt_exact dx (by omega), F64.ofInt_exact dy (by omega),
    F64.mul_exact dx dx (by omega), F64.mul_exact dy dy (by omega),
    F64.add_exact _ _ (by omega), F64.ofInt_exact r (by omega)]
  by_cases hr0 : 0 ≤ r
  · have eA : (dx * dx + dy * dy) * 2 ^ 1074 =
        (((dx * dx + dy * dy).toNat * 2 ^ 1074 : Nat) : Int) := by
      push_cast
      rw [Int.toNat_of_nonneg hnn]
    have eR : r * 2 ^ 1074 = ((r.toNat * 2 ^ 1074 : Nat) : Int) := by
      push_cast
      rw [Int.toNat_of_nonneg hr0]
    rw [eA, eR, F64.sqrt_le_iff _ _ (by omega) (by omega)]
    constructor
    · intro h
      refine ⟨hr0, ?_⟩
      have h2 : ((dx * dx + dy * dy).toNat : Int) ≤ ((r.toNat * r.toNat : Nat) : Int) := by
        exact_mod_cast h
      rw [Int.toNat_of_nonneg hnn] at h2
      push_cast at h2
      rw [Int.toNat_of_nonneg hr0] at h2
      exact h2
    · rintro ⟨_, h⟩
      have h2 : ((dx * dx + dy * dy).toNat : Int) ≤ ((r.toNat * r.toNat : Nat) : Int) := by
        rw [Int.toNat_of_nonneg hnn]
        push_cast
        rw [Int.toNat_of_nonneg hr0]
        exact h
      exact_mod_cast h2
  · have hneg : r * 2 ^ 1074 < 0 := Int.mul_neg_of_neg_of_pos (by omega) (by positivity)
    have eA : (dx * dx + dy * dy) * 2 ^ 1074 =
        (((dx * dx + dy * dy).toNat * 2 ^ 1074 : Nat) : Int) := by
      push_cast
      rw [Int.toNat_of_nonneg hnn]
    obtain ⟨s, hs⟩ := F64.sqrt_fin ((dx * dx + dy * dy).toNat * 2 ^ 1074) (by
      calc (dx * dx + dy * dy).toNat * 2 ^ 1074 ≤ 2 ^ 53 * 2 ^ 1074 :=
            Nat.mul_le_mul_right _ (by omega)
        _ ≤ 2 ^ 2098 := by rw [← pow_add]; exact Nat.pow_le_pow_right (by norm_num) (by norm_num))
    rw [eA, hs, le_fin_fin]
    constructor
    · intro h
      simp only [decide_eq_true_eq] at h
      omega
    · rintro ⟨h, _⟩
      exact absurd h hr0

/-! ## The loops of `main` -/

theorem mem_grid (W H : Nat) (a b : Int) :
    (⟨a, b⟩ : Point) ∈ grid W H ↔ 0 ≤ a ∧ a < W ∧ 0 ≤ b ∧ b < H := by
  unfold grid
  simp only [List.mem_flatMap, List.mem_map, List.mem_range, Point.mk.injEq]
  constructor
  · rintro ⟨x, hx, y, hy, rfl, rfl⟩
    exact ⟨Int.natCast_nonneg _, by exact_mod_cast hx, Int.natCast_nonneg _, by exact_mod_cast hy⟩
  · rintro ⟨h1, h2, h3, h4⟩
    exact ⟨a.toNat, by omega, b.toNat, by omega, by omega, by omega⟩

/-- Two nested loops over `[0, W)` and `[0, H)` that write one pixel per step are one
sequence of writes along the grid. -/
theorem foldl_grid (W H : Nat) (col : Point → Color) (img : Image) :
    (List.range W).foldl (fun img x =>
      (List.range H).foldl (fun img y => img.Set (x : Nat) (y : Nat) (col ⟨x, y⟩)) img) img
      = paintF img (grid W H) col := by
  unfold grid paintF
  generalize List.range W = xs
  induction xs generalizing img with
  | nil => rfl
  | cons x xs ih =>
    rw [List.foldl_cons, List.flatMap_cons, List.foldl_append, ih, List.foldl_map]

theorem fillImage_eq (W H : Nat) (img : Image) (c : Color) :
    fillImage W H img c = paintF img (grid W H) (fun _ => c) := by
  unfold fillImage
  exact foldl_grid W H (fun _ => c) img

theorem foldlM_some {α β : Type} (f : β → α → Option β) (g : β → α → β)
    (h : ∀ s x, f s x = some (g s x)) (l : List α) :
    ∀ s : β, l.foldlM f s = some (l.foldl g s) := by
  induction l with
  | nil => intro s; rfl
  | cons x l ih =>
    intro s
    rw [List.foldlM_cons, h, List.foldl_cons]
    exact ih _

theorem getClosestSeed_ne_nil (p : Point) (seeds : List Seed) (hne : seeds ≠ []) :
    ∃ b, getClosestSeed p seeds = some b := by
  cases seeds with
  | nil => exact absurd rfl hne
  | cons s0 rest => exact ⟨_, rfl⟩

theorem cellColor_eq (seeds : List Seed) (p : Point) (b : Seed)
    (h : getClosestSeed p seeds = some b) : cellColor seeds p = b.color := by
  unfold cellColor
  rw [h]

/-- The cell colouring loop of `main` on a non-empty seed list never panics: it writes
`cellColor` along the grid. -/
theorem colourCells_eq (W H : Nat) (seeds : List Seed) (hne : seeds ≠ []) (img : Image) :
    colourCells W H seeds img = some (paintF img (grid W H) (cellColor seeds)) := by
  unfold colourCells
  have hstep : ∀ (x : Nat) (im : Image) (y : Nat),
      (getClosestSeed ⟨x, y⟩ seeds).map (fun seed => im.Set (x : Nat) (y : Nat) seed.color) =
        some (im.Set (x : Nat) (y : Nat) (cellColor seeds ⟨x, y⟩)) := by
    intro x im y
    obtain ⟨b, hb⟩ := getClosestSeed_ne_nil ⟨x, y⟩ seeds hne
    rw [cellColor_eq _ _ _ hb, hb]
    rfl
  have hin : ∀ (im : Image) (x : Nat),
      (List.range H).foldlM (fun (img : Image) (y : Nat) =>
        (getClosestSeed ⟨x, y⟩ seeds).map (fun seed => img.Set (x : Nat) (y : Nat) seed.color)) im =
      some ((List.range H).foldl
        (fun (img : Image) (y : Nat) =>
          img.Set (x : Nat) (y : Nat) (cellColor seeds ⟨x, y⟩)) im) := by
    intro im x
    exact foldlM_some _ _ (fun s y => hstep x s y) _ im
  rw [foldlM_some _ _ hin, foldl_grid W H (cellColor seeds) img]

/-- The overlay loop of `main` writes the marker colour along the traces of the seeds. -/
theorem drawSeeds_eq_paint (fuel : Nat) (m : Color) (img : Image) (seeds : List Seed) :
    ∀ acc : List Point,
      seeds.foldlM (fun (im : Image) (seed : Seed) => seed.toCircle.Draw fuel im m)
          (paint img acc m) =
        (seeds.foldlM (fun (acc : List Point) (seed : Seed) =>
          (seed.toCircle.drawTrace fuel).map (fun pts => acc ++ pts)) acc).map
            (fun pts => paint img pts m) := by
  induction seeds with
  | nil => intro acc; rfl
  | cons s seeds ih =>
    intro acc
    rw [List.foldlM_cons, List.foldlM_cons, Draw_eq_paint]
    cases hs : s.toCircle.drawTrace fuel with
    | none => rfl
    | some pts =>
      simp only [Option.map_some', Option.some_bind, Option.bind_eq_bind]
      have e : paint (paint img acc m) pts m = paint img (acc ++ pts) m := by
        unfold paint; rw [paintF_append]
      rw [e]
      exact ih _

theorem drawSeeds_eq (fuel : Nat) (m : Color) (img : Image) (seeds : List Seed) :
    drawSeeds fuel seeds m img = (seedsTrace fuel seeds).map (fun pts => paint img pts m) :=
  drawSeeds_eq_paint fuel m img seeds []

/-- The render pipeline on a non-empty seed list: background, then `cellColor` along the
grid, then the marker colour along the traces of the seeds. -/
theorem renderFrom_eq (W H fuel : Nat) (seeds : List Seed) (hne : seeds ≠ []) (bg m : Color)
    (img : Image) :
    renderFrom W H fuel seeds bg m img =
      (seedsTrace fuel seeds).map (fun pts =>
        paint (paintF (paintF img (grid W H) (fun _ => bg)) (grid W H) (cellColor seeds)) pts m) := by
  unfold renderFrom
  rw [fillImage_eq, colourCells_eq _ _ _ hne, Option.some_bind, drawSeeds_eq]

theorem NewRGBA_WellFormed (W H : Nat) : (NewRGBA W H).WellFormed := by
  unfold Image.WellFormed NewRGBA
  simp

/-- Every pixel of the rendered buffer: the marker colour on the traces of the seeds, the
colour of the closest seed elsewhere. -/
theorem render_At (W H fuel : Nat) (seeds : List Seed) (hne : seeds ≠ []) (bg m : Color)
    (out : Image) (h : render W H fuel seeds bg m = some out) :
    ∃ pts, seedsTrace fuel seeds = some pts ∧ out.W = W ∧ out.H = H ∧ out.WellFormed ∧
      ∀ x y : Nat, x < W → y < H →
        out.At x y = if (⟨x, y⟩ : Point) ∈ pts then m else cellColor seeds ⟨x, y⟩ := by
  unfold render at h
  rw [renderFrom_eq _ _ _ _ hne] at h
  cases hs : seedsTrace fuel seeds with
  | none => rw [hs] at h; exact absurd h (by simp)
  | some pts =>
    rw [hs] at h
    simp only [Option.map_some', Option.some.injEq] at h
    subst h
    have hw0 := NewRGBA_WellFormed W H
    have hw1 := paintF_WellFormed (grid W H) (fun _ => bg) _ hw0
    have hw2 := paintF_WellFormed (grid W H) (cellColor seeds) _ hw1
    refine ⟨pts, rfl, ?_, ?_, paintF_WellFormed _ _ _ hw2, ?_⟩
    · unfold paint; rw [paintF_W, paintF_W, paintF_W]; rfl
    · unfold paint; rw [paintF_H, paintF_H, paintF_H]; rfl
    · intro x y hx hy
      have hb : (NewRGBA W H).inBounds x y = true := by
        rw [Image.inBounds_iff]
        exact ⟨Int.natCast_nonneg _, by exact_mod_cast hx, Int.natCast_nonneg _,
          by exact_mod_cast hy⟩
      have hg : (⟨x, y⟩ : Point) ∈ grid W H := by
        rw [mem_grid]
        exact ⟨Int.natCast_nonneg _, by exact_mod_cast hx, Int.natCast_nonneg _,
          by exact_mod_cast hy⟩
      unfold paint
      rw [paintF_At _ _ _ hw2, paintF_inBounds, paintF_inBounds, paintF_At _ _ _ hw1,
        paintF_inBounds]
      simp only [hb, hg, and_true, if_true]

/-! ## Termination and effect of the overlay -/

/-- A loop stops without a result when its fuel does not cover its iterations. -/
theorem forLE_fuel_le {σ : Type} (body : Int → σ → Option σ) (hi : Int) (hhi : hi < 2 ^ 63 - 1) :
    ∀ (fuel : Nat) (lo : Int) (s : σ), fuel ≤ (hi + 1 - lo).toNat → -2 ^ 63 ≤ lo →
      forLE body hi fuel lo s = none := by
  intro fuel
  induction fuel with
  | zero => intro lo s _ _; rfl
  | succ n ih =>
    intro lo s hn hlo
    unfold forLE
    rw [if_pos (by omega)]
    cases body lo s with
    | none => rfl
    | some s1 =>
      rw [Option.some_bind, wrapInt_eq _ (by omega) (by omega)]
      exact ih _ _ (by omega) (by omega)

theorem drawTrace_fuel_le (c : Circle) (hno : c.NoOverflow) (fuel : Nat)
    (hf : fuel ≤ (2 * c.r + 1).toNat) : c.drawTrace fuel = none := by
  obtain ⟨h1, h2, h3, h4, h5, h6, h7, h8⟩ := hno
  unfold Circle.drawTrace
  simp only
  rw [wrapInt_eq _ h1 (by omega), wrapInt_eq _ h3 (by omega)]
  apply forLE_fuel_le _ _ h4 _ _ _ _ h1
  have : c.p.X + c.r + 1 - (c.p.X - c.r) = 2 * c.r + 1 := by ring
  rw [this]
  exact hf

/-- Whenever `Draw` terminates on a circle whose loop bounds do not overflow, its trace
holds exactly the points of the bounding square that pass `IsInside`. -/
theorem drawTrace_mem (c : Circle) (hno : c.NoOverflow) (fuel : Nat) (pts : List Point)
    (h : c.drawTrace fuel = some pts) (a b : Int) :
    (⟨a, b⟩ : Point) ∈ pts ↔ (c.InSquare a b ∧ c.IsInside ⟨a, b⟩ = true) := by
  rcases Nat.lt_or_ge (2 * c.r + 1).toNat fuel with hf | hf
  · obtain ⟨pts2, h1, h2⟩ := drawTrace_spec c hno fuel hf
    rw [h1] at h
    cases h
    rw [h2]
    unfold Circle.InSquare
    tauto
  · rw [drawTrace_fuel_le c hno fuel hf] at h
    exact absurd h (by simp)

/-- Whenever the overlay loop terminates, its trace holds exactly the points that lie
in the bounding square of some seed and pass its `IsInside`. -/
theorem foldlM_trace_mem (fuel : Nat) (q : Point) (seeds : List Seed)
    (hno : ∀ s ∈ seeds, s.toCircle.NoOverflow) :
    ∀ (acc pts : List Point),
      seeds.foldlM (fun (acc : List Point) (seed : Seed) =>
          (seed.toCircle.drawTrace fuel).map (fun pts => acc ++ pts)) acc = some pts →
      (q ∈ pts ↔ q ∈ acc ∨
        ∃ s ∈ seeds, s.toCircle.InSquare q.X q.Y ∧ s.toCircle.IsInside q = true) := by
  induction seeds with
  | nil =>
    intro acc pts h
    simp only [List.foldlM_nil] at h
    cases h
    simp
  | cons s seeds ih =>
    intro acc pts h
    rw [List.foldlM_cons] at h
    cases hs : s.toCircle.drawTrace fuel with
    | none => rw [hs] at h; exact absurd h (by simp)
    | some p1 =>
      rw [hs] at h
      simp only [Option.map_some', Option.some_bind, Option.bind_eq_bind] at h
      rw [ih (fun t ht => hno t (List.mem_cons_of_mem _ ht)) _ _ h, List.mem_append]
      have hm := drawTrace_mem s.toCircle (hno s (List.mem_cons_self _ _)) fuel p1 hs q.X q.Y
      constructor
      · rintro ((h1 | h1) | ⟨t, ht, h2⟩)
        · exact Or.inl h1
        · exact Or.inr ⟨s, List.mem_cons_self _ _, hm.1 h1⟩
        · exact Or.inr ⟨t, List.mem_cons_of_mem _ ht, h2⟩
      · rintro (h1 | ⟨t, ht, h2⟩)
        · exact Or.inl (Or.inl h1)
        · rcases List.mem_cons.1 ht with rfl | ht
          · exact Or.inl (Or.inr (hm.2 h2))
          · exact Or.inr ⟨t, ht, h2⟩

theorem seedsTrace_mem (fuel : Nat) (seeds : List Seed)
    (hno : ∀ s ∈ seeds, s.toCircle.NoOverflow) (pts : List Point)
    (h : seedsTrace fuel seeds = some pts) (a b : Int) :
    (⟨a, b⟩ : Point) ∈ pts ↔
      ∃ s ∈ seeds, s.toCircle.InSquare a b ∧ s.toCircle.IsInside ⟨a, b⟩ = true := by
  have := foldlM_trace_mem fuel ⟨a, b⟩ seeds hno [] pts h
  simpa using this

/-- The overlay loop terminates when no loop bound overflows and the fuel covers the
side of every bounding square. -/
theorem foldlM_trace_some (fuel : Nat) (seeds : List Seed)
    (hno : ∀ s ∈ seeds, s.toCircle.NoOverflow ∧ (2 * s.r + 1).toNat < fuel) :
    ∀ acc : List Point, ∃ pts,
      seeds.foldlM (fun (acc : List Point) (seed : Seed) =>
          (seed.toCircle.drawTrace fuel).map (fun pts => acc ++ pts)) acc = some pts := by
  induction seeds with
  | nil => intro acc; exact ⟨acc, rfl⟩
  | cons s seeds ih =>
    intro acc
    obtain ⟨h1, h2⟩ := hno s (List.mem_cons_self _ _)
    obtain ⟨p1, hp1, _⟩ := drawTrace_spec s.toCircle h1 fuel h2
    rw [List.foldlM_cons, hp1]
    simp only [Option.map_some', Option.some_bind, Option.bind_eq_bind]
    exact ih (fun t ht => hno t (List.mem_cons_of_mem _ ht)) _

theorem seedsTrace_some (fuel : Nat) (seeds : List Seed)
    (hno : ∀ s ∈ seeds, s.toCircle.NoOverflow ∧ (2 * s.r + 1).toNat < fuel) :
    ∃ pts, seedsTrace fuel seeds = some pts :=
  foldlM_trace_some fuel seeds hno []

/-- The render pipeline terminates when no loop bound of the overlay overflows and the
fuel covers the side of every bounding square. -/
theorem render_some (W H fuel : Nat) (seeds : List Seed) (hne : seeds ≠ []) (bg m : Color)
    (hno : ∀ s ∈ seeds, s.toCircle.NoOverflow ∧ (2 * s.r + 1).toNat < fuel) :
    ∃ out, render W H fuel seeds bg m = some out := by
  obtain ⟨pts, hp⟩ := seedsTrace_some fuel seeds hno
  unfold render
  rw [renderFrom_eq _ _ _ _ hne, hp]
  exact ⟨_, rfl⟩

/-- Every pixel of a rendered buffer, when no loop bound of the overlay overflows: the
marker colour where some seed's bounding square and `IsInside` test admit the pixel, the
colour of the closest seed elsewhere. -/
theorem render_pixel (W H fuel : Nat) (seeds : List Seed) (hne : seeds ≠ []) (bg m : Color)
    (hno : ∀ s ∈ seeds, s.toCircle.NoOverflow) (out : Image)
    (h : render W H fuel seeds bg m = some out) (x y : Nat) (hx : x < W) (hy : y < H) :
    out.At x y =
      if ∃ s ∈ seeds, s.toCircle.InSquare x y ∧ s.toCircle.IsInside ⟨x, y⟩ = true then m
      else cellColor seeds ⟨x, y⟩ := by
  obtain ⟨pts, h1, _, _, _, h2⟩ := render_At W H fuel seeds hne bg m out h
  rw [h2 x y hx hy]
  have := seedsTrace_mem fuel seeds hno pts h1 x y
  by_cases hm : (⟨x, y⟩ : Point) ∈ pts
  · rw [if_pos hm, if_pos (this.1 hm)]
  · rw [if_neg hm, if_neg (fun hc => hm (this.2 hc))]

/-! ## Small circles: the bounding square loses no pixel -/

theorem Small.noOverflow (c : Circle) (h : c.Small) : c.NoOverflow := by
  unfold Circle.Small at h
  unfold Circle.NoOverflow
  have e : (2 : Int) ^ 25 < 2 ^ 62 := by norm_num
  have e2 : (2 : Int) ^ 63 = 2 ^ 62 + 2 ^ 62 := by norm_num
  have e3 : (1 : Int) < 2 ^ 25 := by norm_num
  have e4 : ((2 : Nat) ^ 25 : Int) = 2 ^ 25 := by norm_num
  omega

/-- For a small circle and a pixel with coordinates in `[0, 2^25)`, `IsInside` is the
integer test `dx*dx + dy*dy ≤ r*r` with `r ≥ 0`. -/
theorem Small.isInside_iff (c : Circle) (h : c.Small) (a b : Int) (ha : 0 ≤ a) (ha2 : a < 2 ^ 25)
    (hb : 0 ≤ b) (hb2 : b < 2 ^ 25) :
    c.IsInside ⟨a, b⟩ = true ↔
      0 ≤ c.r ∧ (c.p.X - a) * (c.p.X - a) + (c.p.Y - b) * (c.p.Y - b) ≤ c.r * c.r := by
  unfold Circle.Small at h
  have e : (2 : Nat) ^ 26 = 2 ^ 25 + 2 ^ 25 := by norm_num
  have e4 : ((2 : Nat) ^ 25 : Int) = 2 ^ 25 := by norm_num
  exact IsInside_iff c ⟨a, b⟩ (by simp only; omega) (by simp only; omega) (by omega)

/-- For a small circle, a pixel with coordinates in `[0, 2^25)` that passes `IsInside`
lies in the bounding square. -/
theorem Small.inSquare (c : Circle) (h : c.Small) (a b : Int) (ha : 0 ≤ a) (ha2 : a < 2 ^ 25)
    (hb : 0 ≤ b) (hb2 : b < 2 ^ 25) (hin : c.IsInside ⟨a, b⟩ = true) : c.InSquare a b := by
  obtain ⟨hr, hle⟩ := (Small.isInside_iff c h a b ha ha2 hb hb2).1 hin
  unfold Circle.InSquare
  have hx : (c.p.X - a) * (c.p.X - a) ≤ c.r * c.r := by nlinarith [mul_self_nonneg (c.p.Y - b)]
  have hy : (c.p.Y - b) * (c.p.Y - b) ≤ c.r * c.r := by nlinarith [mul_self_nonneg (c.p.X - a)]
  have hx2 := abs_le_of_sq_le_sq' (by nlinarith : (c.p.X - a) ^ 2 ≤ c.r ^ 2) hr
  have hy2 := abs_le_of_sq_le_sq' (by nlinarith : (c.p.Y - b) ^ 2 ≤ c.r ^ 2) hr
  omega

/-! ## Properties of `Circle.Draw` -/

theorem InSquare_of_small (c : Circle) (img : Image) (hc : c.Small) (hW : img.W ≤ 2 ^ 25)
    (hH : img.H ≤ 2 ^ 25) (a b : Int) (hb : img.inBounds a b = true)
    (hin : c.IsInside ⟨a, b⟩ = true) : c.InSquare a b := by
  rw [Image.inBounds_iff] at hb
  have e : ((2 : Nat) ^ 25 : Int) = 2 ^ 25 := by norm_num
  have h1 : (img.W : Int) ≤ 2 ^ 25 := by exact_mod_cast hW
  have h2 : (img.H : Int) ≤ 2 ^ 25 := by exact_mod_cast hH
  exact Small.inSquare c hc a b hb.1 (by omega) hb.2.2.1 (by omega) hin

theorem Small.fuel (c : Circle) (hc : c.Small) (fuel : Nat) (hf : 2 ^ 26 + 1 < fuel) :
    (2 * c.r + 1).toNat < fuel := by
  unfold Circle.Small at hc
  have e : (2 : Nat) ^ 26 = 2 ^ 25 + 2 ^ 25 := by norm_num
  omega

/-- C4 (amended): for a well-formed buffer of width and height at most `2^25` and a
circle whose centre coordinates and radius have magnitude at most `2^25`, `Draw`
terminates, keeps the size of the buffer, sets exactly the in-bounds pixels that pass
`IsInside` to the colour, and leaves every other pixel as it was. -/
theorem Draw_sets_exactly_inside (c : Circle) (img : Image) (k : Color) (fuel : Nat)
    (hw : img.WellFormed) (hW : img.W ≤ 2 ^ 25) (hH : img.H ≤ 2 ^ 25) (hc : c.Small)
    (hf : 2 ^ 26 + 1 < fuel) :
    ∃ out, c.Draw fuel img k = some out ∧ out.W = img.W ∧ out.H = img.H ∧
      ∀ a b : Int, out.At a b =
        if img.inBounds a b = true ∧ c.IsInside ⟨a, b⟩ = true then k else img.At a b := by
  obtain ⟨out, h1, h2, h3, _, h5⟩ :=
    Draw_spec c (Small.noOverflow c hc) fuel (Small.fuel c hc fuel hf) img hw k
  refine ⟨out, h1, h2, h3, ?_⟩
  intro a b
  rw [h5]
  by_cases hb : img.inBounds a b = true
  · by_cases hin : c.IsInside ⟨a, b⟩ = true
    · have hsq := InSquare_of_small c img hc hW hH a b hb hin
      unfold Circle.InSquare at hsq
      rw [if_pos ⟨⟨hsq.1, hsq.2.1, hsq.2.2.1, hsq.2.2.2, hin⟩, hb⟩, if_pos ⟨hb, hin⟩]
    · rw [if_neg (fun h => hin h.1.2.2.2.2), if_neg (fun h => hin h.2)]
  · rw [if_neg (fun h => hb h.2), if_neg (fun h => hb h.1)]

/-- Witness of C4: the unit circle at `(1,1)` drawn on a fresh `3 × 3` buffer. -/
theorem Draw_sets_exactly_inside_witness :
    (NewRGBA 3 3).WellFormed ∧ (NewRGBA 3 3).W ≤ 2 ^ 25 ∧ (NewRGBA 3 3).H ≤ 2 ^ 25 ∧
    circleUnit.Small ∧ 2 ^ 26 + 1 < 2 ^ 27 ∧
    ∃ out, circleUnit.Draw (2 ^ 27) (NewRGBA 3 3) COLOR_SEED = some out ∧
      out.W = (NewRGBA 3 3).W ∧ out.H = (NewRGBA 3 3).H ∧
      ∀ a b : Int, out.At a b =
        if (NewRGBA 3 3).inBounds a b = true ∧ circleUnit.IsInside ⟨a, b⟩ = true
        then COLOR_SEED else (NewRGBA 3 3).At a b :=
  ⟨by decide, by decide, by decide, by decide, by decide,
    Draw_sets_exactly_inside circleUnit (NewRGBA 3 3) COLOR_SEED (2 ^ 27) (by decide)
      (by decide) (by decide) (by decide) (by decide)⟩

/-- Counterexample to C4 as stated: the pixel `(0,0)` of a `1 × 1` buffer passes
`IsInside` for the circle of centre `(2^53 + 1, 0)` and radius `2^53` (the difference
`2^53 + 1` rounds to `2^53` in `float64`), yet it lies left of the bounding square
`[1, 2^54 + 1]`, so `Draw` leaves it as it was. -/
theorem Draw_skips_inside_pixel :
    circleBig.IsInside ⟨0, 0⟩ = true ∧ (NewRGBA 1 1).inBounds 0 0 = true ∧
    (circleBig.Draw (2 ^ 54 + 3) (NewRGBA 1 1) COLOR_SEED).map (fun out => out.At 0 0) =
      some ⟨0, 0, 0, 0⟩ ∧
    (⟨0, 0, 0, 0⟩ : Color) ≠ COLOR_SEED := by
  refine ⟨by decide!, by decide, ?_, by decide⟩
  obtain ⟨out, h1, _, _, _, h5⟩ := Draw_spec circleBig (by decide) (2 ^ 54 + 3) (by decide)
    (NewRGBA 1 1) (by decide) COLOR_SEED
  rw [h1, Option.map_some', h5]
  have : ¬ ((circleBig.p.X - circleBig.r ≤ 0 ∧ 0 ≤ circleBig.p.X + circleBig.r ∧
      circleBig.p.Y - circleBig.r ≤ 0 ∧ 0 ≤ circleBig.p.Y + circleBig.r ∧
      circleBig.IsInside ⟨0, 0⟩ = true) ∧ (NewRGBA 1 1).inBounds 0 0 = true) := by
    intro h
    exact absurd h.1.1 (by decide)
  rw [if_neg this]
  rfl

theorem paint_filter (img0 : Image) (k : Color) (pts : List Point) :
    ∀ img : Image, (∀ a b, img.inBounds a b = img0.inBounds a b) →
      paint img pts k = paint img (pts.filter (fun pt => img0.inBounds pt.X pt.Y)) k := by
  induction pts with
  | nil => intro img _; rfl
  | cons pt pts ih =>
    intro img hb
    have e : ∀ (l : List Point), paint img (pt :: l) k = paint (img.Set pt.X pt.Y k) l k :=
      fun _ => rfl
    have hb2 : ∀ a b, (img.Set pt.X pt.Y k).inBounds a b = img0.inBounds a b := by
      intro a b; rw [Image.Set_inBounds, hb]
    by_cases hp : img0.inBounds pt.X pt.Y = true
    · rw [List.filter_cons_of_pos (by simpa using hp), e, e, ih _ hb2]
    · rw [List.filter_cons_of_neg (by simpa using hp), e]
      have hs : img.Set pt.X pt.Y k = img := by
        unfold Image.Set
        rw [if_neg (by rw [hb]; exact hp)]
      rw [hs]
      exact ih _ hb

/-- C5 (amended): for every buffer and every circle whose bounding square does not
reach the ends of the `int` range (circles partly or wholly outside the image
included), `Draw` terminates, keeps the buffer's width, height and pixel count, and its
result is obtained by writes at in-bounds coordinates only. -/
theorem Draw_completes_clipped (c : Circle) (img : Image) (k : Color) (fuel : Nat)
    (hno : c.NoOverflow) (hf : (2 * c.r + 1).toNat < fuel) :
    ∃ out pts, c.Draw fuel img k = some out ∧ out.W = img.W ∧ out.H = img.H ∧
      out.Pix.length = img.Pix.length ∧
      (∀ pt ∈ pts, img.inBounds pt.X pt.Y = true) ∧ out = paint img pts k := by
  obtain ⟨pts, h1, _⟩ := drawTrace_spec c hno fuel hf
  refine ⟨paint img pts k, pts.filter (fun pt => img.inBounds pt.X pt.Y), ?_, paintF_W _ _ _,
    paintF_H _ _ _, paintF_length _ _ _, ?_, paint_filter img k pts img (fun _ _ => rfl)⟩
  · rw [Draw_eq_paint, h1]; rfl
  · intro pt hpt
    exact (List.mem_filter.1 hpt).2

/-- Witness of C5: a circle centred at the corner `(width, height)` of a `3 × 3` buffer. -/
theorem Draw_completes_clipped_witness :
    (⟨⟨3, 3⟩, 2⟩ : Circle).NoOverflow ∧ (2 * (⟨⟨3, 3⟩, 2⟩ : Circle).r + 1).toNat < 6 ∧
    ∃ out pts, (⟨⟨3, 3⟩, 2⟩ : Circle).Draw 6 (NewRGBA 3 3) COLOR_SEED = some out ∧
      out.W = (NewRGBA 3 3).W ∧ out.H = (NewRGBA 3 3).H ∧
      out.Pix.length = (NewRGBA 3 3).Pix.length ∧
      (∀ pt ∈ pts, (NewRGBA 3 3).inBounds pt.X pt.Y = true) ∧
      out = paint (NewRGBA 3 3) pts COLOR_SEED :=
  ⟨by decide, by decide,
    Draw_completes_clipped ⟨⟨3, 3⟩, 2⟩ (NewRGBA 3 3) COLOR_SEED 6 (by decide) (by decide)⟩

/-- Counterexample to C5 as stated: for the circle of centre `(MaxInt64, 0)` and radius
0 the loop condition `x <= MaxInt64` never fails, so `Draw` returns for no amount of
fuel. -/
theorem Draw_never_returns_at_maxInt :
    ¬ ∃ fuel : Nat, (circleEdge.Draw fuel (NewRGBA 1 1) COLOR_SEED).isSome = true := by
  rintro ⟨fuel, h⟩
  have hx : wrapInt (circleEdge.p.X + circleEdge.r) = 2 ^ 63 - 1 := by decide
  have hlo : wrapInt (circleEdge.p.X - circleEdge.r) < 2 ^ 63 := (wrapInt_bounds _).2
  have : circleEdge.Draw fuel (NewRGBA 1 1) COLOR_SEED = none := by
    unfold Circle.Draw
    simp only
    rw [hx]
    exact forLE_maxInt _ _ _ _ hlo
  rw [this] at h
  exact absurd h (by simp)

/-- C6: `Draw` is idempotent: when drawing the circle `c` in colour `k` on `img`
returns the buffer `out`, drawing `c` in `k` again on `out` returns `out` itself. -/
theorem Draw_idempotent (fuel : Nat) (c : Circle) (img : Image) (k : Color) (out : Image)
    (h : c.Draw fuel img k = some out) : c.Draw fuel out k = some out := by
  rw [Draw_eq_paint] at h ⊢
  cases hs : c.drawTrace fuel with
  | none => rw [hs] at h; exact absurd h (by simp)
  | some pts =>
    rw [hs] at h
    simp only [Option.map_some', Option.some.injEq] at h ⊢
    rw [← h, paint_idem]

/-- Witness of C6: the unit circle at `(1,1)` drawn twice on a fresh `3 × 3` buffer. -/
theorem Draw_idempotent_witness :
    circleUnit.Draw 4 (NewRGBA 3 3) COLOR_SEED =
      some (paint (NewRGBA 3 3) [⟨0, 1⟩, ⟨1, 0⟩, ⟨1, 1⟩, ⟨1, 2⟩, ⟨2, 1⟩] COLOR_SEED) ∧
    circleUnit.Draw 4 (paint (NewRGBA 3 3) [⟨0, 1⟩, ⟨1, 0⟩, ⟨1, 1⟩, ⟨1, 2⟩, ⟨2, 1⟩] COLOR_SEED)
        COLOR_SEED =
      some (paint (NewRGBA 3 3) [⟨0, 1⟩, ⟨1, 0⟩, ⟨1, 1⟩, ⟨1, 2⟩, ⟨2, 1⟩] COLOR_SEED) :=
  ⟨by decide!, Draw_idempotent 4 circleUnit (NewRGBA 3 3) COLOR_SEED _ (by decide!)⟩

/-! ## Properties of the render pipeline -/

theorem getClosestSeed_singleton (p : Point) (s : Seed) : getClosestSeed p [s] = some s := by
  unfold getClosestSeed
  simp only [List.foldl_cons, List.foldl_nil, closestStep]
  split <;> rfl

theorem closest_foldl_mem (p : Point) (l : List Seed) :
    ∀ st : Seed × F64, (l.foldl (closestStep p) st).1 = st.1 ∨
      (l.foldl (closestStep p) st).1 ∈ l := by
  induction l with
  | nil => intro st; exact Or.inl rfl
  | cons s l ih =>
    intro st
    rw [List.foldl_cons]
    rcases ih (closestStep p st s) with h | h
    · rw [h]
      unfold closestStep
      simp only
      split
      · exact Or.inr (List.mem_cons_self _ _)
      · exact Or.inl rfl
    · exact Or.inr (List.mem_cons_of_mem _ h)

/-- The seed `getClosestSeed` returns is a seed of the list. -/
theorem getClosestSeed_mem (p : Point) (seeds : List Seed) (b : Seed)
    (h : getClosestSeed p seeds = some b) : b ∈ seeds := by
  cases seeds with
  | nil => exact absurd h (by simp [getClosestSeed])
  | cons s0 rest =>
    have hget : getClosestSeed p (s0 :: rest) =
        some ((s0 :: rest).foldl (closestStep p) (s0, MaxFloat64)).1 := rfl
    rw [hget] at h
    cases h
    rcases closest_foldl_mem p (s0 :: rest) (s0, MaxFloat64) with h1 | h1
    · rw [h1]; exact List.mem_cons_self _ _
    · exact h1

/-- C3 (amended): for a non-empty list of seeds whose centre coordinates and radii have
magnitude at most `2^25` and an image of width and height at most `2^25`, the render
pipeline terminates, and every pixel `(x, y)` of the image is the marker colour if the
circle of some seed has `IsInside((x, y))`, and otherwise the colour of
`getClosestSeed((x, y), seeds)`. -/
theorem render_marker_or_closest (W H fuel : Nat) (seeds : List Seed) (bg m : Color)
    (hne : seeds ≠ []) (hW : W ≤ 2 ^ 25) (hH : H ≤ 2 ^ 25)
    (hs : ∀ s ∈ seeds, s.toCircle.Small) (hf : 2 ^ 26 + 1 < fuel) :
    ∃ out, render W H fuel seeds bg m = some out ∧
      ∀ x y : Nat, x < W → y < H →
        ((∃ s ∈ seeds, s.toCircle.IsInside ⟨x, y⟩ = true) → out.At x y = m) ∧
        ((¬ ∃ s ∈ seeds, s.toCircle.IsInside ⟨x, y⟩ = true) →
          ∃ b, getClosestSeed ⟨x, y⟩ seeds = some b ∧ out.At x y = b.color) := by
  have hno : ∀ s ∈ seeds, s.toCircle.NoOverflow ∧ (2 * s.r + 1).toNat < fuel :=
    fun s hm => ⟨Small.noOverflow _ (hs s hm), Small.fuel _ (hs s hm) fuel hf⟩
  obtain ⟨out, hout⟩ := render_some W H fuel seeds hne bg m hno
  refine ⟨out, hout, ?_⟩
  intro x y hx hy
  have hpix := render_pixel W H fuel seeds hne bg m (fun s hm => (hno s hm).1) out hout x y hx hy
  have hx2 : ((x : Nat) : Int) < 2 ^ 25 := by
    have : (x : Int) < (W : Int) := by exact_mod_cast hx
    have : (W : Int) ≤ 2 ^ 25 := by exact_mod_cast hW
    omega
  have hy2 : ((y : Nat) : Int) < 2 ^ 25 := by
    have : (y : Int) < (H : Int) := by exact_mod_cast hy
    have : (H : Int) ≤ 2 ^ 25 := by exact_mod_cast hH
    omega
  constructor
  · rintro ⟨s, hm, hin⟩
    rw [hpix, if_pos]
    exact ⟨s, hm, Small.inSquare _ (hs s hm) x y (Int.natCast_nonneg _) hx2
      (Int.natCast_nonneg _) hy2 hin, hin⟩
  · intro hnot
    obtain ⟨b, hb⟩ := getClosestSeed_ne_nil ⟨x, y⟩ seeds hne
    refine ⟨b, hb, ?_⟩
    rw [hpix, if_neg, cellColor_eq _ _ _ hb]
    rintro ⟨s, hm, _, hin⟩
    exact hnot ⟨s, hm, hin⟩

/-- Witness of C3: the one-seed scenario on a `10 × 10` image. -/
theorem render_marker_or_closest_witness :
    [seedMid] ≠ [] ∧ 10 ≤ 2 ^ 25 ∧ 10 ≤ 2 ^ 25 ∧ (∀ s ∈ [seedMid], s.toCircle.Small) ∧
    2 ^ 26 + 1 < 2 ^ 27 ∧
    ∃ out, render 10 10 (2 ^ 27) [seedMid] black white = some out ∧
      ∀ x y : Nat, x < 10 → y < 10 →
        ((∃ s ∈ [seedMid], s.toCircle.IsInside ⟨x, y⟩ = true) → out.At x y = white) ∧
        ((¬ ∃ s ∈ [seedMid], s.toCircle.IsInside ⟨x, y⟩ = true) →
          ∃ b, getClosestSeed ⟨x, y⟩ [seedMid] = some b ∧ out.At x y = b.color) :=
  ⟨by decide, by decide, by decide, by decide, by decide,
    render_marker_or_closest 10 10 (2 ^ 27) [seedMid] black white (by decide) (by decide)
      (by decide) (by decide) (by decide)⟩

/-- Counterexample to C3 as stated: on a `1 × 1` image with the one seed of centre
`(2^53 + 1, 0)` and radius `2^53`, the pixel `(0,0)` passes the seed's `IsInside`, yet
the rendered pixel is the seed's colour, not the marker colour. -/
theorem render_misses_inside_pixel :
    seedBig.toCircle.IsInside ⟨0, 0⟩ = true ∧
    (render 1 1 (2 ^ 54 + 3) [seedBig] COLOR_BACKGROUND COLOR_SEED).map
      (fun out => out.At 0 0) = some seedBig.color ∧
    seedBig.color ≠ COLOR_SEED := by
  refine ⟨by decide!, ?_, by decide⟩
  have hno : ∀ s ∈ [seedBig], s.toCircle.NoOverflow ∧ (2 * s.r + 1).toNat < 2 ^ 54 + 3 := by
    decide
  obtain ⟨out, hout⟩ := render_some 1 1 (2 ^ 54 + 3) [seedBig] (by decide) COLOR_BACKGROUND
    COLOR_SEED hno
  have hpix := render_pixel 1 1 (2 ^ 54 + 3) [seedBig] (by decide) COLOR_BACKGROUND COLOR_SEED
    (fun s hm => (hno s hm).1) out hout 0 0 (by decide) (by decide)
  rw [hout, Option.map_some']
  have e : out.At 0 0 = out.At ((0 : Nat) : Int) ((0 : Nat) : Int) := rfl
  rw [e, hpix, if_neg, cellColor_eq _ _ _ (getClosestSeed_singleton _ _)]
  rintro ⟨s, hm, hsq, _⟩
  rw [List.mem_singleton] at hm
  subst hm
  exact absurd hsq.1 (by decide)

/-- C7: for a non-empty list of seeds with colours from `colorList`, every pixel of the
buffer the render pipeline returns is a colour of `colorList` or the marker colour
`COLOR_SEED`; hence no pixel is `COLOR_BACKGROUND`. -/
theorem render_palette_or_marker (W H fuel : Nat) (seeds : List Seed) (out : Image)
    (hne : seeds ≠ []) (hc : ∀ s ∈ seeds, s.color ∈ colorList)
    (h : render W H fuel seeds COLOR_BACKGROUND COLOR_SEED = some out) :
    ∀ x y : Nat, x < W → y < H →
      (out.At x y ∈ colorList ∨ out.At x y = COLOR_SEED) ∧ out.At x y ≠ COLOR_BACKGROUND := by
  obtain ⟨pts, _, _, _, _, hat⟩ := render_At W H fuel seeds hne COLOR_BACKGROUND COLOR_SEED out h
  intro x y hx hy
  rw [hat x y hx hy]
  by_cases hm : (⟨x, y⟩ : Point) ∈ pts
  · rw [if_pos hm]
    exact ⟨Or.inr rfl, by decide⟩
  · rw [if_neg hm]
    obtain ⟨b, hb⟩ := getClosestSeed_ne_nil ⟨x, y⟩ seeds hne
    rw [cellColor_eq _ _ _ hb]
    have hmem := hc b (getClosestSeed_mem _ _ _ hb)
    refine ⟨Or.inl hmem, ?_⟩
    intro heq
    rw [heq] at hmem
    exact absurd hmem (by decide)

/-- Witness of C7: one red seed at `(0,0)` on a `2 × 2` image. -/
theorem render_palette_or_marker_witness :
    [(⟨⟨⟨0, 0⟩, 1⟩, red⟩ : Seed)] ≠ [] ∧
    (∀ s ∈ [(⟨⟨⟨0, 0⟩, 1⟩, red⟩ : Seed)], s.color ∈ colorList) ∧
    render 2 2 4 [⟨⟨⟨0, 0⟩, 1⟩, red⟩] COLOR_BACKGROUND COLOR_SEED =
      some ⟨2, 2, [COLOR_SEED, COLOR_SEED, COLOR_SEED, red]⟩ ∧
    ∀ x y : Nat, x < 2 → y < 2 →
      ((Image.mk 2 2 [COLOR_SEED, COLOR_SEED, COLOR_SEED, red]).At x y ∈ colorList ∨
        (Image.mk 2 2 [COLOR_SEED, COLOR_SEED, COLOR_SEED, red]).At x y = COLOR_SEED) ∧
      (Image.mk 2 2 [COLOR_SEED, COLOR_SEED, COLOR_SEED, red]).At x y ≠ COLOR_BACKGROUND :=
  ⟨by decide, by decide, by decide!,
    render_palette_or_marker 2 2 4 [⟨⟨⟨0, 0⟩, 1⟩, red⟩] _ (by decide) (by decide) (by decide!)⟩

/-! ## Order of the signed distances -/

theorem rnd_mono {x y : Int} (h : x ≤ y) : rnd x ≤ rnd y := by
  unfold rnd
  by_cases hx : x < 0
  · by_cases hy : y < 0
    · rw [if_pos hx, if_pos hy]
      have : roundNat y.natAbs 0 ≤ roundNat x.natAbs 0 := roundNat_mono 0 (by omega)
      omega
    · rw [if_pos hx, if_neg hy]
      omega
  · have hy : ¬ y < 0 := by omega
    rw [if_neg hx, if_neg hy]
    have : roundNat x.natAbs 0 ≤ roundNat y.natAbs 0 := roundNat_mono 0 (by omega)
    omega

theorem rnd_exact (z : Int) (j : Nat) (hz : z.natAbs ≤ 2 ^ 53) : rnd (z * 2 ^ j) = z * 2 ^ j := by
  have hp : (0 : Int) < 2 ^ j := by positivity
  have hn : (z * 2 ^ j).natAbs = z.natAbs * 2 ^ j := by
    rw [Int.natAbs_mul, Int.natAbs_pow]; rfl
  unfold rnd
  rw [hn, roundNat_exact _ _ 0 hz (Nat.zero_le _), Nat.sub_zero]
  by_cases h0 : z < 0
  · rw [if_pos (Int.mul_neg_of_neg_of_pos h0 hp)]
    push_cast
    rw [abs_of_neg h0]; ring
  · have h1 : ¬ z * 2 ^ j < 0 := by
      have : 0 ≤ z * 2 ^ j := mul_nonneg (by omega) (le_of_lt hp)
      omega
    rw [if_neg h1]
    push_cast
    rw [abs_of_nonneg (not_lt.1 h0)]

namespace F64

/-- The sum of two finite values of magnitude at most `2^2096` quanta is the rounding of
the exact sum. -/
theorem fin_add_fin_rnd (a b : Int) (h : (a + b).natAbs ≤ 2 ^ 2097) :
    fin a + fin b = fin (rnd (a + b)) := by
  rw [fin_add_fin]
  have h1 := roundNat_le_pow _ 2097 0 h (by omega)
  have h2 : roundNat (a + b).natAbs 0 < overflow :=
    lt_of_le_of_lt h1 (Nat.pow_lt_pow_right (by norm_num) (by norm_num))
  unfold round rnd
  simp only [if_neg (not_le.2 h2)]
  by_cases hneg : a + b < 0
  · simp [hneg]
  · simp [hneg]

end F64

/-- The value `Dist` computes from the exact squared distance `A` and the radius `R`, in
the range where the conversions, products and the sum are exact. -/
theorem dist_lt_of_lt (A B : Nat) (R : Int) (hAB : A < B) (hB : B < 2 ^ 48)
    (hR : R.natAbs ≤ 2 ^ 24) :
    F64.lt (F64.sqrt (F64.fin ((A * 2 ^ 1074 : Nat) : Int)) - F64.fin (R * 2 ^ 1074))
      (F64.sqrt (F64.fin ((B * 2 ^ 1074 : Nat) : Int)) - F64.fin (R * 2 ^ 1074)) = true := by
  -- two points of the grid of step `2^-28` between the two square roots
  have hu1 : A * 2 ^ 56 < (Nat.sqrt (A * 2 ^ 56) + 1) * (Nat.sqrt (A * 2 ^ 56) + 1) :=
    Nat.lt_succ_sqrt _
  have hu0 : Nat.sqrt (A * 2 ^ 56) * Nat.sqrt (A * 2 ^ 56) ≤ A * 2 ^ 56 := Nat.sqrt_le _
  have hub : Nat.sqrt (A * 2 ^ 56) < 2 ^ 52 - 1 := by
    apply Nat.sqrt_lt.2
    calc A * 2 ^ 56 ≤ (2 ^ 48 - 2) * 2 ^ 56 := Nat.mul_le_mul_right _ (by omega)
      _ < (2 ^ 52 - 1) * (2 ^ 52 - 1) := by norm_num
  generalize Nat.sqrt (A * 2 ^ 56) = u at hu1 hu0 hub
  have h2 : (u + 2) * (u + 2) ≤ B * 2 ^ 56 := by
    have e1 : (A + 1) * 2 ^ 56 ≤ B * 2 ^ 56 := Nat.mul_le_mul_right _ hAB
    have e2 : (u + 2) * (u + 2) = u * u + 4 * u + 4 := by ring
    have e3 : (A + 1) * 2 ^ 56 = A * 2 ^ 56 + 2 ^ 56 := by ring
    have e4 : (2 : Nat) ^ 56 = 16 * 2 ^ 52 := by norm_num
    omega
  have e53 : (2 : Nat) ^ 53 = 2 * 2 ^ 52 := by norm_num
  -- the square root of `A` is at most the first point
  obtain ⟨sA, hsA, hsA2⟩ : ∃ s : Nat, F64.sqrt (F64.fin ((A * 2 ^ 1074 : Nat) : Int)) = F64.fin s ∧
      s ≤ (u + 1) * 2 ^ 1046 := by
    rcases Nat.eq_zero_or_pos A with h0 | h0
    · subst h0
      exact ⟨0, by simp [F64.sqrt], Nat.zero_le _⟩
    · have := F64.sqrt_le_of_le (A * 2 ^ 1074) (u + 1) 1046 (Nat.mul_pos h0 (by positivity))
        (by omega) (by norm_num) (by
          calc A * 2 ^ 1074 * 2 ^ 1074 = A * 2 ^ 56 * 2 ^ 2092 := by ring
            _ ≤ (u + 1) * (u + 1) * 2 ^ 2092 := Nat.mul_le_mul_right _ (le_of_lt hu1)
            _ = (u + 1) * 2 ^ 1046 * ((u + 1) * 2 ^ 1046) := by ring)
      exact ⟨_, this.1, this.2⟩
  -- the square root of `B` is at least the second point
  obtain ⟨sB, hsB, hsB2, hsB3⟩ : ∃ s : Nat,
      F64.sqrt (F64.fin ((B * 2 ^ 1074 : Nat) : Int)) = F64.fin s ∧
      (u + 2) * 2 ^ 1046 ≤ s ∧ s ≤ 2 ^ 24 * 2 ^ 1074 := by
    have hB0 : 0 < B := by omega
    have hfin := F64.sqrt_le_of_le (B * 2 ^ 1074) (2 ^ 24) 1074
      (Nat.mul_pos hB0 (by positivity)) (Nat.pow_le_pow_right (by norm_num) (by norm_num))
      (by norm_num) (by
        calc B * 2 ^ 1074 * 2 ^ 1074 ≤ 2 ^ 48 * 2 ^ 1074 * 2 ^ 1074 :=
              Nat.mul_le_mul_right _ (Nat.mul_le_mul_right _ (le_of_lt hB))
          _ = 2 ^ 24 * 2 ^ 1074 * (2 ^ 24 * 2 ^ 1074) := by ring)
    have hlow := F64.le_roundNat_sqrtArg (B * 2 ^ 1074) (u + 2) 1046 (by omega) (by
      calc (u + 2) * 2 ^ 1046 * ((u + 2) * 2 ^ 1046) = (u + 2) * (u + 2) * 2 ^ 2092 := by ring
        _ ≤ B * 2 ^ 56 * 2 ^ 2092 := Nat.mul_le_mul_right _ h2
        _ = B * 2 ^ 1074 * 2 ^ 1074 := by ring)
    exact ⟨_, hfin.1, hlow, hfin.2⟩
  have hsA3 : sA ≤ 2 ^ 24 * 2 ^ 1074 := by
    have : (u + 1) * 2 ^ 1046 ≤ (u + 2) * 2 ^ 1046 := Nat.mul_le_mul_right _ (by omega)
    omega
  -- the subtraction of the radius keeps the two grid points apart
  have hRq : (R * 2 ^ 1074).natAbs ≤ 2 ^ 24 * 2 ^ 1074 := by
    rw [Int.natAbs_mul, Int.natAbs_pow]
    exact Nat.mul_le_mul_right _ hR
  have hbig : (2 : Nat) ^ 24 * 2 ^ 1074 + 2 ^ 24 * 2 ^ 1074 ≤ 2 ^ 2097 := by
    rw [← two_mul, ← pow_add, ← pow_succ']
    exact Nat.pow_le_pow_right (by norm_num) (by norm_num)
  rw [hsA, hsB, F64.sub_eq_add_neg, F64.sub_eq_add_neg, F64.neg_fin,
    F64.fin_add_fin_rnd _ _ (by omega), F64.fin_add_fin_rnd _ _ (by omega), lt_fin_fin,
    decide_eq_true_eq]
  have eT : ∀ t : Nat, ((t * 2 ^ 1046 : Nat) : Int) + -(R * 2 ^ 1074) =
      ((t : Int) - R * 2 ^ 28) * 2 ^ 1046 := by
    intro t; push_cast; ring
  have hT : ∀ t : Nat, t ≤ 2 ^ 52 → (((t : Int) - R * 2 ^ 28)).natAbs ≤ 2 ^ 53 := by
    intro t ht
    have : (R * 2 ^ 28).natAbs ≤ 2 ^ 24 * 2 ^ 28 := by
      rw [Int.natAbs_mul, Int.natAbs_pow]
      exact Nat.mul_le_mul_right _ hR
    have e : (2 : Nat) ^ 24 * 2 ^ 28 = 2 ^ 52 := by rw [← pow_add]
    omega
  have h1 : rnd ((sA : Int) + -(R * 2 ^ 1074)) ≤ ((u + 1 : Nat) : Int) * 2 ^ 1046 - R * 2 ^ 1074 := by
    have hm := rnd_mono (show (sA : Int) + -(R * 2 ^ 1074) ≤
      (((u + 1) * 2 ^ 1046 : Nat) : Int) + -(R * 2 ^ 1074) by
        have : (sA : Int) ≤ (((u + 1) * 2 ^ 1046 : Nat) : Int) := by exact_mod_cast hsA2
        omega)
    rw [eT, rnd_exact _ _ (hT _ (by omega))] at hm
    have e : (((u + 1 : Nat) : Int) - R * 2 ^ 28) * 2 ^ 1046 =
        ((u + 1 : Nat) : Int) * 2 ^ 1046 - R * 2 ^ 1074 := by ring
    rw [e] at hm
    exact hm
  have h3 : ((u + 2 : Nat) : Int) * 2 ^ 1046 - R * 2 ^ 1074 ≤ rnd ((sB : Int) + -(R * 2 ^ 1074)) := by
    have hm := rnd_mono (show (((u + 2) * 2 ^ 1046 : Nat) : Int) + -(R * 2 ^ 1074) ≤
      (sB : Int) + -(R * 2 ^ 1074) by
        have : (((u + 2) * 2 ^ 1046 : Nat) : Int) ≤ (sB : Int) := by exact_mod_cast hsB2
        omega)
    rw [eT, rnd_exact _ _ (hT _ (by omega))] at hm
    have e : (((u + 2 : Nat) : Int) - R * 2 ^ 28) * 2 ^ 1046 =
        ((u + 2 : Nat) : Int) * 2 ^ 1046 - R * 2 ^ 1074 := by ring
    rw [e] at hm
    exact hm
  have h4 : ((u + 1 : Nat) : Int) * 2 ^ 1046 < ((u + 2 : Nat) : Int) * 2 ^ 1046 := by
    apply mul_lt_mul_of_pos_right _ (by positivity)
    push_cast; omega
  omega

/-- In the range where the conversions, the products and the sum are exact, `Dist` is
the rounded square root of the exact squared distance, minus the radius. -/
theorem Dist_eq_sqrt_sub (c : Circle) (p : Point) (hx : (c.p.X - p.X).natAbs < 2 ^ 23)
    (hy : (c.p.Y - p.Y).natAbs < 2 ^ 23) (hr : c.r.natAbs ≤ 2 ^ 24) :
    c.Dist p = F64.sqrt (F64.fin (((c.sqDist p).toNat * 2 ^ 1074 : Nat) : Int)) -
        F64.fin (c.r * 2 ^ 1074) ∧
      (c.sqDist p).toNat < 2 ^ 47 ∧ 0 ≤ c.sqDist p := by
  unfold Circle.Dist Circle.sqDist
  simp only
  generalize c.p.X - p.X = dx at hx ⊢
  generalize c.p.Y - p.Y = dy at hy ⊢
  generalize c.r = r at hr ⊢
  have hp23 : (2 : Nat) ^ 23 * 2 ^ 23 = 2 ^ 46 := by rw [← pow_add]
  have hp46 : (2 : Nat) ^ 46 + 2 ^ 46 = 2 ^ 47 := by rw [pow_succ]; omega
  have hp47 : (2 : Nat) ^ 47 ≤ 2 ^ 53 := Nat.pow_le_pow_right (by norm_num) (by norm_num)
  have hp24 : (2 : Nat) ^ 24 ≤ 2 ^ 53 := Nat.pow_le_pow_right (by norm_num) (by norm_num)
  have hp23' : (2 : Nat) ^ 23 ≤ 2 ^ 53 := Nat.pow_le_pow_right (by norm_num) (by norm_num)
  have h63 : (2 : Int) ^ 23 < 2 ^ 63 := by norm_num
  have e23 : ((2 : Nat) ^ 23 : Int) = 2 ^ 23 := by norm_num
  have sqb : ∀ z : Int, z.natAbs < 2 ^ 23 → (z * z).natAbs < 2 ^ 46 := by
    intro z hz
    rw [Int.natAbs_mul, ← hp23]
    exact Nat.mul_lt_mul'' hz hz
  have hxx := sqb dx hx
  have hyy := sqb dy hy
  have hnn : 0 ≤ dx * dx + dy * dy := add_nonneg (mul_self_nonneg _) (mul_self_nonneg _)
  have hsum : (dx * dx + dy * dy).natAbs < 2 ^ 47 := by
    have := Int.natAbs_add_le (dx * dx) (dy * dy)
    omega
  rw [wrapInt_eq dx (by omega) (by omega), wrapInt_eq dy (by omega) (by omega),
    F64.ofInt_exact dx (by omega), F64.ofInt_exact dy (by omega),
    F64.mul_exact dx dx (by omega), F64.mul_exact dy dy (by omega),
    F64.add_exact _ _ (by omega), F64.ofInt_exact r (by omega)]
  have eA : (dx * dx + dy * dy) * 2 ^ 1074 =
      (((dx * dx + dy * dy).toNat * 2 ^ 1074 : Nat) : Int) := by
    push_cast
    rw [Int.toNat_of_nonneg hnn]
  rw [eA]
  exact ⟨rfl, by omega, hnn⟩

/-- For two circles of one radius, in the range where `float64` keeps distinct squared
distances apart (differences below `2^23`, radius at most `2^24` in magnitude), `Dist`
orders points exactly as the integer squared distance does. -/
theorem Dist_lt_iff (c1 c2 : Circle) (p : Point) (hr : c1.r = c2.r) (hr2 : c1.r.natAbs ≤ 2 ^ 24)
    (hx1 : (c1.p.X - p.X).natAbs < 2 ^ 23) (hy1 : (c1.p.Y - p.Y).natAbs < 2 ^ 23)
    (hx2 : (c2.p.X - p.X).natAbs < 2 ^ 23) (hy2 : (c2.p.Y - p.Y).natAbs < 2 ^ 23) :
    F64.lt (c1.Dist p) (c2.Dist p) = decide (c1.sqDist p < c2.sqDist p) := by
  obtain ⟨e1, b1, n1⟩ := Dist_eq_sqrt_sub c1 p hx1 hy1 hr2
  obtain ⟨e2, b2, n2⟩ := Dist_eq_sqrt_sub c2 p hx2 hy2 (by rw [← hr]; exact hr2)
  have hi1 : IsInt64 c1.r := by
    unfold IsInt64 minInt maxInt
    have : (2 : Nat) ^ 24 < 2 ^ 62 := by norm_num
    have e : (2 : Int) ^ 63 = 2 ^ 62 + 2 ^ 62 := by norm_num
    have e' : ((2 : Nat) ^ 62 : Int) = 2 ^ 62 := by norm_num
    omega
  obtain ⟨q1, f1, _⟩ := Dist_fin c1 p hi1
  obtain ⟨q2, f2, _⟩ := Dist_fin c2 p (by rw [← hr]; exact hi1)
  have h48 : (2 : Nat) ^ 47 < 2 ^ 48 := by norm_num
  rcases lt_trichotomy (c1.sqDist p) (c2.sqDist p) with hlt | heq | hgt
  · rw [decide_eq_true hlt, e1, e2, ← hr]
    exact dist_lt_of_lt _ _ _ (by omega) (by omega) hr2
  · have hd : c1.Dist p = c2.Dist p := by rw [e1, e2, heq, hr]
    rw [decide_eq_false (by omega), hd, f2, lt_fin_fin]
    simp
  · have h := dist_lt_of_lt (c2.sqDist p).toNat (c1.sqDist p).toNat c1.r (by omega) (by omega) hr2
    rw [decide_eq_false (by omega)]
    rw [← e1] at h
    have e2' : c2.Dist p = F64.sqrt (F64.fin (((c2.sqDist p).toNat * 2 ^ 1074 : Nat) : Int)) -
        F64.fin (c1.r * 2 ^ 1074) := by rw [e2, hr]
    rw [← e2', f1, f2, lt_fin_fin] at h
    rw [f1, f2, lt_fin_fin]
    simp only [decide_eq_true_eq] at h
    simp only [decide_eq_false_iff_not, not_lt]
    omega

/-! ## The end-to-end scenarios -/

/-- C8 (amended): for a render with exactly one seed whose centre coordinates and radius
`r ≥ 0` have magnitude at most `2^25`, on an image of width and height at most `2^25`,
every pixel whose squared distance to the centre is at most `r^2` is the marker colour
and every other pixel is the seed's colour. -/
theorem render_single_seed (W H fuel : Nat) (c : Circle) (f bg m : Color) (hW : W ≤ 2 ^ 25)
    (hH : H ≤ 2 ^ 25) (hc : c.Small) (hr : 0 ≤ c.r) (hf : 2 ^ 26 + 1 < fuel) :
    ∃ out, render W H fuel [⟨c, f⟩] bg m = some out ∧
      ∀ x y : Nat, x < W → y < H →
        out.At x y =
          if (c.p.X - x) * (c.p.X - x) + (c.p.Y - y) * (c.p.Y - y) ≤ c.r * c.r then m else f := by
  have hmem : ∀ s ∈ [(⟨c, f⟩ : Seed)], s = ⟨c, f⟩ := fun s hs => List.mem_singleton.1 hs
  have hno : ∀ s ∈ [(⟨c, f⟩ : Seed)], s.toCircle.NoOverflow ∧ (2 * s.r + 1).toNat < fuel := by
    intro s hs
    rw [hmem s hs]
    exact ⟨Small.noOverflow c hc, Small.fuel c hc fuel hf⟩
  obtain ⟨out, hout⟩ := render_some W H fuel [⟨c, f⟩] (by simp) bg m hno
  refine ⟨out, hout, ?_⟩
  intro x y hx hy
  rw [render_pixel W H fuel [⟨c, f⟩] (by simp) bg m (fun s hm => (hno s hm).1) out hout x y hx hy,
    cellColor_eq _ _ _ (getClosestSeed_singleton _ _)]
  have hx2 : ((x : Nat) : Int) < 2 ^ 25 := by
    have : (x : Int) < (W : Int) := by exact_mod_cast hx
    have : (W : Int) ≤ 2 ^ 25 := by exact_mod_cast hW
    omega
  have hy2 : ((y : Nat) : Int) < 2 ^ 25 := by
    have : (y : Int) < (H : Int) := by exact_mod_cast hy
    have : (H : Int) ≤ 2 ^ 25 := by exact_mod_cast hH
    omega
  have hiff := Small.isInside_iff c hc x y (Int.natCast_nonneg _) hx2 (Int.natCast_nonneg _) hy2
  by_cases hd : (c.p.X - x) * (c.p.X - x) + (c.p.Y - y) * (c.p.Y - y) ≤ c.r * c.r
  · have hin : c.IsInside ⟨x, y⟩ = true := hiff.2 ⟨hr, hd⟩
    rw [if_pos hd, if_pos]
    exact ⟨⟨c, f⟩, List.mem_singleton.2 rfl,
      Small.inSquare c hc x y (Int.natCast_nonneg _) hx2 (Int.natCast_nonneg _) hy2 hin, hin⟩
  · rw [if_neg hd, if_neg]
    rintro ⟨s, hs, _, hin⟩
    rw [hmem s hs] at hin
    exact hd (hiff.1 hin).2

/-- Witness of C8, the scenario of the specification: width = height = 10, one red seed
at `(5,5)` with radius 2, white marker, black background. The buffer is red except on
the lattice points of the disc of radius 2 about `(5,5)`, which are white; there are 13
of them. -/
theorem render_single_seed_witness :
    10 ≤ 2 ^ 25 ∧ 10 ≤ 2 ^ 25 ∧ seedMid.toCircle.Small ∧ 0 ≤ seedMid.r ∧ 2 ^ 26 + 1 < 2 ^ 27 ∧
    (∃ out, render 10 10 (2 ^ 27) [⟨seedMid.toCircle, red⟩] black white = some out ∧
      ∀ x y : Nat, x < 10 → y < 10 →
        out.At x y =
          if (seedMid.p.X - x) * (seedMid.p.X - x) + (seedMid.p.Y - y) * (seedMid.p.Y - y) ≤
            seedMid.r * seedMid.r then white else red) ∧
    ((grid 10 10).filter (fun p =>
      decide ((5 - p.X) * (5 - p.X) + (5 - p.Y) * (5 - p.Y) ≤ 2 * 2))).length = 13 :=
  ⟨by decide, by decide, by decide, by decide, by decide,
    render_single_seed 10 10 (2 ^ 27) seedMid.toCircle red black white (by decide) (by decide)
      (by decide) (by decide) (by decide), by decide⟩

/-- Counterexample to C8 as stated: with the one seed of centre `(2^30, 1)` and radius
`2^30` on a `1 × 1` image, the pixel `(0,0)` is at squared distance `2^60 + 1 > r^2`
from the centre, yet `float64` rounds `2^60 + 1` to `2^60`, `IsInside` holds and the
rendered pixel is the marker colour, not the seed's colour. -/
theorem render_marks_pixel_outside_disc :
    (seedFar.r * seedFar.r <
      (seedFar.p.X - 0) * (seedFar.p.X - 0) + (seedFar.p.Y - 0) * (seedFar.p.Y - 0)) ∧
    0 ≤ seedFar.r ∧
    (render 1 1 (2 ^ 31 + 3) [seedFar] black white).map (fun out => out.At 0 0) = some white ∧
    white ≠ seedFar.color := by
  refine ⟨by decide, by decide, ?_, by decide⟩
  have hno : ∀ s ∈ [seedFar], s.toCircle.NoOverflow ∧ (2 * s.r + 1).toNat < 2 ^ 31 + 3 := by
    decide
  obtain ⟨out, hout⟩ := render_some 1 1 (2 ^ 31 + 3) [seedFar] (by decide) black white hno
  have hpix := render_pixel 1 1 (2 ^ 31 + 3) [seedFar] (by decide) black white
    (fun s hm => (hno s hm).1) out hout 0 0 (by decide) (by decide)
  rw [hout, Option.map_some']
  have e : out.At 0 0 = out.At ((0 : Nat) : Int) ((0 : Nat) : Int) := rfl
  rw [e, hpix, if_pos]
  exact ⟨seedFar, List.mem_singleton.2 rfl, by decide, by decide!⟩

/-- For two seeds with Go `int` radii, `getClosestSeed` returns the second seed exactly
when it is strictly nearer than the first. -/
theorem getClosestSeed_pair (p : Point) (a b : Seed) (ha : IsInt64 a.r) :
    getClosestSeed p [a, b] = some (if F64.lt (b.Dist p) (a.Dist p) = true then b else a) := by
  obtain ⟨q, e, hq⟩ := Dist_fin a.toCircle p ha
  unfold getClosestSeed
  simp only [List.foldl_cons, List.foldl_nil]
  have h1 : closestStep p (a, MaxFloat64) a = (a, a.Dist p) := by
    unfold closestStep MaxFloat64
    simp only
    rw [e, lt_fin_fin, if_pos (decide_eq_true hq)]
  rw [h1]
  unfold closestStep
  simp only
  split <;> rfl

/-- C9 (amended): in the end-to-end rendered buffer of a `10 × 10` image with the seeds
A at `(0,0)` and B at `(9,9)`, both of radius 1, listed in this order, the six pixels
of the two marker discs (`x + y ≤ 1` or `x + y ≥ 17`) are the marker colour, and every
other pixel is coloured A when `x + y ≤ 9` (the ties `x + y = 9` included) and B when
`x + y > 9`. -/
theorem render_two_seeds (A B bg m : Color) (fuel : Nat) (hf : 3 < fuel) :
    ∃ out, render 10 10 fuel [⟨⟨⟨0, 0⟩, 1⟩, A⟩, ⟨⟨⟨9, 9⟩, 1⟩, B⟩] bg m = some out ∧
      ∀ x y : Nat, x < 10 → y < 10 →
        out.At x y = if x + y ≤ 1 ∨ 17 ≤ x + y then m else if x + y ≤ 9 then A else B := by
  have hno : ∀ s ∈ [(⟨⟨⟨0, 0⟩, 1⟩, A⟩ : Seed), ⟨⟨⟨9, 9⟩, 1⟩, B⟩],
      s.toCircle.NoOverflow ∧ (2 * s.r + 1).toNat < fuel := by
    intro s hs
    simp only [List.mem_cons, List.mem_singleton, List.not_mem_nil, or_false] at hs
    rcases hs with rfl | rfl
    · exact ⟨(by decide : (⟨⟨0, 0⟩, 1⟩ : Circle).NoOverflow), by simpa using hf⟩
    · exact ⟨(by decide : (⟨⟨9, 9⟩, 1⟩ : Circle).NoOverflow), by simpa using hf⟩
  obtain ⟨out, hout⟩ := render_some 10 10 fuel _ (by simp) bg m hno
  refine ⟨out, hout, ?_⟩
  intro x y hx hy
  rw [render_pixel 10 10 fuel _ (by simp) bg m (fun s hm => (hno s hm).1) out hout x y hx hy]
  have hin : ∀ x < 10, ∀ y < 10,
      (((⟨⟨0, 0⟩, 1⟩ : Circle).InSquare (x : Nat) (y : Nat) ∧
          (⟨⟨0, 0⟩, 1⟩ : Circle).IsInside ⟨(x : Nat), (y : Nat)⟩ = true) ∨
        ((⟨⟨9, 9⟩, 1⟩ : Circle).InSquare (x : Nat) (y : Nat) ∧
          (⟨⟨9, 9⟩, 1⟩ : Circle).IsInside ⟨(x : Nat), (y : Nat)⟩ = true)) ↔
      (x + y ≤ 1 ∨ 17 ≤ x + y) := by decide!
  have hlt : F64.lt ((⟨⟨9, 9⟩, 1⟩ : Circle).Dist ⟨(x : Nat), (y : Nat)⟩)
      ((⟨⟨0, 0⟩, 1⟩ : Circle).Dist ⟨(x : Nat), (y : Nat)⟩) = decide (9 < x + y) := by
    have hxi : ((x : Nat) : Int) < 10 := by exact_mod_cast hx
    have hyi : ((y : Nat) : Int) < 10 := by exact_mod_cast hy
    have e23 : (2 : Nat) ^ 23 = 8388608 := by norm_num
    rw [Dist_lt_iff ⟨⟨9, 9⟩, 1⟩ ⟨⟨0, 0⟩, 1⟩ ⟨(x : Nat), (y : Nat)⟩ rfl (by decide)
      (by simp only; omega) (by simp only; omega) (by simp only; omega) (by simp only; omega)]
    unfold Circle.sqDist
    simp only
    congr 1
    apply propext
    constructor
    · intro h
      have h2 : (9 : Int) < x + y := by nlinarith
      exact_mod_cast h2
    · intro h
      have h2 : (9 : Int) < x + y := by exact_mod_cast h
      nlinarith
  have hmark : (∃ s ∈ [(⟨⟨⟨0, 0⟩, 1⟩, A⟩ : Seed), ⟨⟨⟨9, 9⟩, 1⟩, B⟩],
      s.toCircle.InSquare x y ∧ s.toCircle.IsInside ⟨x, y⟩ = true) ↔
      (x + y ≤ 1 ∨ 17 ≤ x + y) := by
    rw [← hin x hx y hy]
    simp only [List.mem_cons, List.mem_singleton, List.not_mem_nil, or_false, exists_eq_or_imp,
      exists_eq_left]
  by_cases hmk : x + y ≤ 1 ∨ 17 ≤ x + y
  · rw [if_pos (hmark.2 hmk), if_pos hmk]
  · rw [if_neg (fun h => hmk (hmark.1 h)), if_neg hmk]
    have hcl := getClosestSeed_pair ⟨x, y⟩ ⟨⟨⟨0, 0⟩, 1⟩, A⟩ ⟨⟨⟨9, 9⟩, 1⟩, B⟩
      (by decide : IsInt64 (1 : Int))
    rw [cellColor_eq _ _ _ hcl]
    have hd := hlt
    by_cases h9 : x + y ≤ 9
    · rw [if_pos h9]
      have : F64.lt ((⟨⟨⟨9, 9⟩, 1⟩, B⟩ : Seed).Dist ⟨x, y⟩)
          ((⟨⟨⟨0, 0⟩, 1⟩, A⟩ : Seed).Dist ⟨x, y⟩) = false := by
        rw [show (⟨⟨⟨9, 9⟩, 1⟩, B⟩ : Seed).Dist ⟨x, y⟩ = (⟨⟨9, 9⟩, 1⟩ : Circle).Dist ⟨x, y⟩ from rfl,
          show (⟨⟨⟨0, 0⟩, 1⟩, A⟩ : Seed).Dist ⟨x, y⟩ = (⟨⟨0, 0⟩, 1⟩ : Circle).Dist ⟨x, y⟩ from rfl,
          hd]
        simpa using h9
      rw [this]
      rfl
    · rw [if_neg h9]
      have : F64.lt ((⟨⟨⟨9, 9⟩, 1⟩, B⟩ : Seed).Dist ⟨x, y⟩)
          ((⟨⟨⟨0, 0⟩, 1⟩, A⟩ : Seed).Dist ⟨x, y⟩) = true := by
        rw [show (⟨⟨⟨9, 9⟩, 1⟩, B⟩ : Seed).Dist ⟨x, y⟩ = (⟨⟨9, 9⟩, 1⟩ : Circle).Dist ⟨x, y⟩ from rfl,
          show (⟨⟨⟨0, 0⟩, 1⟩, A⟩ : Seed).Dist ⟨x, y⟩ = (⟨⟨0, 0⟩, 1⟩ : Circle).Dist ⟨x, y⟩ from rfl,
          hd]
        simpa using h9
      rw [this]
      rfl

/-- Witness of C9: seeds red at `(0,0)` and blue at `(9,9)`, the colours of `main`. -/
theorem render_two_seeds_witness :
    3 < 4 ∧
    ∃ out, render 10 10 4 [⟨⟨⟨0, 0⟩, 1⟩, seedA.color⟩, ⟨⟨⟨9, 9⟩, 1⟩, seedB.color⟩]
        COLOR_BACKGROUND COLOR_SEED = some out ∧
      ∀ x y : Nat, x < 10 → y < 10 →
        out.At x y = if x + y ≤ 1 ∨ 17 ≤ x + y then COLOR_SEED
          else if x + y ≤ 9 then seedA.color else seedB.color :=
  ⟨by decide, render_two_seeds seedA.color seedB.color COLOR_BACKGROUND COLOR_SEED 4 (by decide)⟩

/-- Counterexample to C9 as stated: in the end-to-end buffer the pixel `(0,0)`, for
which `x + y < 9`, is the marker colour and not the colour of A; and were the marker
the colour of A, the pixel `(9,9)`, for which `x + y > 9`, would not be the colour of
B. -/
theorem render_two_seeds_marker_pixels :
    (render 10 10 4 [seedA, seedB] COLOR_BACKGROUND COLOR_SEED).map (fun out => out.At 0 0) =
      some COLOR_SEED ∧
    COLOR_SEED ≠ seedA.color ∧
    (render 10 10 4 [seedA, seedB] COLOR_BACKGROUND seedA.color).map (fun out => out.At 9 9) =
      some seedA.color ∧
    seedA.color ≠ seedB.color := by
  refine ⟨by decide!, by decide, by decide!, by decide⟩

/-! ## The seed generator -/

theorem genSeeds_eq {σ : Type} (Intn : σ → Int → Int × σ) (W H : Nat) (rng : σ) :
    genSeeds Intn W H rng =
      (List.range seedCount).foldl (genStep Intn W H)
        (List.replicate seedCount ⟨⟨⟨0, 0⟩, 0⟩, ⟨0, 0, 0, 0⟩⟩, rng) := rfl

theorem genStep_fst {σ : Type} (Intn : σ → Int → Int × σ) (W H : Nat) (st : List Seed × σ)
    (i : Nat) :
    ∃ x y : Int, (genStep Intn W H st i).1 =
      st.1.set i ⟨⟨⟨x, y⟩, seedRadius⟩, colorList.getD (i % colorList.length) ⟨0, 0, 0, 0⟩⟩ :=
  ⟨_, _, rfl⟩

/-- After the first `k` iterations the slice keeps its length and its first `k` seeds
have the fixed radius and the round-robin colour. -/
theorem genSeeds_prefix {σ : Type} (Intn : σ → Int → Int × σ) (W H n : Nat) (st0 : List Seed × σ)
    (hlen : st0.1.length = n) :
    ∀ k, k ≤ n →
      ((List.range k).foldl (genStep Intn W H) st0).1.length = n ∧
      ∀ i, i < k → ∃ s, ((List.range k).foldl (genStep Intn W H) st0).1[i]? = some s ∧
        s.r = seedRadius ∧
        s.color = colorList.getD (i % colorList.length) ⟨0, 0, 0, 0⟩ := by
  intro k
  induction k with
  | zero =>
    intro _
    exact ⟨hlen, fun i hi => absurd hi (Nat.not_lt_zero _)⟩
  | succ k ih =>
    intro hk
    obtain ⟨h1, h2⟩ := ih (by omega)
    rw [List.range_succ, List.foldl_append, List.foldl_cons, List.foldl_nil]
    obtain ⟨x, y, e⟩ := genStep_fst Intn W H ((List.range k).foldl (genStep Intn W H) st0) k
    rw [e]
    refine ⟨by rw [List.length_set, h1], ?_⟩
    intro i hi
    rcases Nat.lt_or_ge i k with hlt | hge
    · obtain ⟨s, hs1, hs2, hs3⟩ := h2 i hlt
      refine ⟨s, ?_, hs2, hs3⟩
      rw [List.getElem?_set_ne (by omega)]
      exact hs1
    · have hik : i = k := by omega
      subst hik
      refine ⟨⟨⟨⟨x, y⟩, seedRadius⟩, colorList.getD (i % colorList.length) ⟨0, 0, 0, 0⟩⟩,
        ?_, rfl, rfl⟩
      rw [List.getElem?_set_self (by omega)]

/-- C10: whatever the random source returns, the seed generator produces exactly
`seedCount` (20) seeds; seed `i` has radius `seedRadius` (3) and the colour
`colorList[i mod len(colorList)]` with `len(colorList) = 15`, so the seeds `i` and
`i + 15` have the same colour. -/
theorem genSeeds_count_radius_colour {σ : Type} (Intn : σ → Int → Int × σ) (W H : Nat)
    (rng : σ) :
    (genSeeds Intn W H rng).1.length = seedCount ∧ seedCount = 20 ∧ seedRadius = 3 ∧
    colorList.length = 15 ∧
    (∀ i, i < seedCount → ∃ s, (genSeeds Intn W H rng).1[i]? = some s ∧ s.r = seedRadius ∧
      colorList[i % colorList.length]? = some s.color) ∧
    (∀ i s t, i + 15 < seedCount → (genSeeds Intn W H rng).1[i]? = some s →
      (genSeeds Intn W H rng).1[i + 15]? = some t → s.color = t.color) := by
  have hp := genSeeds_prefix Intn W H seedCount
    (List.replicate seedCount ⟨⟨⟨0, 0⟩, 0⟩, ⟨0, 0, 0, 0⟩⟩, rng) (by simp) seedCount (le_refl _)
  rw [← genSeeds_eq] at hp
  obtain ⟨h1, h2⟩ := hp
  have hlen : colorList.length = 15 := rfl
  refine ⟨h1, rfl, rfl, hlen, ?_, ?_⟩
  · intro i hi
    obtain ⟨s, hs1, hs2, hs3⟩ := h2 i hi
    refine ⟨s, hs1, hs2, ?_⟩
    have hlt : i % colorList.length < colorList.length := Nat.mod_lt _ (by rw [hlen]; omega)
    rw [hs3, List.getD_eq_getElem?_getD, List.getElem?_eq_getElem hlt]
    rfl
  · intro i s t hi hs ht
    obtain ⟨s', hs1, _, hs3⟩ := h2 i (by omega)
    obtain ⟨t', ht1, _, ht3⟩ := h2 (i + 15) hi
    rw [hs] at hs1
    rw [ht] at ht1
    cases hs1
    cases ht1
    rw [hs3, ht3, hlen, Nat.add_mod_right]

/-! ## Failure of the nearest-seed query and order of the overlay -/

/-- C17: `getClosestSeed` fails (the index-out-of-range panic of `seeds[0]`) exactly when
the seed list is empty; on every non-empty seed list and every point it returns a seed. -/
theorem getClosestSeed_fails_iff_empty (p : Point) (seeds : List Seed) :
    (getClosestSeed p seeds = none ↔ seeds = []) ∧
    (seeds ≠ [] → ∃ s, getClosestSeed p seeds = some s) := by
  cases seeds with
  | nil => exact ⟨⟨fun _ => rfl, fun _ => rfl⟩, fun h => absurd rfl h⟩
  | cons s0 rest =>
    have hget : getClosestSeed p (s0 :: rest) =
        some ((s0 :: rest).foldl (closestStep p) (s0, MaxFloat64)).1 := rfl
    refine ⟨⟨fun h => ?_, fun h => ?_⟩, fun _ => ⟨_, hget⟩⟩
    · rw [hget] at h
      exact absurd h (by simp)
    · exact absurd h (by simp)

/-- Two draws in one colour commute, whether or not they terminate. -/
theorem Draw_bind_comm (fuel : Nat) (c1 c2 : Circle) (img : Image) (k : Color) :
    (c1.Draw fuel img k).bind (fun im => c2.Draw fuel im k) =
      (c2.Draw fuel img k).bind (fun im => c1.Draw fuel im k) := by
  simp only [Draw_eq_paint]
  cases h1 : c1.drawTrace fuel with
  | none =>
    cases h2 : c2.drawTrace fuel with
    | none => rfl
    | some p2 => rfl
  | some p1 =>
    cases h2 : c2.drawTrace fuel with
    | none => rfl
    | some p2 =>
      simp only [Option.map_some', Option.some_bind]
      rw [paint_paint_comm]

/-- The overlay loop gives one result for every permutation of the seed list. -/
theorem drawSeeds_perm (fuel : Nat) (k : Color) (l1 l2 : List Seed) (h : l1.Perm l2) :
    ∀ img : Image, drawSeeds fuel l1 k img = drawSeeds fuel l2 k img := by
  unfold drawSeeds
  induction h with
  | nil => intro img; rfl
  | cons s _ ih =>
    intro img
    rw [List.foldlM_cons, List.foldlM_cons]
    cases s.toCircle.Draw fuel img k with
    | none => rfl
    | some im => exact ih im
  | swap s t l =>
    intro img
    have hc := Draw_bind_comm fuel t.toCircle s.toCircle img k
    have e : ∀ (a b : Seed),
        List.foldlM (fun (im : Image) (seed : Seed) => seed.toCircle.Draw fuel im k) img
          (a :: b :: l) =
        ((a.toCircle.Draw fuel img k).bind (fun im => b.toCircle.Draw fuel im k)).bind
          (fun im => List.foldlM (fun (im : Image) (seed : Seed) => seed.toCircle.Draw fuel im k)
            im l) := by
      intro a b
      rw [List.foldlM_cons, Option.bind_assoc]
      rfl
    rw [e, e, hc]
  | trans _ _ ih1 ih2 =>
    intro img
    rw [ih1, ih2]

/-- C18: drawing markers is order-independent: for every buffer, two circles (overlapping
or not) and one colour, drawing `c1` then `c2` yields the same result as drawing `c2`
then `c1`; hence the overlay loop gives the same result for every permutation of the
seed list. -/
theorem Draw_order_independent (fuel : Nat) (k : Color) :
    (∀ (c1 c2 : Circle) (img : Image),
      (c1.Draw fuel img k).bind (fun im => c2.Draw fuel im k) =
        (c2.Draw fuel img k).bind (fun im => c1.Draw fuel im k)) ∧
    (∀ (seeds seeds' : List Seed) (img : Image), seeds.Perm seeds' →
      drawSeeds fuel seeds k img = drawSeeds fuel seeds' k img) :=
  ⟨fun c1 c2 img => Draw_bind_comm fuel c1 c2 img k,
    fun seeds seeds' img h => drawSeeds_perm fuel k seeds seeds' h img⟩

/-- Witness of C18: the two overlapping markers of the seeds `(0,0)` and `(1,1)` drawn in
both orders on a fresh `3 × 3` buffer; both orders terminate with the same buffer. -/
theorem Draw_order_independent_witness :
    ((⟨⟨0, 0⟩, 1⟩ : Circle).Draw 4 (NewRGBA 3 3) COLOR_SEED).bind
        (fun im => circleUnit.Draw 4 im COLOR_SEED) =
      (circleUnit.Draw 4 (NewRGBA 3 3) COLOR_SEED).bind
        (fun im => (⟨⟨0, 0⟩, 1⟩ : Circle).Draw 4 im COLOR_SEED) ∧
    ((circleUnit.Draw 4 (NewRGBA 3 3) COLOR_SEED).bind
        (fun im => (⟨⟨0, 0⟩, 1⟩ : Circle).Draw 4 im COLOR_SEED)).isSome = true :=
  ⟨(Draw_order_independent 4 COLOR_SEED).1 ⟨⟨0, 0⟩, 1⟩ circleUnit (NewRGBA 3 3), by decide!⟩

/-! ## Range of the generated seed centres -/

theorem genStep_centre {σ : Type} (Intn : σ → Int → Int × σ) (W H : Nat) (st : List Seed × σ)
    (i : Nat) :
    (genStep Intn W H st i).1 =
      st.1.set i ⟨⟨⟨(Intn st.2 (wrapInt (W + 1))).1,
        (Intn (Intn st.2 (wrapInt (W + 1))).2 (wrapInt (H + 1))).1⟩, seedRadius⟩,
        colorList.getD (i % colorList.length) ⟨0, 0, 0, 0⟩⟩ := rfl

/-- After the first `k` iterations, the first `k` seeds of the slice have centres that
satisfy a property every pair of draws `Intn(W + 1)`, `Intn(H + 1)` satisfies. -/
theorem genSeeds_prefix_centre {σ : Type} (Intn : σ → Int → Int × σ) (W H n : Nat)
    (P : Int → Int → Prop)
    (hP : ∀ s t : σ, P (Intn s (wrapInt (W + 1))).1 (Intn t (wrapInt (H + 1))).1)
    (st0 : List Seed × σ) (hlen : st0.1.length = n) :
    ∀ k, k ≤ n →
      ((List.range k).foldl (genStep Intn W H) st0).1.length = n ∧
      ∀ i, i < k → ∃ s, ((List.range k).foldl (genStep Intn W H) st0).1[i]? = some s ∧
        P s.p.X s.p.Y := by
  intro k
  induction k with
  | zero =>
    intro _
    exact ⟨hlen, fun i hi => absurd hi (Nat.not_lt_zero _)⟩
  | succ k ih =>
    intro hk
    obtain ⟨h1, h2⟩ := ih (by omega)
    rw [List.range_succ, List.foldl_append, List.foldl_cons, List.foldl_nil, genStep_centre]
    refine ⟨by rw [List.length_set, h1], ?_⟩
    intro i hi
    rcases Nat.lt_or_ge i k with hlt | hge
    · obtain ⟨s, hs1, hs2⟩ := h2 i hlt
      refine ⟨s, ?_, hs2⟩
      rw [List.getElem?_set_ne (by omega)]
      exact hs1
    · have hik : i = k := by omega
      subst hik
      refine ⟨_, List.getElem?_set_self (by omega), ?_⟩
      exact hP _ _

theorem genSeeds_centre {σ : Type} (Intn : σ → Int → Int × σ) (W H : Nat)
    (P : Int → Int → Prop)
    (hP : ∀ s t : σ, P (Intn s (wrapInt (W + 1))).1 (Intn t (wrapInt (H + 1))).1) (rng : σ) :
    ∀ seed ∈ (genSeeds Intn W H rng).1, P seed.p.X seed.p.Y := by
  have hp := genSeeds_prefix_centre Intn W H seedCount P hP
    (List.replicate seedCount ⟨⟨⟨0, 0⟩, 0⟩, ⟨0, 0, 0, 0⟩⟩, rng) (by simp) seedCount (le_refl _)
  rw [← genSeeds_eq] at hp
  obtain ⟨h1, h2⟩ := hp
  generalize (genSeeds Intn W H rng).1 = l at h1 h2
  intro seed hs
  obtain ⟨i, hi, he⟩ := List.getElem_of_mem hs
  obtain ⟨s, hs1, hs2⟩ := h2 i (by rw [← h1]; exact hi)
  rw [List.getElem?_eq_getElem hi, he] at hs1
  rw [Option.some.inj hs1]
  exact hs2

/-- C11: with `Intn(n)` returning an arbitrary integer of `[0, n)`, every generated seed
centre `(x, y)` satisfies `0 ≤ x ≤ W` and `0 ≤ y ≤ H` for the image width `W` and
height `H`, both upper bounds inclusive; and the values `x = W`, `y = H` are attained for
some random source, one unit outside the pixel range `[0, W) × [0, H)`. -/
theorem genSeeds_centre_range (W H : Nat) (hW : (W : Int) + 1 < 2 ^ 63)
    (hH : (H : Int) + 1 < 2 ^ 63) :
    (∀ (σ : Type) (Intn : σ → Int → Int × σ) (rng : σ), ValidIntn Intn →
      ∀ seed ∈ (genSeeds Intn W H rng).1,
        0 ≤ seed.p.X ∧ seed.p.X ≤ W ∧ 0 ≤ seed.p.Y ∧ seed.p.Y ≤ H) ∧
    (ValidIntn maxIntn ∧ (genSeeds maxIntn W H ()).1 ≠ [] ∧
      ∀ seed ∈ (genSeeds maxIntn W H ()).1, seed.p.X = W ∧ seed.p.Y = H) := by
  have eW : wrapInt ((W : Int) + 1) = W + 1 := wrapInt_eq _ (by omega) hW
  have eH : wrapInt ((H : Int) + 1) = H + 1 := wrapInt_eq _ (by omega) hH
  refine ⟨?_, ?_, ?_, ?_⟩
  · intro σ Intn rng hv
    apply genSeeds_centre Intn W H (fun x y => 0 ≤ x ∧ x ≤ W ∧ 0 ≤ y ∧ y ≤ H)
    intro s t
    rw [eW, eH]
    have h1 := hv s (W + 1) (by omega)
    have h2 := hv t (H + 1) (by omega)
    omega
  · intro s n hn
    unfold maxIntn
    simp only
    omega
  · intro h
    have hl := (genSeeds_prefix_centre maxIntn W H seedCount (fun _ _ => True)
      (fun _ _ => trivial) (List.replicate seedCount ⟨⟨⟨0, 0⟩, 0⟩, ⟨0, 0, 0, 0⟩⟩, ())
      (by simp) seedCount (le_refl _)).1
    rw [← genSeeds_eq, h] at hl
    exact absurd hl (by decide)
  · apply genSeeds_centre maxIntn W H (fun x y => x = W ∧ y = H)
    intro s t
    rw [eW, eH]
    unfold maxIntn
    simp only
    omega

/-- Witness of C11: the image of `main`, `800 × 600`. -/
theorem genSeeds_centre_range_witness :
    ((imageWidth : Nat) : Int) + 1 < 2 ^ 63 ∧ ((imageHeight : Nat) : Int) + 1 < 2 ^ 63 ∧
    (∀ (σ : Type) (Intn : σ → Int → Int × σ) (rng : σ), ValidIntn Intn →
      ∀ seed ∈ (genSeeds Intn imageWidth imageHeight rng).1,
        0 ≤ seed.p.X ∧ seed.p.X ≤ imageWidth ∧ 0 ≤ seed.p.Y ∧ seed.p.Y ≤ imageHeight) ∧
    (ValidIntn maxIntn ∧ (genSeeds maxIntn imageWidth imageHeight ()).1 ≠ [] ∧
      ∀ seed ∈ (genSeeds maxIntn imageWidth imageHeight ()).1,
        seed.p.X = imageWidth ∧ seed.p.Y = imageHeight) :=
  ⟨by decide, by decide, genSeeds_centre_range imageWidth imageHeight (by decide) (by decide)⟩

/-! ## Determinism of the render pipeline -/

/-- C12: for a non-empty seed list, the result of the render pipeline depends on the seed
list, the dimensions and the marker colour only: two runs on well-formed `W × H` buffers
with different contents and with different background colours give the same result; and
when no loop bound of the overlay overflows and the fuel covers the side of every
bounding square, both runs return one and the same buffer. -/
theorem renderFrom_deterministic (W H fuel : Nat) (seeds : List Seed) (m bg1 bg2 : Color)
    (img1 img2 : Image) (hne : seeds ≠ []) (hw1 : img1.WellFormed) (hw2 : img2.WellFormed)
    (hW1 : img1.W = W) (hH1 : img1.H = H) (hW2 : img2.W = W) (hH2 : img2.H = H) :
    renderFrom W H fuel seeds bg1 m img1 = renderFrom W H fuel seeds bg2 m img2 ∧
    ((∀ s ∈ seeds, s.toCircle.NoOverflow ∧ (2 * s.r + 1).toNat < fuel) →
      ∃ out, renderFrom W H fuel seeds bg1 m img1 = some out ∧
        renderFrom W H fuel seeds bg2 m img2 = some out) := by
  rw [renderFrom_eq _ _ _ _ hne, renderFrom_eq _ _ _ _ hne]
  have hcells : paintF (paintF img1 (grid W H) (fun _ => bg1)) (grid W H) (cellColor seeds) =
      paintF (paintF img2 (grid W H) (fun _ => bg2)) (grid W H) (cellColor seeds) := by
    have w1 := paintF_WellFormed (grid W H) (fun _ => bg1) _ hw1
    have w2 := paintF_WellFormed (grid W H) (fun _ => bg2) _ hw2
    apply Image.ext_At _ _ (paintF_WellFormed _ _ _ w1) (paintF_WellFormed _ _ _ w2)
    · rw [paintF_W, paintF_W, paintF_W, paintF_W, hW1, hW2]
    · rw [paintF_H, paintF_H, paintF_H, paintF_H, hH1, hH2]
    · intro x y hb
      rw [paintF_inBounds, paintF_inBounds] at hb
      have hb1 := hb
      rw [Image.inBounds_iff, hW1, hH1] at hb
      have hg : (⟨x, y⟩ : Point) ∈ grid W H := (mem_grid W H x y).2 hb
      have hb2 : img2.inBounds x y = true := by
        rw [Image.inBounds_iff, hW2, hH2]; exact hb
      rw [paintF_At _ _ _ w1, paintF_At _ _ _ w2, paintF_inBounds, paintF_inBounds,
        if_pos ⟨hg, hb1⟩, if_pos ⟨hg, hb2⟩]
  rw [hcells]
  refine ⟨rfl, fun hno => ?_⟩
  obtain ⟨pts, hpts⟩ := seedsTrace_some fuel seeds hno
  rw [hpts]
  exact ⟨_, rfl, rfl⟩

/-- Witness of C12: a fresh `2 × 2` buffer with a black background against a buffer of
four arbitrary colours with a white background; both runs return the same buffer. -/
theorem renderFrom_deterministic_witness :
    [seedA] ≠ [] ∧ (NewRGBA 2 2).WellFormed ∧
    (Image.mk 2 2 [red, white, black, red]).WellFormed ∧
    (NewRGBA 2 2).W = 2 ∧ (NewRGBA 2 2).H = 2 ∧
    (Image.mk 2 2 [red, white, black, red]).W = 2 ∧
    (Image.mk 2 2 [red, white, black, red]).H = 2 ∧
    (∀ s ∈ [seedA], s.toCircle.NoOverflow ∧ (2 * s.r + 1).toNat < 4) ∧
    renderFrom 2 2 4 [seedA] black COLOR_SEED (NewRGBA 2 2) =
      renderFrom 2 2 4 [seedA] white COLOR_SEED (Image.mk 2 2 [red, white, black, red]) ∧
    ∃ out, renderFrom 2 2 4 [seedA] black COLOR_SEED (NewRGBA 2 2) = some out ∧
      renderFrom 2 2 4 [seedA] white COLOR_SEED (Image.mk 2 2 [red, white, black, red]) =
        some out :=
  ⟨by decide, by decide, by decide, by decide, by decide, by decide, by decide, by decide,
    (renderFrom_deterministic 2 2 4 [seedA] COLOR_SEED black white (NewRGBA 2 2)
      (Image.mk 2 2 [red, white, black, red]) (by decide) (by decide) (by decide) (by decide)
      (by decide) (by decide) (by decide)).1,
    (renderFrom_deterministic 2 2 4 [seedA] COLOR_SEED black white (NewRGBA 2 2)
      (Image.mk 2 2 [red, white, black, red]) (by decide) (by decide) (by decide) (by decide)
      (by decide) (by decide) (by decide)).2 (by decide)⟩

/-! ## `IsInside` and `Dist` against exact arithmetic -/

namespace F64

/-- The conversion of a negative Go `int` is a negative finite value. -/
theorem ofInt_neg (z : Int) (hz : z.natAbs ≤ 2 ^ 63) (hneg : z < 0) :
    ∃ q : Int, ofInt z = fin q ∧ q < 0 := by
  have h : z.natAbs * 2 ^ 1074 ≤ 2 ^ 1137 := by
    calc z.natAbs * 2 ^ 1074 ≤ 2 ^ 63 * 2 ^ 1074 := Nat.mul_le_mul_right _ hz
      _ = 2 ^ 1137 := by rw [← pow_add]
  have h1 := roundNat_le_pow _ 1137 0 h (by omega)
  have h2 : roundNat (z.natAbs * 2 ^ 1074) 0 < overflow :=
    lt_of_le_of_lt h1 (Nat.pow_lt_pow_right (by norm_num) (by norm_num))
  have h3 : 1 * 2 ^ 1074 ≤ roundNat (z.natAbs * 2 ^ 1074) 0 := by
    have hm := roundNat_mono 0 (show 1 * 2 ^ 1074 ≤ z.natAbs * 2 ^ 1074 from
      Nat.mul_le_mul_right _ (by omega))
    rwa [roundNat_exact 1 1074 0 (by norm_num) (by omega), Nat.sub_zero] at hm
  have h4 : 0 < roundNat (z.natAbs * 2 ^ 1074) 0 :=
    lt_of_lt_of_le (by positivity) h3
  unfold ofInt round
  simp only [if_neg (not_le.2 h2), decide_eq_true hneg, if_true]
  exact ⟨_, rfl, by omega⟩

/-- The square root of a perfect square of quanta-scaled integers is exact. -/
theorem sqrt_perfect (k : Nat) (hk : k ≤ 2 ^ 53) :
    sqrt (fin ((k * k * 2 ^ 1074 : Nat) : Int)) = fin ((k * 2 ^ 1074 : Nat) : Int) := by
  rcases Nat.eq_zero_or_pos k with h0 | h0
  · subst h0
    simp [sqrt]
  · have hq : 0 < k * k * 2 ^ 1074 := Nat.mul_pos (Nat.mul_pos h0 h0) (by positivity)
    have e : k * k * 2 ^ 1074 * 2 ^ 1074 = k * 2 ^ 1074 * (k * 2 ^ 1074) := by ring
    have h1 := sqrt_le_of_le (k * k * 2 ^ 1074) k 1074 hq hk (by norm_num) (le_of_eq e)
    have h2 := le_roundNat_sqrtArg (k * k * 2 ^ 1074) k 1074 hk (le_of_eq e.symm)
    rw [h1.1]
    congr 2
    omega

end F64

theorem rnd_nonpos_iff (x : Int) : rnd x ≤ 0 ↔ x ≤ 0 := by
  have h0 : rnd 0 = 0 := by
    have := rnd_exact 0 0 (by simp)
    simpa using this
  have h1 : rnd 1 = 1 := by
    have := rnd_exact 1 0 (by norm_num)
    simpa using this
  constructor
  · intro h
    by_contra hc
    have := rnd_mono (show (1 : Int) ≤ x by omega)
    omega
  · intro h
    have := rnd_mono h
    omega

/-- C14 (amended): for a circle whose radius `r` is a Go `int`: if `r < 0`, `IsInside`
returns false for every point; if `0 ≤ r < 2^26`, then for every point whose coordinate
differences to the centre are below `2^26` in magnitude, `IsInside` returns true if and
only if `(cx - px)^2 + (cy - py)^2 ≤ r^2`. -/
theorem IsInside_iff_sqDist (c : Circle) (hr : IsInt64 c.r) :
    (c.r < 0 → ∀ p : Point, c.IsInside p = false) ∧
    (0 ≤ c.r → c.r < 2 ^ 26 → ∀ p : Point,
      (c.p.X - p.X).natAbs < 2 ^ 26 → (c.p.Y - p.Y).natAbs < 2 ^ 26 →
        (c.IsInside p = true ↔ c.sqDist p ≤ c.r * c.r)) := by
  have hr2 : c.r.natAbs ≤ 2 ^ 63 := by
    unfold IsInt64 minInt maxInt at hr
    omega
  constructor
  · intro hneg p
    obtain ⟨s, es, _⟩ := F64.sqrt_sumsq_fin _ _ (wrapInt_natAbs (c.p.X - p.X))
      (wrapInt_natAbs (c.p.Y - p.Y))
    obtain ⟨q, eq, hq⟩ := F64.ofInt_neg c.r hr2 hneg
    unfold Circle.IsInside
    simp only
    rw [es, eq, le_fin_fin]
    simp only [decide_eq_false_iff_not, not_le]
    omega
  · intro h0 h26 p hx hy
    have e26 : ((2 : Nat) ^ 26 : Int) = 2 ^ 26 := by norm_num
    have := IsInside_iff c p hx hy (by omega)
    unfold Circle.sqDist
    rw [this]
    exact ⟨fun h => h.2, fun h => ⟨h0, h⟩⟩

/-- Witness of C14: the circle of centre `(5,5)` and radius 2. -/
theorem IsInside_iff_sqDist_witness :
    IsInt64 seedMid.toCircle.r ∧
    (seedMid.toCircle.r < 0 → ∀ p : Point, seedMid.toCircle.IsInside p = false) ∧
    (0 ≤ seedMid.toCircle.r → seedMid.toCircle.r < 2 ^ 26 → ∀ p : Point,
      (seedMid.toCircle.p.X - p.X).natAbs < 2 ^ 26 →
      (seedMid.toCircle.p.Y - p.Y).natAbs < 2 ^ 26 →
        (seedMid.toCircle.IsInside p = true ↔
          seedMid.toCircle.sqDist p ≤ seedMid.toCircle.r * seedMid.toCircle.r)) :=
  ⟨by decide, IsInside_iff_sqDist seedMid.toCircle (by decide)⟩

/-- Counterexample to C14 as stated: for the circle of centre `(2^30, 1)` and radius
`2^30 ≥ 0` and the point `(0,0)`, the squared distance `2^60 + 1` exceeds `r^2 = 2^60`,
yet `float64` rounds the sum to `2^60` and `IsInside` returns true. -/
theorem IsInside_beyond_radius :
    0 ≤ seedFar.toCircle.r ∧ seedFar.toCircle.IsInside ⟨0, 0⟩ = true ∧
    ¬ (seedFar.toCircle.sqDist ⟨0, 0⟩ ≤ seedFar.toCircle.r * seedFar.toCircle.r) := by
  refine ⟨by decide, by decide!, by decide⟩

/-- In the exact range, `Dist` compares with `k - r` as the squared distance compares
with `k^2`. -/
theorem Dist_cmp (c : Circle) (p : Point) (hx : (c.p.X - p.X).natAbs < 2 ^ 23)
    (hy : (c.p.Y - p.Y).natAbs < 2 ^ 23) (hr : c.r.natAbs ≤ 2 ^ 24) (k : Nat)
    (hk : k < 2 ^ 24) :
    ∃ q : Int, c.Dist p = F64.fin q ∧
      (c.sqDist p < k * k → q < (k - c.r) * 2 ^ 1074) ∧
      (c.sqDist p = k * k → q = (k - c.r) * 2 ^ 1074) ∧
      ((k : Int) * k < c.sqDist p → (k - c.r) * 2 ^ 1074 < q) := by
  obtain ⟨e, hlt, hnn⟩ := Dist_eq_sqrt_sub c p hx hy hr
  have e24 : (2 : Nat) ^ 24 * 2 ^ 24 = 2 ^ 48 := by norm_num
  have hkk : k * k < 2 ^ 48 := by
    calc k * k ≤ k * 2 ^ 24 := Nat.mul_le_mul_left _ (le_of_lt hk)
      _ < 2 ^ 24 * 2 ^ 24 := Nat.mul_lt_mul_of_pos_right hk (by norm_num)
      _ = 2 ^ 48 := e24
  have e53 : (2 : Nat) ^ 24 + 2 ^ 24 ≤ 2 ^ 53 := by norm_num
  have hsub : F64.sqrt (F64.fin ((k * k * 2 ^ 1074 : Nat) : Int)) - F64.fin (c.r * 2 ^ 1074) =
      F64.fin (((k : Int) - c.r) * 2 ^ 1074) := by
    have ek : ((k * 2 ^ 1074 : Nat) : Int) = (k : Int) * 2 ^ 1074 := by push_cast; ring
    rw [F64.sqrt_perfect k (by omega), ek]
    exact F64.sub_exact (k : Int) c.r (by omega)
  have hA : ((c.sqDist p).toNat : Int) = c.sqDist p := Int.toNat_of_nonneg hnn
  have hint : IsInt64 c.r := by
    unfold IsInt64 minInt maxInt
    have : (2 : Nat) ^ 24 < 2 ^ 62 := by norm_num
    have e1 : (2 : Int) ^ 63 = 2 ^ 62 + 2 ^ 62 := by norm_num
    have e2 : ((2 : Nat) ^ 62 : Int) = 2 ^ 62 := by norm_num
    omega
  obtain ⟨q, hq, _⟩ := Dist_fin c p hint
  refine ⟨q, hq, ?_, ?_, ?_⟩
  · intro h
    have hAB : (c.sqDist p).toNat < k * k := by omega
    have := dist_lt_of_lt _ _ c.r hAB hkk hr
    rw [← e, hsub, hq, lt_fin_fin, decide_eq_true_eq] at this
    exact this
  · intro h
    have hAB : (c.sqDist p).toNat = k * k := by omega
    rw [e, hAB, hsub] at hq
    exact (F64.fin.inj hq).symm
  · intro h
    have hAB : k * k < (c.sqDist p).toNat := by omega
    have := dist_lt_of_lt _ _ c.r hAB (by omega) hr
    rw [← e, hsub, hq, lt_fin_fin, decide_eq_true_eq] at this
    exact this

/-- C15 (amended): for a circle whose radius is a Go `int`, a point is inside the circle
exactly when `Dist(p)` is at most zero: if `IsInside(p)` then `Dist(p) ≤ 0`, and
conversely. Where the squares and their sum are exact (`|cx - px|` and `|cy - py|` below
`2^23`, `|r| < 2^24`), with `d2 = (cx - px)^2 + (cy - py)^2`: `Dist(p)` is the correctly
rounded square root of the integer `d2`, minus the radius; for all integers
`0 ≤ k < 2^24`, `k^2 ≤ d2` gives `k - r ≤ Dist(p)` and `d2 ≤ k^2` gives
`Dist(p) ≤ k - r`; `Dist(p)` is negative exactly when `0 ≤ r` and `d2 < r^2`; and
`Dist(p)` is zero exactly when `0 ≤ r` and `d2 = r^2`. -/
theorem IsInside_iff_Dist_nonpos (c : Circle) (p : Point) (hr : IsInt64 c.r) :
    (c.IsInside p = true ↔ F64.le (c.Dist p) (F64.fin 0) = true) ∧
    ((c.p.X - p.X).natAbs < 2 ^ 23 → (c.p.Y - p.Y).natAbs < 2 ^ 23 → c.r.natAbs < 2 ^ 24 →
      c.Dist p = F64.sqrt (F64.ofInt (c.sqDist p)) - F64.ofInt c.r ∧
      (∀ k : Nat, k < 2 ^ 24 →
        ((k : Int) * k ≤ c.sqDist p → F64.le (F64.ofInt (k - c.r)) (c.Dist p) = true) ∧
        (c.sqDist p ≤ k * k → F64.le (c.Dist p) (F64.ofInt (k - c.r)) = true)) ∧
      (F64.lt (c.Dist p) (F64.fin 0) = true ↔ 0 ≤ c.r ∧ c.sqDist p < c.r * c.r) ∧
      (c.Dist p = F64.fin 0 ↔ 0 ≤ c.r ∧ c.sqDist p = c.r * c.r)) := by
  have hr2 : c.r.natAbs ≤ 2 ^ 63 := by
    unfold IsInt64 minInt maxInt at hr
    omega
  have hiff : c.IsInside p = true ↔ F64.le (c.Dist p) (F64.fin 0) = true := by
    obtain ⟨s, es, hs⟩ := F64.sqrt_sumsq_fin _ _ (wrapInt_natAbs (c.p.X - p.X))
      (wrapInt_natAbs (c.p.Y - p.Y))
    obtain ⟨t, et, ht⟩ := F64.ofInt_fin c.r hr2
    unfold Circle.IsInside Circle.Dist
    simp only
    have hb : ((s : Int) + -t).natAbs ≤ 2 ^ 2097 := by
      have e1 : (2 : Nat) ^ 1139 + 2 ^ 1137 ≤ 2 ^ 2097 := by
        have a1 : (2 : Nat) ^ 1139 ≤ 2 ^ 2096 := Nat.pow_le_pow_right (by norm_num) (by norm_num)
        have a2 : (2 : Nat) ^ 1137 ≤ 2 ^ 2096 := Nat.pow_le_pow_right (by norm_num) (by norm_num)
        have a3 : (2 : Nat) ^ 2097 = 2 ^ 2096 + 2 ^ 2096 := by rw [pow_succ]; omega
        omega
      omega
    rw [es, et, F64.sub_eq_add_neg, F64.neg_fin, F64.fin_add_fin_rnd _ _ hb, le_fin_fin,
      le_fin_fin, decide_eq_true_eq, decide_eq_true_eq, rnd_nonpos_iff]
    omega
  refine ⟨hiff, ?_⟩
  intro hx hy hr4
  have hr3 : c.r.natAbs ≤ 2 ^ 24 := le_of_lt hr4
  have e53 : (2 : Nat) ^ 47 ≤ 2 ^ 53 := Nat.pow_le_pow_right (by norm_num) (by norm_num)
  have e24 : (2 : Nat) ^ 24 ≤ 2 ^ 53 := Nat.pow_le_pow_right (by norm_num) (by norm_num)
  have e25 : (2 : Nat) ^ 24 + 2 ^ 24 ≤ 2 ^ 53 := by norm_num
  have e26 : (2 : Nat) ^ 24 < 2 ^ 26 := by norm_num
  have e23 : (2 : Nat) ^ 23 < 2 ^ 26 := by norm_num
  obtain ⟨e, hlt, hnn⟩ := Dist_eq_sqrt_sub c p hx hy hr3
  refine ⟨?_, ?_, ?_, ?_⟩
  · rw [F64.ofInt_exact (c.sqDist p) (by omega), F64.ofInt_exact c.r (by omega), e]
    congr 2
    push_cast
    rw [Int.toNat_of_nonneg hnn]
  · intro k hk
    obtain ⟨q, hq, h1, h2, h3⟩ := Dist_cmp c p hx hy hr3 k hk
    rw [F64.ofInt_exact ((k : Int) - c.r) (by omega), hq, le_fin_fin, le_fin_fin,
      decide_eq_true_eq, decide_eq_true_eq]
    constructor
    · intro h
      rcases lt_or_eq_of_le h with h4 | h4
      · exact le_of_lt (h3 h4)
      · exact le_of_eq (h2 h4.symm).symm
    · intro h
      rcases lt_or_eq_of_le h with h4 | h4
      · exact le_of_lt (h1 h4)
      · exact le_of_eq (h2 h4)
  · rcases lt_or_le c.r 0 with hneg | hpos
    · have hin : ¬ c.IsInside p = true := fun h =>
        absurd ((IsInside_iff c p (by omega) (by omega) (by omega)).1 h).1 (not_le.2 hneg)
      obtain ⟨q, hq, _⟩ := Dist_fin c p hr
      rw [hiff, hq, le_fin_fin, decide_eq_true_eq] at hin
      rw [hq, lt_fin_fin, decide_eq_true_eq]
      exact ⟨fun h => absurd (le_of_lt h) hin, fun h => absurd h.1 (by omega)⟩
    · obtain ⟨q, hq, h1, h2, h3⟩ := Dist_cmp c p hx hy hr3 c.r.toNat (by omega)
      have ec : ((c.r.toNat : Nat) : Int) = c.r := Int.toNat_of_nonneg hpos
      rw [ec, sub_self, zero_mul] at h1 h2 h3
      rw [hq, lt_fin_fin, decide_eq_true_eq]
      constructor
      · intro h
        refine ⟨hpos, ?_⟩
        by_contra hc
        rcases lt_or_eq_of_le (not_lt.1 hc) with h4 | h4
        · exact absurd (h3 h4) (by omega)
        · exact absurd (h2 h4.symm) (by omega)
      · intro h
        exact h1 h.2
  · rcases lt_or_le c.r 0 with hneg | hpos
    · have hin : ¬ c.IsInside p = true := fun h =>
        absurd ((IsInside_iff c p (by omega) (by omega) (by omega)).1 h).1 (not_le.2 hneg)
      obtain ⟨q, hq, _⟩ := Dist_fin c p hr
      rw [hiff, hq, le_fin_fin, decide_eq_true_eq] at hin
      rw [hq]
      constructor
      · intro h
        have := F64.fin.inj h
        omega
      · intro h
        exact absurd h.1 (by omega)
    · obtain ⟨q, hq, h1, h2, h3⟩ := Dist_cmp c p hx hy hr3 c.r.toNat (by omega)
      have ec : ((c.r.toNat : Nat) : Int) = c.r := Int.toNat_of_nonneg hpos
      rw [ec, sub_self, zero_mul] at h1 h2 h3
      rw [hq]
      constructor
      · intro h
        have hq0 : q = 0 := F64.fin.inj h
        refine ⟨hpos, ?_⟩
        rcases lt_trichotomy (c.sqDist p) (c.r * c.r) with h4 | h4 | h4
        · exact absurd (h1 h4) (by omega)
        · exact h4
        · exact absurd (h3 h4) (by omega)
      · intro h
        rw [h2 h.2]

/-- Witness of C15: the circle of centre `(5,5)` and radius 2 and the point `(5,7)` on
its boundary. -/
theorem IsInside_iff_Dist_nonpos_witness :
    IsInt64 seedMid.toCircle.r ∧
    (seedMid.toCircle.p.X - (⟨5, 7⟩ : Point).X).natAbs < 2 ^ 23 ∧
    (seedMid.toCircle.p.Y - (⟨5, 7⟩ : Point).Y).natAbs < 2 ^ 23 ∧
    seedMid.toCircle.r.natAbs < 2 ^ 24 ∧
    (seedMid.toCircle.IsInside ⟨5, 7⟩ = true ↔
      F64.le (seedMid.toCircle.Dist ⟨5, 7⟩) (F64.fin 0) = true) ∧
    (seedMid.toCircle.Dist ⟨5, 7⟩ =
        F64.sqrt (F64.ofInt (seedMid.toCircle.sqDist ⟨5, 7⟩)) - F64.ofInt seedMid.toCircle.r ∧
      (∀ k : Nat, k < 2 ^ 24 →
        ((k : Int) * k ≤ seedMid.toCircle.sqDist ⟨5, 7⟩ →
          F64.le (F64.ofInt (k - seedMid.toCircle.r)) (seedMid.toCircle.Dist ⟨5, 7⟩) = true) ∧
        (seedMid.toCircle.sqDist ⟨5, 7⟩ ≤ k * k →
          F64.le (seedMid.toCircle.Dist ⟨5, 7⟩) (F64.ofInt (k - seedMid.toCircle.r)) = true)) ∧
      (F64.lt (seedMid.toCircle.Dist ⟨5, 7⟩) (F64.fin 0) = true ↔
        0 ≤ seedMid.toCircle.r ∧
          seedMid.toCircle.sqDist ⟨5, 7⟩ < seedMid.toCircle.r * seedMid.toCircle.r) ∧
      (seedMid.toCircle.Dist ⟨5, 7⟩ = F64.fin 0 ↔
        0 ≤ seedMid.toCircle.r ∧
          seedMid.toCircle.sqDist ⟨5, 7⟩ = seedMid.toCircle.r * seedMid.toCircle.r)) :=
  ⟨by decide, by decide, by decide, by decide,
    (IsInside_iff_Dist_nonpos seedMid.toCircle ⟨5, 7⟩ (by decide)).1,
    (IsInside_iff_Dist_nonpos seedMid.toCircle ⟨5, 7⟩ (by decide)).2 (by decide) (by decide)
      (by decide)⟩

/-- Counterexample to C15 as stated: the point `(1,0)` is inside the circle of centre
`(0,0)` and radius 1 (its distance equals the radius), and `Dist` is exactly zero there,
not negative. And `Dist` is not the exact distance minus the radius at large magnitudes:
the point `(0,0)` is at distance exactly `5k` from the centre `(3k, 4k)` for
`k = 326831327418569`, yet for the radius `5k` the rounded products give
`Dist = -0.25`. -/
theorem Dist_zero_on_boundary :
    circleOrigin.IsInside ⟨1, 0⟩ = true ∧ circleOrigin.Dist ⟨1, 0⟩ = F64.fin 0 ∧
    F64.lt (circleOrigin.Dist ⟨1, 0⟩) (F64.fin 0) = false ∧
    circleWide.sqDist ⟨0, 0⟩ = circleWide.r * circleWide.r ∧
    circleWide.Dist ⟨0, 0⟩ = F64.fin (-(2 ^ 1072)) := by
  refine ⟨by decide!, by decide!, by decide!, by decide, by decide!⟩

/-! ## The bounding square and equal radii -/

/-- A loop that writes one colour at the points that pass a test is the sequence of
writes at the points that pass. -/
theorem foldl_cond_eq_paint (P : Point → Bool) (k : Color) (pts : List Point) :
    ∀ img : Image,
      pts.foldl (fun im pt => if P pt = true then im.Set pt.X pt.Y k else im) img =
        paint img (pts.filter P) k := by
  induction pts with
  | nil => intro img; rfl
  | cons pt pts ih =>
    intro img
    rw [List.foldl_cons]
    by_cases hp : P pt = true
    · rw [if_pos hp, ih, List.filter_cons_of_pos hp]
      rfl
    · rw [if_neg hp, ih, List.filter_cons_of_neg hp]

theorem DrawWholeImage_eq (c : Circle) (img : Image) (k : Color) :
    c.DrawWholeImage img k = paint img ((grid img.W img.H).filter (fun pt => c.IsInside pt)) k :=
  foldl_cond_eq_paint (fun pt => c.IsInside pt) k _ img

/-- Reading a pixel after the whole-image scan. -/
theorem DrawWholeImage_At (c : Circle) (img : Image) (hw : img.WellFormed) (k : Color)
    (a b : Int) :
    (c.DrawWholeImage img k).At a b =
      if img.inBounds a b = true ∧ c.IsInside ⟨a, b⟩ = true then k else img.At a b := by
  rw [DrawWholeImage_eq]
  unfold paint
  rw [paintF_At _ _ _ hw]
  by_cases hb : img.inBounds a b = true
  · have hg : (⟨a, b⟩ : Point) ∈ grid img.W img.H :=
      (mem_grid _ _ a b).2 ((Image.inBounds_iff img a b).1 hb)
    by_cases hin : c.IsInside ⟨a, b⟩ = true
    · rw [if_pos ⟨List.mem_filter.2 ⟨hg, hin⟩, hb⟩, if_pos ⟨hb, hin⟩]
    · rw [if_neg (fun h => hin (List.mem_filter.1 h.1).2), if_neg (fun h => hin h.2)]
  · rw [if_neg (fun h => hb h.2), if_neg (fun h => hb h.1)]

/-- For a small circle, a point with coordinates below `2^25` in magnitude that passes
`IsInside` lies in the bounding square. -/
theorem Small.inSquare_of_abs (c : Circle) (h : c.Small) (p : Point) (hx : p.X.natAbs < 2 ^ 25)
    (hy : p.Y.natAbs < 2 ^ 25) (hin : c.IsInside p = true) : c.InSquare p.X p.Y := by
  unfold Circle.Small at h
  have e : (2 : Nat) ^ 26 = 2 ^ 25 + 2 ^ 25 := by norm_num
  obtain ⟨hr, hle⟩ := (IsInside_iff c p (by omega) (by omega) (by omega)).1 hin
  unfold Circle.InSquare
  have hx2 := abs_le_of_sq_le_sq' (by nlinarith [mul_self_nonneg (c.p.Y - p.Y)] :
    (c.p.X - p.X) ^ 2 ≤ c.r ^ 2) hr
  have hy2 := abs_le_of_sq_le_sq' (by nlinarith [mul_self_nonneg (c.p.X - p.X)] :
    (c.p.Y - p.Y) ^ 2 ≤ c.r ^ 2) hr
  omega

/-- C13 (amended): for a circle whose centre coordinates and radius have magnitude at
most `2^25`, restricting `Draw` to the bounding square loses no pixel: every point with
coordinates below `2^25` in magnitude that passes `IsInside` lies in the square
`[cx - r, cx + r] × [cy - r, cy + r]`; hence on every well-formed buffer of width and
height at most `2^25`, `Draw` returns the buffer that a scan of every pixel of the whole
image, setting those that pass `IsInside`, produces. -/
theorem Draw_eq_whole_image_scan (c : Circle) (img : Image) (k : Color) (fuel : Nat)
    (hc : c.Small) (hw : img.WellFormed) (hW : img.W ≤ 2 ^ 25) (hH : img.H ≤ 2 ^ 25)
    (hf : 2 ^ 26 + 1 < fuel) :
    (∀ p : Point, p.X.natAbs < 2 ^ 25 → p.Y.natAbs < 2 ^ 25 → c.IsInside p = true →
      c.p.X - c.r ≤ p.X ∧ p.X ≤ c.p.X + c.r ∧ c.p.Y - c.r ≤ p.Y ∧ p.Y ≤ c.p.Y + c.r) ∧
    c.Draw fuel img k = some (c.DrawWholeImage img k) := by
  refine ⟨fun p hx hy hin => Small.inSquare_of_abs c hc p hx hy hin, ?_⟩
  obtain ⟨out, h1, h2, h3, h4, h5⟩ :=
    Draw_spec c (Small.noOverflow c hc) fuel (Small.fuel c hc fuel hf) img hw k
  rw [h1]
  congr 1
  have hws : (c.DrawWholeImage img k).WellFormed := by
    rw [DrawWholeImage_eq]; exact paintF_WellFormed _ _ _ hw
  apply Image.ext_At _ _ h4 hws
  · rw [h2, DrawWholeImage_eq]; exact (paintF_W _ _ _).symm
  · rw [h3, DrawWholeImage_eq]; exact (paintF_H _ _ _).symm
  · intro a b _
    rw [h5, DrawWholeImage_At c img hw]
    by_cases hb : img.inBounds a b = true
    · by_cases hin : c.IsInside ⟨a, b⟩ = true
      · have hsq := InSquare_of_small c img hc hW hH a b hb hin
        unfold Circle.InSquare at hsq
        rw [if_pos ⟨⟨hsq.1, hsq.2.1, hsq.2.2.1, hsq.2.2.2, hin⟩, hb⟩, if_pos ⟨hb, hin⟩]
      · rw [if_neg (fun h => hin h.1.2.2.2.2), if_neg (fun h => hin h.2)]
    · rw [if_neg (fun h => hb h.2), if_neg (fun h => hb h.1)]

/-- Witness of C13: the unit circle at `(1,1)` on a fresh `3 × 3` buffer. -/
theorem Draw_eq_whole_image_scan_witness :
    circleUnit.Small ∧ (NewRGBA 3 3).WellFormed ∧ (NewRGBA 3 3).W ≤ 2 ^ 25 ∧
    (NewRGBA 3 3).H ≤ 2 ^ 25 ∧ 2 ^ 26 + 1 < 2 ^ 27 ∧
    (∀ p : Point, p.X.natAbs < 2 ^ 25 → p.Y.natAbs < 2 ^ 25 → circleUnit.IsInside p = true →
      circleUnit.p.X - circleUnit.r ≤ p.X ∧ p.X ≤ circleUnit.p.X + circleUnit.r ∧
      circleUnit.p.Y - circleUnit.r ≤ p.Y ∧ p.Y ≤ circleUnit.p.Y + circleUnit.r) ∧
    circleUnit.Draw (2 ^ 27) (NewRGBA 3 3) COLOR_SEED =
      some (circleUnit.DrawWholeImage (NewRGBA 3 3) COLOR_SEED) :=
  ⟨by decide, by decide, by decide, by decide, by decide,
    Draw_eq_whole_image_scan circleUnit (NewRGBA 3 3) COLOR_SEED (2 ^ 27) (by decide)
      (by decide) (by decide) (by decide) (by decide)⟩

/-- Counterexample to C13 as stated: the point `(0,0)` passes `IsInside` for the circle
of centre `(2^53 + 1, 0)` and radius `2^53`, yet `0 < cx - r = 1`; and on a `1 × 1`
buffer the whole-image scan sets the pixel `(0,0)` while `Draw` leaves it as it was. -/
theorem IsInside_outside_square :
    circleBig.IsInside ⟨0, 0⟩ = true ∧ ¬ (circleBig.p.X - circleBig.r ≤ 0) ∧
    (circleBig.DrawWholeImage (NewRGBA 1 1) COLOR_SEED).At 0 0 = COLOR_SEED ∧
    (circleBig.Draw (2 ^ 54 + 3) (NewRGBA 1 1) COLOR_SEED).map (fun out => out.At 0 0) =
      some ⟨0, 0, 0, 0⟩ := by
  refine ⟨by decide!, by decide, by decide!, ?_⟩
  obtain ⟨out, h1, _, _, _, h5⟩ := Draw_spec circleBig (by decide) (2 ^ 54 + 3) (by decide)
    (NewRGBA 1 1) (by decide) COLOR_SEED
  rw [h1, Option.map_some', h5, if_neg]
  · rfl
  · intro h
    exact absurd h.1.1 (by decide)

/-- C16 (amended): when all seeds of a non-empty list have one radius `r` with
`|r| ≤ 2^24`, and the coordinate differences between the pixel and every seed centre are
below `2^23` in magnitude, `getClosestSeed` returns the first seed in list order that
minimises the integer squared distance `(cx - px)^2 + (cy - py)^2`: the list splits at
the returned seed, every seed before it has a strictly larger squared distance and no
seed after it has a smaller one. -/
theorem getClosestSeed_equal_radius (p : Point) (seeds : List Seed) (r : Int) (hne : seeds ≠ [])
    (hr : ∀ s ∈ seeds, s.r = r) (hr2 : r.natAbs ≤ 2 ^ 24)
    (hd : ∀ s ∈ seeds, (s.p.X - p.X).natAbs < 2 ^ 23 ∧ (s.p.Y - p.Y).natAbs < 2 ^ 23) :
    ∃ l1 b l2, seeds = l1 ++ b :: l2 ∧ getClosestSeed p seeds = some b ∧
      (∀ t ∈ l1, b.sqDist p < t.sqDist p) ∧ (∀ t ∈ l2, b.sqDist p ≤ t.sqDist p) := by
  have hint : ∀ s ∈ seeds, IsInt64 s.r := by
    intro s hs
    rw [hr s hs]
    unfold IsInt64 minInt maxInt
    have : (2 : Nat) ^ 24 < 2 ^ 62 := by norm_num
    have e : (2 : Int) ^ 63 = 2 ^ 62 + 2 ^ 62 := by norm_num
    have e' : ((2 : Nat) ^ 62 : Int) = 2 ^ 62 := by norm_num
    omega
  obtain ⟨l1, b, l2, h1, h2, h3, h4⟩ := getClosestSeed_split p seeds hne hint
  have hb : b ∈ seeds := by rw [h1]; simp
  have hlt : ∀ s ∈ seeds, ∀ t ∈ seeds,
      F64.lt (s.Dist p) (t.Dist p) = decide (s.sqDist p < t.sqDist p) := by
    intro s hs t ht
    exact Dist_lt_iff s.toCircle t.toCircle p (by rw [hr s hs, hr t ht])
      (by rw [hr s hs]; exact hr2) (hd s hs).1 (hd s hs).2 (hd t ht).1 (hd t ht).2
  refine ⟨l1, b, l2, h1, h2, ?_, ?_⟩
  · intro t ht
    have hts : t ∈ seeds := by rw [h1]; simp [ht]
    have := h3 t ht
    rw [hlt b hb t hts] at this
    simpa using this
  · intro t ht
    have hts : t ∈ seeds := by rw [h1]; simp [ht]
    have h5 := lt_false_of_le p b t (hint b hb) (hint t hts) (h4 t ht)
    rw [hlt t hts b hb] at h5
    simpa using h5

/-- Witness of C16: the two seeds `(0,0)` and `(9,9)` of radius 1 and the tie pixel
`(4,5)`. -/
theorem getClosestSeed_equal_radius_witness :
    [seedA, seedB] ≠ [] ∧ (∀ s ∈ [seedA, seedB], s.r = 1) ∧ (1 : Int).natAbs ≤ 2 ^ 24 ∧
    (∀ s ∈ [seedA, seedB], (s.p.X - (⟨4, 5⟩ : Point).X).natAbs < 2 ^ 23 ∧
      (s.p.Y - (⟨4, 5⟩ : Point).Y).natAbs < 2 ^ 23) ∧
    ∃ l1 b l2, [seedA, seedB] = l1 ++ b :: l2 ∧
      getClosestSeed ⟨4, 5⟩ [seedA, seedB] = some b ∧
      (∀ t ∈ l1, b.sqDist ⟨4, 5⟩ < t.sqDist ⟨4, 5⟩) ∧
      (∀ t ∈ l2, b.sqDist ⟨4, 5⟩ ≤ t.sqDist ⟨4, 5⟩) :=
  ⟨by decide, by decide, by decide, by decide,
    getClosestSeed_equal_radius ⟨4, 5⟩ [seedA, seedB] 1 (by decide) (by decide) (by decide)
      (by decide)⟩

/-- Counterexample to C16 as stated: with the common radius `2^53`, the seeds at `(1,1)`
and `(1,0)` are at squared distances 2 and 1 from the pixel `(0,0)`, but both `Dist`
values round to `-(2^53 - 1)`; `getClosestSeed` returns the first seed, which does not
minimise the squared distance. -/
theorem getClosestSeed_equal_radius_tie :
    seedDiag.r = seedNear.r ∧
    getClosestSeed ⟨0, 0⟩ [seedDiag, seedNear] = some seedDiag ∧
    seedNear.sqDist ⟨0, 0⟩ < seedDiag.sqDist ⟨0, 0⟩ ∧
    seedDiag.Dist ⟨0, 0⟩ = seedNear.Dist ⟨0, 0⟩ := by
  refine ⟨by decide, by decide!, by decide, by decide!⟩

end Voronoi
